import Mathlib

/-!
# yunran-utils: the audio conversion pipeline of `src/app.js`

A shallow embedding of the parts of `src/app.js` that the specification talks
about: the WAV encoder `AudioConverter.audioBufferToWav` (lines 370-418) and the
batch controller `AudioConverter.startConversion` (lines 289-346), with the
JavaScript primitives they use.

## Numbers

The samples of an `AudioBuffer` are the elements of a `Float32Array`.  Every such
element is a NaN, an infinity or a dyadic rational; `-0` is identified with `0`
(every operation used below gives the same result on both).  `Js.JsNum` therefore
carries a rational or one of the three special values.  The arithmetic of lines
409-410 is exact on these values: after clamping, the sample `s` is a float32 in
`[-1, 1]`, so `s * 32768` and `s * 32767` have at most 39 significant bits and are
exact doubles, and `0.5 + s` is either non-negative (and rounds to a non-negative
double) or an exact multiple of `2^-24` below zero.  Integers (lengths, offsets,
header fields) are natural numbers; the fixed-width stores of `DataView` reduce
them modulo `2^16` or `2^32`, as `ToUint16`/`ToUint32` do.  The allocation
`new ArrayBuffer(length)` is taken to succeed.
-/

namespace Js

/-- The Number values that an element of a `Float32Array` can hold. -/
inductive JsNum where
  | num (q : ℚ)
  | posInf
  | negInf
  | nan
  deriving DecidableEq, Repr

namespace JsNum

/-- The JavaScript `<` on Numbers: `false` as soon as one side is NaN. -/
def lt : JsNum → JsNum → Bool
  | nan, _ => false
  | _, nan => false
  | num a, num b => decide (a < b)
  | num _, posInf => true
  | num _, negInf => false
  | posInf, _ => false
  | negInf, negInf => false
  | negInf, _ => true

/-- The JavaScript `+` on Numbers. -/
def add : JsNum → JsNum → JsNum
  | nan, _ => nan
  | _, nan => nan
  | num a, num b => num (a + b)
  | num _, posInf => posInf
  | num _, negInf => negInf
  | posInf, negInf => nan
  | posInf, _ => posInf
  | negInf, posInf => nan
  | negInf, _ => negInf

/-- Sign of an infinite product: `x * ±Infinity` for a finite `x`. -/
def scaleInf (a : ℚ) (positive : Bool) : JsNum :=
  if a = 0 then nan
  else if (decide (0 < a)) = positive then posInf else negInf

/-- The JavaScript `*` on Numbers. -/
def mul : JsNum → JsNum → JsNum
  | nan, _ => nan
  | _, nan => nan
  | num a, num b => num (a * b)
  | num a, posInf => scaleInf a true
  | num a, negInf => scaleInf a false
  | posInf, num b => scaleInf b true
  | negInf, num b => scaleInf b false
  | posInf, posInf => posInf
  | posInf, negInf => negInf
  | negInf, posInf => negInf
  | negInf, negInf => posInf

end JsNum

open JsNum

/-- The function `Math.min` on two arguments: NaN if either is NaN. -/
def mathMin (a b : JsNum) : JsNum :=
  match a, b with
  | nan, _ => nan
  | _, nan => nan
  | a, b => if b.lt a then b else a

/-- The function `Math.max` on two arguments: NaN if either is NaN. -/
def mathMax (a b : JsNum) : JsNum :=
  match a, b with
  | nan, _ => nan
  | _, nan => nan
  | a, b => if a.lt b then b else a

/-- The abstract operation `truncate`: drop the fractional part, toward zero. -/
def truncate (q : ℚ) : ℤ :=
  if 0 ≤ q then ⌊q⌋ else -⌊-q⌋

/-- The abstract operation `ToInt32`, which is what `x | 0` applies to `x`:
NaN and the infinities give 0, a finite value is truncated and reduced modulo
`2^32` into `[-2^31, 2^31)`. -/
def toInt32 : JsNum → ℤ
  | num q => (truncate q + 2147483648) % 4294967296 - 2147483648
  | _ => 0

/-- The abstract operation `ToUint16` on an integer. -/
def toUint16 (v : ℤ) : ℕ := (v % 65536).toNat

/-- The abstract operation `ToInt16` on an integer. -/
def toInt16 (v : ℤ) : ℤ := (v + 32768) % 65536 - 32768

/-- The `width` little-endian bytes of a natural number, low byte first. -/
def leBytes : (width : ℕ) → ℕ → List ℕ
  | 0, _ => []
  | w + 1, v => v % 256 :: leBytes w (v / 256)

/-- Value of a little-endian byte sequence. -/
def ofLeBytes : List ℕ → ℕ
  | [] => 0
  | b :: bs => b + 256 * ofLeBytes bs

/-- The value `undefined` (absent) converts to NaN under `ToNumber`. -/
def toNumber (v : Option JsNum) : JsNum := v.getD nan

/-- What can stop the encoder: a `RangeError` raised by a `DataView` store that
does not fit the buffer, a `TypeError` raised by indexing `undefined`, an
`IndexSizeError` raised by `getChannelData`, or an exhausted iteration budget of
the `while` loop. -/
inductive Failure where
  | rangeError
  | typeError
  | indexSizeError
  | outOfFuel
  deriving DecidableEq, Repr

deriving instance DecidableEq for Except

namespace DataView

/-- Store the bytes `bs` at byte offset `pos` of a buffer, as the `DataView`
setters do: a `RangeError` when the bytes do not fit, no other byte changed. -/
def setBytes (view : List ℕ) (pos : ℕ) (bs : List ℕ) : Except Failure (List ℕ) :=
  if pos + bs.length ≤ view.length then
    .ok (view.take pos ++ bs ++ view.drop (pos + bs.length))
  else .error .rangeError

/-- The store `DataView.prototype.setUint16(pos, data, true)`. -/
def setUint16 (view : List ℕ) (pos data : ℕ) : Except Failure (List ℕ) :=
  setBytes view pos (leBytes 2 (data % 65536))

/-- The store `DataView.prototype.setUint32(pos, data, true)`. -/
def setUint32 (view : List ℕ) (pos data : ℕ) : Except Failure (List ℕ) :=
  setBytes view pos (leBytes 4 (data % 4294967296))

/-- The store `DataView.prototype.setInt16(pos, data, true)`. -/
def setInt16 (view : List ℕ) (pos : ℕ) (data : ℤ) : Except Failure (List ℕ) :=
  setBytes view pos (leBytes 2 (toUint16 data))

/-- The load `DataView.prototype.getUint16(pos, true)`. -/
def getUint16 (view : List ℕ) (pos : ℕ) : Option ℕ :=
  if pos + 2 ≤ view.length then some (ofLeBytes ((view.drop pos).take 2)) else none

/-- The load `DataView.prototype.getUint32(pos, true)`. -/
def getUint32 (view : List ℕ) (pos : ℕ) : Option ℕ :=
  if pos + 4 ≤ view.length then some (ofLeBytes ((view.drop pos).take 4)) else none

/-- The load `DataView.prototype.getInt16(pos, true)`. -/
def getInt16 (view : List ℕ) (pos : ℕ) : Option ℤ :=
  match getUint16 view pos with
  | some u => some (toInt16 (u : ℤ))
  | none => none

end DataView

end Js

namespace AudioConverter

open Js Js.JsNum

/-- The part of a Web Audio `AudioBuffer` that the encoder reads: `sampleRate`,
`length` (the frame count) and the channel arrays behind `getChannelData`. -/
structure AudioBuffer where
  sampleRate : ℕ
  length : ℕ
  channelData : List (List JsNum)

/-- The attribute `numberOfChannels`: the number of channel arrays. -/
def AudioBuffer.numberOfChannels (buffer : AudioBuffer) : ℕ :=
  buffer.channelData.length

/-- The method `getChannelData(i)`: an `IndexSizeError` for a channel that does
not exist. -/
def AudioBuffer.getChannelData (buffer : AudioBuffer) (i : ℕ) :
    Except Failure (List JsNum) :=
  match buffer.channelData[i]? with
  | some ch => .ok ch
  | none => .error .indexSizeError

/-- The invariant of a decoded buffer: every channel array has `length` elements. -/
def AudioBuffer.WellFormed (buffer : AudioBuffer) : Prop :=
  ∀ ch ∈ buffer.channelData, ch.length = buffer.length

instance (buffer : AudioBuffer) : Decidable buffer.WellFormed := by
  unfold AudioBuffer.WellFormed; infer_instance

/-- The result `new Blob([arrayBuffer], { type })`: bytes and a MIME label. -/
structure Blob where
  bytes : List ℕ
  type : String
  deriving DecidableEq, Repr

/-- A memory access of the write loop, recorded for the safety claims: the read
`channels[channel][index]` or the two-byte store at `pos`. -/
inductive Access where
  | read (channel index : ℕ)
  | write (pos : ℕ)
  deriving DecidableEq, Repr

/-- The local variables of `audioBufferToWav` that change while it runs (`view`
stands for the bytes of `arrayBuffer`), with the record of the accesses made by
the write loop. -/
structure Encoder where
  view : List ℕ
  pos : ℕ
  offset : ℕ
  log : List Access
  deriving DecidableEq, Repr

/-- The closure `setUint16` of lines 379-382: store at `pos`, advance by 2. -/
def setUint16 (s : Encoder) (data : ℕ) : Except Failure Encoder := do
  let view ← DataView.setUint16 s.view s.pos data
  pure { s with view := view, pos := s.pos + 2 }

/-- The closure `setUint32` of lines 383-386: store at `pos`, advance by 4. -/
def setUint32 (s : Encoder) (data : ℕ) : Except Failure Encoder := do
  let view ← DataView.setUint32 s.view s.pos data
  pure { s with view := view, pos := s.pos + 4 }

/-- Lines 409-410: clamp with `Math.max(-1, Math.min(1, x))`, then
`(0.5 + sample < 0 ? sample * 32768 : sample * 32767) | 0`.  The condition of
the conditional is `(0.5 + sample) < 0`, since `+` binds tighter than `<`. -/
def scaleSample (x : JsNum) : ℤ :=
  let sample := mathMax (num (-1)) (mathMin (num 1) x)
  toInt32 (if ((num (1 / 2)).add sample).lt (num 0) then sample.mul (num 32768)
    else sample.mul (num 32767))

/-- The loop of lines 403-405, from channel `i` on, `k` channels to go. -/
def collectChannels (buffer : AudioBuffer) :
    (k i : ℕ) → List (List JsNum) → Except Failure (List (List JsNum))
  | 0, _, channels => .ok channels
  | k + 1, i, channels => do
    let ch ← buffer.getChannelData i
    collectChannels buffer k (i + 1) (channels ++ [ch])

/-- The element read `channels[i][offset]`: a `TypeError` when `channels[i]` is
`undefined`, and `undefined` (here `none`) past the end of the channel array. -/
def element (channels : List (List JsNum)) (i offset : ℕ) :
    Except Failure (Option JsNum) :=
  match channels[i]? with
  | some ch => .ok ch[offset]?
  | none => .error .typeError

/-- The `for` loop of lines 408-413, from channel `i` on, `k` channels to go. -/
def forChannels (channels : List (List JsNum)) : (k i : ℕ) → Encoder → Except Failure Encoder
  | 0, _, s => .ok s
  | k + 1, i, s => do
    let x ← element channels i s.offset
    let sample := scaleSample (toNumber x)
    let view ← DataView.setInt16 s.view s.pos sample
    forChannels channels k (i + 1)
      { s with view := view, pos := s.pos + 2,
               log := s.log ++ [Access.read i s.offset, Access.write s.pos] }

/-- The `while (pos < length)` loop of lines 407-415, with a budget of `fuel`
iterations. -/
def writeLoop (channels : List (List JsNum)) (length numberOfChannels : ℕ) :
    (fuel : ℕ) → Encoder → Except Failure Encoder
  | 0, s => if s.pos < length then .error .outOfFuel else .ok s
  | fuel + 1, s =>
    if s.pos < length then do
      let s ← forChannels channels numberOfChannels 0 s
      writeLoop channels length numberOfChannels fuel { s with offset := s.offset + 1 }
    else .ok s

/-- The header stores of lines 388-400 on a fresh zero-filled buffer. -/
def writeHeader (buffer : AudioBuffer) (length : ℕ) : Except Failure Encoder := do
  let s : Encoder := { view := List.replicate length 0, pos := 0, offset := 0, log := [] }
  let s ← setUint32 s 0x46464952
  let s ← setUint32 s (length - 8)
  let s ← setUint32 s 0x45564157
  let s ← setUint32 s 0x20746d66
  let s ← setUint32 s 16
  let s ← setUint16 s 1
  let s ← setUint16 s buffer.numberOfChannels
  let s ← setUint32 s buffer.sampleRate
  let s ← setUint32 s (buffer.sampleRate * 2 * buffer.numberOfChannels)
  let s ← setUint16 s (buffer.numberOfChannels * 2)
  let s ← setUint16 s 16
  let s ← setUint32 s 0x61746164
  setUint32 s (length - s.pos - 4)

/-- The run of `audioBufferToWav(buffer)` (lines 370-418) up to the `return`:
the final local state. -/
def encode (fuel : ℕ) (buffer : AudioBuffer) : Except Failure Encoder := do
  let length := buffer.length * buffer.numberOfChannels * 2 + 44
  let s ← writeHeader buffer length
  let channels ← collectChannels buffer buffer.numberOfChannels 0 []
  writeLoop channels length buffer.numberOfChannels fuel s

/-- The method `audioBufferToWav(buffer)` (lines 370-418). -/
def audioBufferToWav (fuel : ℕ) (buffer : AudioBuffer) : Except Failure Blob := do
  let s ← encode fuel buffer
  pure { bytes := s.view, type := "audio/wav" }

end AudioConverter

namespace AudioConverter

open Js Js.JsNum

/-! ### Closed forms used to describe the encoder's result -/

/-- The state in which `w` has been written and `r` zero bytes are still ahead. -/
def Encoder.at (w : List ℕ) (r offset : ℕ) (log : List Access) : Encoder :=
  { view := w ++ List.replicate r 0, pos := w.length, offset := offset, log := log }

/-- The 44 header bytes for `numberOfChannels`, `length` (frames) and `sampleRate`. -/
def headerBytes (c n r : ℕ) : List ℕ :=
  leBytes 4 (0x46464952 % 4294967296) ++ leBytes 4 ((n * c * 2 + 44 - 8) % 4294967296)
    ++ leBytes 4 (0x45564157 % 4294967296) ++ leBytes 4 (0x20746d66 % 4294967296)
    ++ leBytes 4 (16 % 4294967296) ++ leBytes 2 (1 % 65536) ++ leBytes 2 (c % 65536)
    ++ leBytes 4 (r % 4294967296) ++ leBytes 4 (r * 2 * c % 4294967296)
    ++ leBytes 2 (c * 2 % 65536) ++ leBytes 2 (16 % 65536)
    ++ leBytes 4 (0x61746164 % 4294967296) ++ leBytes 4 ((n * c * 2) % 4294967296)

/-- The sample that the write loop converts for channel `i` at frame `offset`:
`channels[i][offset]` under `ToNumber`. -/
def sampleAt (channels : List (List JsNum)) (i offset : ℕ) : JsNum :=
  toNumber (channels[i]?.bind (fun ch => ch[offset]?))

/-- The two bytes stored for one sample. -/
def sampleBytes (x : JsNum) : List ℕ :=
  leBytes 2 (toUint16 (scaleSample x))

/-- The bytes of frame `offset` for the `k` channels from channel `i` on. -/
def frameBytes (channels : List (List JsNum)) (offset : ℕ) : (k i : ℕ) → List ℕ
  | 0, _ => []
  | k + 1, i => sampleBytes (sampleAt channels i offset) ++ frameBytes channels offset k (i + 1)

/-- The bytes of the `m` frames from frame `offset` on, `c` channels each. -/
def dataBytes (channels : List (List JsNum)) (c : ℕ) : (m offset : ℕ) → List ℕ
  | 0, _ => []
  | m + 1, offset => frameBytes channels offset c 0 ++ dataBytes channels c m (offset + 1)

/-- The accesses of one frame: for each of the `k` channels from channel `i` on,
the read of the sample and the store at the next position from `pos` on. -/
def frameLog (offset : ℕ) : (k i pos : ℕ) → List Access
  | 0, _, _ => []
  | k + 1, i, pos =>
    [Access.read i offset, Access.write pos] ++ frameLog offset k (i + 1) (pos + 2)

/-- The accesses of the `m` frames from frame `offset` on, stored from `pos` on. -/
def dataLog (c : ℕ) : (m offset pos : ℕ) → List Access
  | 0, _, _ => []
  | m + 1, offset, pos =>
    frameLog offset c 0 pos ++ dataLog c m (offset + 1) (pos + 2 * c)

/-- The unsigned 16-bit field at `pos` of the encoder's result, if it produced one. -/
def wavUint16 (fuel : ℕ) (buffer : AudioBuffer) (pos : ℕ) : Option ℕ :=
  match audioBufferToWav fuel buffer with
  | .ok blob => DataView.getUint16 blob.bytes pos
  | .error _ => none

/-- The unsigned 32-bit field at `pos` of the encoder's result, if it produced one. -/
def wavUint32 (fuel : ℕ) (buffer : AudioBuffer) (pos : ℕ) : Option ℕ :=
  match audioBufferToWav fuel buffer with
  | .ok blob => DataView.getUint32 blob.bytes pos
  | .error _ => none

/-- The signed 16-bit value at `pos` of the encoder's result, if it produced one. -/
def wavInt16 (fuel : ℕ) (buffer : AudioBuffer) (pos : ℕ) : Option ℤ :=
  match audioBufferToWav fuel buffer with
  | .ok blob => DataView.getInt16 blob.bytes pos
  | .error _ => none

end AudioConverter

namespace Js

/-- The JavaScript `<=` on Numbers: `false` as soon as one side is NaN. -/
def JsNum.le : JsNum → JsNum → Bool
  | .nan, _ => false
  | _, .nan => false
  | a, b => !(b.lt a)

/-- The code points of a string, one byte each for an ASCII tag. -/
def ascii (s : String) : List ℕ := s.toList.map Char.toNat

end Js

namespace AudioConverter

open Js Js.JsNum

/-- The sample conversion in the words of the specification (section 4.1, steps
1 to 3), for comparison with `scaleSample`: clamp to `[-1, 1]`, scale by 32768
if the clamped value is negative and by 32767 otherwise, truncate toward zero. -/
def claimedSample (s : ℚ) : ℤ :=
  let clamped := max (-1) (min 1 s)
  truncate (if clamped < 0 then clamped * 32768 else clamped * 32767)

/-- The clamped value of a sample that is a number, as a rational: the value of
`Math.max(-1, Math.min(1, x))`, which is 1 for `Infinity` and -1 for
`-Infinity`.  (For NaN, which has no clamped value, 0 is a placeholder.) -/
def clamped : JsNum → ℚ
  | num q => max (-1) (min 1 q)
  | posInf => 1
  | negInf => -1
  | nan => 0

/-- Two samples that the clamping law identifies: equal, or both at least 1, or
both at most -1. -/
def ClampEquivalent (x y : JsNum) : Prop :=
  x = y ∨ ((num 1).le x = true ∧ (num 1).le y = true)
    ∨ (x.le (num (-1)) = true ∧ y.le (num (-1)) = true)

/-- The 1-channel buffer at sample rate 44100 that holds the single sample `x`. -/
def monoBuffer (x : JsNum) : AudioBuffer :=
  { sampleRate := 44100, length := 1, channelData := [[x]] }

/-- A stereo buffer of two frames at sample rate 44100. -/
def stereoBuffer : AudioBuffer :=
  { sampleRate := 44100, length := 2,
    channelData := [[num 0, num 1], [num (1 / 2), num (-1)]] }

/-- A stereo buffer of `2^30` silent frames at 48 kHz (a little over six hours). -/
def longBuffer : AudioBuffer :=
  { sampleRate := 48000, length := 1073741824,
    channelData := [List.replicate 1073741824 (num 0), List.replicate 1073741824 (num 0)] }

end AudioConverter

namespace AudioConverter

open Js Js.JsNum

/-! ### The conversion queue (`src/app.js`, lines 97-107 and 279-346)

The items of the queue are JavaScript objects shared by reference between
`this.files`, `this.converted` and the local array `pendingFiles` of each
invocation of `startConversion`.  The model keeps them in a `heap` and lets the
three collections hold references (indices into the heap).  `startConversion` is
an `async` function: it runs up to the `await` of line 323, is suspended there,
and is resumed when the promise of `convertWithAudioContext` settles; other
events (a click, another invocation) can happen while it is suspended.  An
invocation suspended at the `await` is a `Run`.  The DOM is not modelled, except
for the two properties of the convert button that the code sets (`disabled`,
through `UIUtils.setLoading`, and the class `hidden`) and the toasts; the
elements that the code dereferences without a guard are taken to exist. -/

/-- The values of `item.status`. -/
inductive Status where
  | pending
  | converting
  | completed
  | error
  deriving DecidableEq, Repr

/-- The part of a `File` that the queue reads. -/
structure File where
  name : String
  size : ℕ
  deriving DecidableEq, Repr

/-- The object literal of lines 163-173: an item of the queue. -/
structure FileItem where
  id : ℚ
  file : File
  name : String
  size : ℕ
  ext : String
  status : Status
  progress : ℕ
  result : Option Blob
  error : Option String
  deriving DecidableEq, Repr

/-- The value with which a conversion is rejected, as far as line 330 looks at
it: `null` or `undefined` (reading `.message` of it throws a `TypeError`), or
any other value, with its `message` when that is a string. -/
inductive Thrown where
  | nullish
  | object (message : Option String)
  deriving DecidableEq, Repr

/-- The calls of `UIUtils.showToast` made by the queue: "upload files first"
(line 291), "all files are converted" (line 297), "converted `successCount`
files" (line 345), "reset" (line 502), "`name` exceeds the 100MB limit" (line
154), "added `count` files" (line 177) and "download started" (line 460). -/
inductive Toast where
  | uploadFirst
  | allConverted
  | converted (successCount : ℕ)
  | reset
  | overLimit (name : String)
  | added (count : ℕ)
  | downloadStarted
  deriving DecidableEq, Repr

/-- The object `this.config` of lines 101-105. -/
structure Config where
  format : String
  bitrate : ℕ
  normalize : Bool
  deriving DecidableEq, Repr

/-- The convert button `btn-convert-audio`: its `disabled` property and whether
it carries the class `hidden`. -/
structure Button where
  disabled : Bool
  hidden : Bool
  deriving DecidableEq, Repr

/-- An invocation of `startConversion` suspended at the `await` of line 323: its
local array `pendingFiles` and its loop counter `i`. -/
structure Run where
  pendingFiles : List ℕ
  i : ℕ
  deriving DecidableEq, Repr

/-- The `AudioConverter` instance with the objects it refers to, the suspended
invocations of `startConversion`, the convert button, the toasts shown so far and
the number of invocations of `startConversion` that ended by throwing, and
`this.config`. -/
structure App where
  heap : List FileItem
  files : List ℕ
  converted : List ℕ
  runs : List Run
  button : Button
  toasts : List Toast
  uncaught : ℕ
  config : Config
  deriving DecidableEq, Repr

/-- The instance after the constructor (lines 98-107): both collections empty. -/
def App.init : App :=
  { heap := [], files := [], converted := [], runs := [],
    button := { disabled := false, hidden := false }, toasts := [], uncaught := 0,
    config := { format := "mp3", bitrate := 192, normalize := true } }

/-- Replace the object behind reference `r`. -/
def App.setItem (app : App) (r : ℕ) (item : FileItem) : App :=
  { app with heap := app.heap.set r item }

/-- The test `f.status === status` on the object behind reference `r`. -/
def App.hasStatus (app : App) (status : Status) (r : ℕ) : Bool :=
  match app.heap[r]? with
  | some item => item.status == status
  | none => false

/-- The object literal of lines 163-173 for an accepted file. -/
def newItem (id : ℚ) (file : File) (ext : String) : FileItem :=
  { id := id, file := file, name := file.name, size := file.size, ext := ext,
    status := .pending, progress := 0, result := none, error := none }

/-- The call `this.files.push(item)` of line 163 with a freshly created object. -/
def pushFile (app : App) (item : FileItem) : App :=
  { app with heap := app.heap ++ [item], files := app.files ++ [app.heap.length] }

/-- The method `reset` (lines 472-503). -/
def reset (app : App) : App :=
  { app with files := [], converted := [], button := { app.button with hidden := false },
             toasts := app.toasts ++ [Toast.reset] }

/-- The method `removeFile(id)` (lines 279-287). -/
def removeFile (app : App) (id : ℚ) : App :=
  let keep : ℕ → Bool := fun r =>
    match app.heap[r]? with
    | some f => f.id != id
    | none => true
  let app := { app with files := app.files.filter keep, converted := app.converted.filter keep }
  if app.files.length = 0 then reset app else app

/-- The method `convertWithAudioContext(fileItem)` (lines 348-368), given what
reading and decoding the file gave: the item as the method leaves it and the
value with which its promise settles.  A failure of the reader or of the decoder
rejects with the error of that failure; after a successful decode the buffer is
encoded, `progress` is set to 100 and the promise resolves with the WAV blob; an
exception of the encoder is caught at line 361 and rejects. -/
def convertWithAudioContext (fileItem : FileItem) (decoded : Except Thrown AudioBuffer) :
    FileItem × Except Thrown Blob :=
  match decoded with
  | .error error => (fileItem, .error error)
  | .ok audioBuffer =>
    match audioBufferToWav audioBuffer.length audioBuffer with
    | .ok wavBlob => ({ fileItem with progress := 100 }, .ok wavBlob)
    | .error _ => (fileItem, .error (.object (some "RangeError")))

/-- The end of `startConversion` (lines 336-345): the button leaves the loading
state and is hidden, and the toast reports `this.converted.length`. -/
def finish (app : App) : App :=
  { app with button := { disabled := false, hidden := true },
             toasts := app.toasts ++ [Toast.converted app.converted.length] }

/-- The head of the `for` loop of line 312 and, when `i < pendingFiles.length`,
the body up to the `await` (lines 313-323): the item becomes `converting` with
progress 0 and the invocation is suspended.  Otherwise the loop is over and the
invocation finishes. -/
def loopHead (app : App) (run : Run) : App :=
  match run.pendingFiles[run.i]? with
  | some r =>
    match app.heap[r]? with
    | some fileItem =>
      { app.setItem r { fileItem with status := .converting, progress := 0 } with
        runs := app.runs ++ [run] }
    | none => app
  | none => finish app

/-- The method `startConversion` (lines 289-346) from its call to its first
suspension or to its return. -/
def startConversion (app : App) : App :=
  if app.files.length = 0 then
    { app with toasts := app.toasts ++ [Toast.uploadFirst] }
  else
    let pendingFiles := app.files.filter (app.hasStatus .pending)
    if pendingFiles.length = 0 then
      { app with toasts := app.toasts ++ [Toast.allConverted] }
    else
      loopHead { app with button := { app.button with disabled := true } }
        { pendingFiles := pendingFiles, i := 0 }

/-- The continuation of the suspended invocation `k` of `startConversion` when
the promise it awaits settles (lines 323-334, then the next turn of the loop).
On success the item becomes `completed`, gets its result and is pushed on
`converted`.  On failure the item becomes `error` and gets `error.message` or,
when that is absent or empty, the fallback text of line 330; when the rejection
value is `null` or `undefined`, reading `error.message` throws inside the `catch`
block and the invocation ends there. -/
def resume (app : App) (k : ℕ) (decoded : Except Thrown AudioBuffer) : App :=
  match app.runs[k]? with
  | none => app
  | some run =>
    let app := { app with runs := app.runs.eraseIdx k }
    match run.pendingFiles[run.i]? with
    | none => app
    | some r =>
      match app.heap[r]? with
      | none => app
      | some fileItem =>
        match convertWithAudioContext fileItem decoded with
        | (fileItem, .ok result) =>
          let app := app.setItem r { fileItem with status := .completed, result := some result }
          let app := { app with converted := app.converted ++ [r] }
          loopHead app { run with i := run.i + 1 }
        | (fileItem, .error .nullish) =>
          let app := app.setItem r { fileItem with status := .error }
          { app with uncaught := app.uncaught + 1 }
        | (fileItem, .error (.object message)) =>
          let text := match message with
            | some m => if m = "" then "转换失败" else m
            | none => "转换失败"
          let app := app.setItem r { fileItem with status := .error, error := some text }
          loopHead app { run with i := run.i + 1 }

/-- A click on the convert button (line 144): the listener invokes
`startConversion`; a disabled button dispatches no click event. -/
def clickConvert (app : App) : App :=
  if app.button.disabled then app else startConversion app

/-- The statuses of the items of the queue, in queue order. -/
def App.statuses (app : App) : List (Option Status) :=
  app.files.map (fun r => app.heap[r]?.map (fun item => item.status))

end AudioConverter

namespace Js

/-- The number of halvings that bring `n` below 2, for at most `fuel` halvings. -/
def log2Aux : ℕ → ℕ → ℕ
  | 0, _ => 0
  | fuel + 1, n => if n < 2 then 0 else log2Aux fuel (n / 2) + 1

/-- The integer part of the binary logarithm of a positive natural number. -/
def floorLog2 (n : ℕ) : ℕ := log2Aux n n

/-- The exponent `e` with `2^e <= x < 2^(e+1)`, for a positive rational `x`. -/
def binaryExponent (x : ℚ) : ℤ :=
  if 1 ≤ x then (floorLog2 ⌊x⌋.toNat : ℤ)
  else
    let n := ⌈x⁻¹⌉.toNat
    if n ≤ 1 then 0 else -((floorLog2 (n - 1) : ℤ) + 1)

/-- Rounding to the nearest integer, ties to the even one. -/
def roundHalfEven (q : ℚ) : ℤ :=
  let f := ⌊q⌋
  if q - f < 1 / 2 then f
  else if 1 / 2 < q - f then f + 1
  else if f % 2 = 0 then f else f + 1

/-- The Number (IEEE 754 binary64, 53 significant bits) nearest to a rational,
ties to even, for values in the normal range: the result of a JavaScript
arithmetic operation whose exact result is `x`. -/
def toDouble (x : ℚ) : ℚ :=
  if x = 0 then 0
  else
    let ulp : ℚ := 2 ^ (binaryExponent |x| - 52)
    roundHalfEven (x / ulp) * ulp

/-- The scan of `String.prototype.lastIndexOf` for a single character: the
position of the last occurrence seen so far, from position `i` on. -/
def lastIndexOfAux (c : Char) : List Char → ℕ → ℤ → ℤ
  | [], _, found => found
  | x :: xs, i, found => lastIndexOfAux c xs (i + 1) (if x = c then (i : ℤ) else found)

/-- The method `String.prototype.lastIndexOf` for a single character: the
position of its last occurrence, or -1.  Positions count code points; the
strings are sliced below only right after a `.`, where code points and UTF-16
code units give the same text. -/
def lastIndexOf (s : String) (c : Char) : ℤ := lastIndexOfAux c s.toList 0 (-1)

/-- The operation `x >>> 0` on an integer: `ToUint32`. -/
def toUint32 (x : ℤ) : ℕ := (x % 4294967296).toNat

/-- The method `String.prototype.slice(start)` for a non-negative `start`. -/
def slice (s : String) (start : ℕ) : String := String.mk (s.toList.drop start)

/-- The text that `name.replace(/\.[^/.]+$/, '')` leaves: the regular expression
matches a `.` followed, up to the end of the string, by one or more characters
other than `/` and `.`; such a match can only start at the last `.` of the
string. -/
def stripExtension (name : String) : String :=
  let idx := lastIndexOf name '.'
  if idx < 0 then name
  else
    let rest := name.toList.drop (idx.toNat + 1)
    if rest ≠ [] ∧ '/' ∉ rest then String.mk (name.toList.take idx.toNat) else name

end Js

namespace CONFIG

/-- The constant `CONFIG.MAX_AUDIO_SIZE` of line 6. -/
def MAX_AUDIO_SIZE : ℕ := 100 * 1024 * 1024

end CONFIG

namespace UIUtils

open Js

/-- The method `UIUtils.getFileExtension` (lines 91-93):
`filename.slice((filename.lastIndexOf('.') - 1 >>> 0) + 2).toLowerCase()`.  The
platform's `String.prototype.toLowerCase` is a parameter. -/
def getFileExtension (toLowerCase : String → String) (filename : String) : String :=
  toLowerCase (slice filename (toUint32 (lastIndexOf filename '.' - 1) + 2))

end UIUtils

namespace AudioConverter

open Js Js.JsNum

/-- The loop `validFiles.forEach` of lines 162-174: the `k`-th accepted file of
the call gets the id `Date.now() + Math.random()`, a Number, from the clock
reading `now k` and the random draw `random k` made for it. -/
def pushFiles (toLowerCase : String → String) (now : ℕ → ℕ) (random : ℕ → ℚ) :
    List File → ℕ → App → App
  | [], _, app => app
  | file :: validFiles, k, app =>
    pushFiles toLowerCase now random validFiles (k + 1)
      (pushFile app (newItem (toDouble ((now k : ℚ) + random k)) file
        (UIUtils.getFileExtension toLowerCase file.name)))

/-- The method `handleUpload` (lines 149-178) on the files of the input element:
each file over the size limit is reported and dropped, the others are pushed on
the queue. -/
def handleUpload (toLowerCase : String → String) (app : App) (fileList : List File)
    (now : ℕ → ℕ) (random : ℕ → ℚ) : App :=
  let validFiles := fileList.filter (fun file => !decide (file.size > CONFIG.MAX_AUDIO_SIZE))
  let app := { app with
    toasts := app.toasts
      ++ (fileList.filter (fun file => decide (file.size > CONFIG.MAX_AUDIO_SIZE))).map
          (fun file => Toast.overLimit file.name) }
  if validFiles.length = 0 then app
  else
    let app := pushFiles toLowerCase now random validFiles 0 app
    { app with toasts := app.toasts ++ [Toast.added validFiles.length] }

/-- The method `setFormat` (lines 180-190), as far as the instance goes. -/
def setFormat (app : App) (format : String) : App :=
  { app with config := { app.config with format := format } }

/-- The method `clear` (lines 466-470). -/
def clear (app : App) : App :=
  reset { app with files := [], converted := [] }

/-- A file handed to the browser for download, or added to the archive. -/
structure Download where
  name : String
  content : Blob
  deriving DecidableEq, Repr

/-- The destination name of lines 426 and 442:
`name.replace(/\.[^/.]+$/, '') + '.' + this.config.format`. -/
def newName (app : App) (name : String) : String :=
  stripExtension name ++ "." ++ app.config.format

/-- The method `downloadSingle(id)` (lines 420-431): nothing when no item of the
queue has this id or the first such item has no result. -/
def downloadSingle (app : App) (id : ℚ) : Option Download :=
  match app.files.find? (fun r =>
      match app.heap[r]? with
      | some f => f.id == id
      | none => false) with
  | none => none
  | some r =>
    match app.heap[r]? with
    | none => none
    | some fileItem =>
      match fileItem.result with
      | none => none
      | some result => some { name := newName app fileItem.name, content := result }

/-- The archive that `downloadAll` builds: the folder name of line 438 and the
calls of `folder.file` of line 443, in order (an entry added under a name that
the folder already holds replaces the earlier one). -/
structure Archive where
  folder : String
  entries : List Download
  deriving DecidableEq, Repr

/-- The method `downloadAll` (lines 433-464) up to the archive: nothing when
`converted` is empty. -/
def downloadAll (app : App) : Option Archive :=
  if app.converted.length = 0 then none
  else
    some
      { folder := "音频转换_" ++ app.config.format ++ "_" ++ toString app.config.bitrate ++ "kbps",
        entries := app.converted.filterMap (fun r =>
          match app.heap[r]? with
          | none => none
          | some item =>
            match item.result with
            | none => none
            | some result => some { name := newName app item.name, content := result }) }

/-- What can happen to the instance: the methods that the page calls and the
settling of the promise that a suspended run awaits. -/
inductive Event where
  | upload (fileList : List File) (now : ℕ → ℕ) (random : ℕ → ℚ)
  | remove (id : ℚ)
  | start
  | click
  | settle (k : ℕ) (decoded : Except Thrown AudioBuffer)
  | reset
  | clear

/-- The effect of an event on the instance. -/
def step (toLowerCase : String → String) (app : App) : Event → App
  | .upload fileList now random => handleUpload toLowerCase app fileList now random
  | .remove id => removeFile app id
  | .start => startConversion app
  | .click => clickConvert app
  | .settle k decoded => resume app k decoded
  | .reset => reset app
  | .clear => clear app

/-- The instance after a sequence of events. -/
def trace (toLowerCase : String → String) (app : App) (events : List Event) : App :=
  events.foldl (step toLowerCase) app

/-- Whether an event invokes `startConversion`. -/
def Event.starts : Event → Bool
  | .start => true
  | .click => true
  | _ => false

/-- The continuation of the run that was started when `n` other runs were
suspended, if it is still suspended: it is the last of the suspended runs. -/
def continueRun (n : ℕ) (app : App) (decoded : Except Thrown AudioBuffer) : App :=
  if app.runs.length = n + 1 then resume app n decoded else app

/-- A run of `startConversion` without any other event in between: the call,
then one continuation for each of the given conversion outcomes. -/
def conversionRun (app : App) (outcomes : List (Except Thrown AudioBuffer)) : App :=
  outcomes.foldl (continueRun app.runs.length) (startConversion app)

/-- The item on which the last suspended run is waiting. -/
def App.current (app : App) : Option ℕ :=
  match app.runs.getLast? with
  | some run => run.pendingFiles[run.i]?
  | none => none

/-- An event of the orderly use of the page: `startConversion` is invoked only
when no run is suspended, and a conversion is not rejected with `null` or
`undefined`. -/
def Event.Orderly (app : App) : Event → Prop
  | .start => app.runs = []
  | .settle _ decoded => decoded ≠ .error .nullish
  | _ => True

/-- The states that the instance reaches from its construction through orderly
events. -/
inductive Orderly (toLowerCase : String → String) : App → Prop where
  | init : Orderly toLowerCase App.init
  | step (app : App) (e : Event) :
    Orderly toLowerCase app → e.Orderly app → Orderly toLowerCase (step toLowerCase app e)

/-- The invariant of the item record: a result exactly in the state `completed`,
an error description exactly in the state `error`. -/
def FileItem.Consistent (item : FileItem) : Prop :=
  (item.result ≠ none ↔ item.status = .completed) ∧ (item.error ≠ none ↔ item.status = .error)

/-- The number of objects in the state `converting`. -/
def App.converting (app : App) : ℕ :=
  app.heap.countP (fun item => item.status == .converting)

end AudioConverter

namespace AudioConverter

/-- An example file. -/
def fileA : File := { name := "a.mp3", size := 1000 }

/-- A second example file. -/
def fileB : File := { name := "b.mp3", size := 2000 }

/-- The queue after the upload of the two example files: both items pending. -/
def twoPending : App :=
  pushFile (pushFile App.init (newItem 1 fileA "mp3")) (newItem 2 fileB "mp3")

/-- The queue after the upload of `fileA` and a run that converted it. -/
def afterFirstRun : App :=
  resume (startConversion (pushFile App.init (newItem 1 fileA "mp3"))) 0
    (.ok (monoBuffer (Js.JsNum.num 1)))

/-- The queue of `afterFirstRun` after the upload of `fileB` and a second run
that converted it. -/
def afterSecondRun : App :=
  resume (startConversion (pushFile afterFirstRun (newItem 2 fileB "mp3"))) 0
    (.ok (monoBuffer (Js.JsNum.num 0)))

/-- The queue of `twoPending` after a click on the convert button, the successful
conversion of the first item, the removal of that item from the list (its remove
button) while the second item is converting, and the successful conversion of the
second item. -/
def afterRemovalRun : App :=
  resume (removeFile (resume (clickConvert twoPending) 0 (.ok (monoBuffer (Js.JsNum.num 1)))) 1)
    0 (.ok (monoBuffer (Js.JsNum.num 0)))

/-- The item as lines 323-331 leave it when the awaited conversion settles: see
`resume`. -/
def settled (fileItem : FileItem) (decoded : Except Thrown AudioBuffer) : FileItem :=
  match convertWithAudioContext fileItem decoded with
  | (fileItem, .ok result) => { fileItem with status := .completed, result := some result }
  | (fileItem, .error .nullish) => { fileItem with status := .error }
  | (fileItem, .error (.object message)) =>
    { fileItem with
      status := .error,
      error := some (match message with
        | some m => if m = "" then "转换失败" else m
        | none => "转换失败") }

/-- Whether the awaited conversion resolves, so that the item is pushed on
`converted`. -/
def succeeded (fileItem : FileItem) (decoded : Except Thrown AudioBuffer) : Bool :=
  match (convertWithAudioContext fileItem decoded).2 with
  | .ok _ => true
  | .error _ => false

/-- Whether the `catch` block of lines 327-331 throws: the rejection value is
`null` or `undefined`. -/
def raises (fileItem : FileItem) (decoded : Except Thrown AudioBuffer) : Bool :=
  match (convertWithAudioContext fileItem decoded).2 with
  | .error .nullish => true
  | _ => false

/-- Two records of the same file: equal id, file, name, size and extension. -/
def SameIdentity (a b : FileItem) : Prop :=
  a.id = b.id ∧ a.file = b.file ∧ a.name = b.name ∧ a.size = b.size ∧ a.ext = b.ext

/-- The frame of a run over the references `touched`: every object that existed
before still exists with the same identity, and it is unchanged unless its
reference is among `touched`. -/
def Frame (touched : List ℕ) (before after : List FileItem) : Prop :=
  ∀ (r : ℕ) (item : FileItem), before[r]? = some item →
    ∃ item' : FileItem, after[r]? = some item' ∧ SameIdentity item item'
      ∧ (r ∉ touched → item' = item)

/-- The items that `pushFiles` creates for the accepted files, in order. -/
def uploadedItems (toLowerCase : String → String) (now : ℕ → ℕ) (random : ℕ → ℚ) :
    List File → ℕ → List FileItem
  | [], _ => []
  | file :: validFiles, k =>
    newItem (Js.toDouble ((now k : ℚ) + random k)) file
        (UIUtils.getFileExtension toLowerCase file.name)
      :: uploadedItems toLowerCase now random validFiles (k + 1)

/-- The arguments of one call of `handleUpload`: the files of the input element
and the clock readings and random draws made for the accepted ones. -/
structure UploadCall where
  fileList : List File
  now : ℕ → ℕ
  random : ℕ → ℚ

/-- The instance after a sequence of calls of `handleUpload`. -/
def uploads (toLowerCase : String → String) (calls : List UploadCall) : App :=
  calls.foldl (fun app call => handleUpload toLowerCase app call.fileList call.now call.random)
    App.init

/-- The files of a call that `handleUpload` accepts. -/
def UploadCall.accepted (call : UploadCall) : List File :=
  call.fileList.filter (fun file => decide (file.size ≤ CONFIG.MAX_AUDIO_SIZE))

/-- The ids that a call of `handleUpload` forms for its accepted files. -/
def UploadCall.ids (call : UploadCall) : List ℚ :=
  (List.range call.accepted.length).map
    (fun k => Js.toDouble ((call.now k : ℚ) + call.random k))

/-- The ids that a sequence of calls of `handleUpload` forms, in order. -/
def stampedIds : List UploadCall → List ℚ
  | [] => []
  | call :: calls => call.ids ++ stampedIds calls

/-- The queue of two pending items after a click on the convert button and the
rejection of the first conversion with `null`. -/
def afterNullRejection : App :=
  conversionRun twoPending [.error .nullish]

/-- A file named `track.mp3`. -/
def trackFile : File := { name := "track.mp3", size := 3000 }

/-- The queue after the upload of `track.mp3` and a run that converted it. -/
def afterTrackRun : App :=
  conversionRun (pushFile App.init (newItem 7 trackFile "mp3"))
    [.ok (monoBuffer (Js.JsNum.num 1))]

/-- One call of `handleUpload` with the two example files, both stamped within
the same millisecond, with the random draws `0.5` and `0.5 + 2^-14`. -/
def collidingCall : UploadCall :=
  { fileList := [fileA, fileB], now := fun _ => 1700000000000,
    random := fun k => 1 / 2 + (k : ℚ) / 16384 }

/-- One call of `handleUpload` with the two example files, stamped within the
same millisecond, with the random draws `0.25` and `0.75`. -/
def spacedCall : UploadCall :=
  { fileList := [fileA, fileB], now := fun _ => 1700000000000,
    random := fun k => 1 / 4 + (k : ℚ) / 2 }

/-- The queue after `collidingCall`. -/
def collidingUpload : App :=
  uploads (fun s => s) [collidingCall]

/-- The queue after the upload of the two example files in one call of
`handleUpload`, two invocations of `startConversion` in a row, the successful
conversion of the second item by the second run, and the successful conversion
of the first item by the first run, which then takes up the second item again. -/
def overlapped : App :=
  trace (fun s => s) App.init
    [.upload spacedCall.fileList spacedCall.now spacedCall.random,
     .start, .start, .settle 1 (.ok (monoBuffer (Js.JsNum.num 0))),
     .settle 0 (.ok (monoBuffer (Js.JsNum.num 1)))]

/-- No object is in the state `converting`. -/
def App.Idle (app : App) : Prop :=
  ∀ (r : ℕ) (item : FileItem), app.heap[r]? = some item → item.status ≠ .converting

/-- At most one run is suspended, and an object is `converting` only while that
run awaits its conversion. -/
def App.SingleFlight (app : App) : Prop :=
  app.runs.length ≤ 1
    ∧ ∀ (r : ℕ) (item : FileItem), app.heap[r]? = some item → item.status = .converting →
        ∃ run : Run, app.runs = [run] ∧ run.pendingFiles[run.i]? = some r

/-- The state of a run between two turns of its loop, `i` being the next turn:
the references of `pendingFiles` are pairwise different and those from `i` on
are `pending`. -/
def Run.Ready (app : App) (run : Run) : Prop :=
  run.pendingFiles.Nodup
    ∧ ∀ (j r : ℕ), run.i ≤ j → run.pendingFiles[j]? = some r → app.hasStatus .pending r = true

/-- The state of a suspended run in the orderly use of the page: the references
of `pendingFiles` are pairwise different, the item that the run is waiting for is
`converting` and the items after it are `pending`. -/
def Run.Sound (app : App) (run : Run) : Prop :=
  run.pendingFiles.Nodup
    ∧ (∀ r : ℕ, run.pendingFiles[run.i]? = some r → app.hasStatus .converting r = true)
    ∧ ∀ (j r : ℕ), run.i < j → run.pendingFiles[j]? = some r → app.hasStatus .pending r = true

/-- The invariant of the orderly use of the page: every object is consistent,
the queue holds pairwise different references to existing objects, and a
suspended run is the only one, is sound and has the convert button disabled. -/
structure App.Sound (app : App) : Prop where
  consistent : ∀ (r : ℕ) (item : FileItem), app.heap[r]? = some item → item.Consistent
  nodup : app.files.Nodup
  bound : ∀ r ∈ app.files, r < app.heap.length
  single : ∀ run ∈ app.runs, app.runs = [run] ∧ app.button.disabled = true ∧ run.Sound app

/-- The instance after the upload of `track.mp3`, an invocation of
`startConversion` and the successful conversion of the item. -/
def orderlyRun : App :=
  step (fun s => s)
    (step (fun s => s)
      (step (fun s => s) App.init
        (.upload [trackFile] (fun _ => 1700000000000) (fun _ => 1 / 2)))
      .start)
    (.settle 0 (.ok (monoBuffer (Js.JsNum.num 1))))

end AudioConverter

namespace AudioConverter

open Js Js.JsNum

/-- The test `f.id !== id` of `removeFile` (lines 280-281) on the object behind
reference `r`. -/
def App.keeps (app : App) (id : ℚ) (r : ℕ) : Bool :=
  match app.heap[r]? with
  | some f => f.id != id
  | none => true

/-- An event of the sequential use of the page: `startConversion` is invoked
only when no run is suspended.  (A click on the convert button is such an event
at any time, since a suspended run has disabled the button.) -/
def Event.Sequential (app : App) : Event → Prop
  | .start => app.runs = []
  | _ => True

/-- The states that the instance reaches from its construction through
sequential events. -/
inductive Sequential (toLowerCase : String → String) : App → Prop where
  | init : Sequential toLowerCase App.init
  | step (app : App) (e : Event) :
    Sequential toLowerCase app → e.Sequential app → Sequential toLowerCase (step toLowerCase app e)

/-- The invariant of the sequential use of the page: the queue holds pairwise
different references to existing objects, a suspended run is the only one, is
sound and has the convert button disabled, and `converted` holds pairwise
different references to objects that are `completed` and have a result. -/
structure App.Tidy (app : App) : Prop where
  nodup : app.files.Nodup
  bound : ∀ r ∈ app.files, r < app.heap.length
  single : ∀ run ∈ app.runs, app.runs = [run] ∧ app.button.disabled = true ∧ run.Sound app
  completed : ∀ r ∈ app.converted, ∃ item : FileItem,
    app.heap[r]? = some item ∧ item.status = .completed ∧ item.result ≠ none
  once : app.converted.Nodup

/-- The instance `overlapped` after the second conversion of the second item,
by the first run. -/
def overlappedAgain : App :=
  resume overlapped 0 (.ok (monoBuffer (Js.JsNum.num 0)))

/-- The queue after the upload of the two example files, a click on the convert
button, the removal of the second item (its remove button, which is rendered
because the item is pending) while the first is converting, and the successful
conversion of both items by the run. -/
def removedWhilePending : App :=
  trace (fun s => s) App.init
    [.upload spacedCall.fileList spacedCall.now spacedCall.random, .click,
     .remove (1700000000000 + 3 / 4),
     .settle 0 (.ok (monoBuffer (Js.JsNum.num 1))),
     .settle 0 (.ok (monoBuffer (Js.JsNum.num 0)))]

/-- The instance after the upload of the two example files, a click on the
convert button, the conversion of the first item, rejected with `null`, and a
direct invocation of `startConversion`, which converts the second item. -/
def sequentialRun : App :=
  step (fun s => s)
    (step (fun s => s)
      (step (fun s => s)
        (step (fun s => s)
          (step (fun s => s) App.init
            (.upload spacedCall.fileList spacedCall.now spacedCall.random))
          .click)
        (.settle 0 (.error .nullish)))
      .start)
    (.settle 0 (.ok (monoBuffer (Js.JsNum.num 1))))

/-- The instance `overlapped` after the second conversion of the second item,
by the first run, has failed with an error object. -/
def overlappedFailure : App :=
  resume overlapped 0 (.error (.object (some "EncodingError")))

/-- One call of `handleUpload` with three files, stamped within the same
millisecond with the random draws `0.25`, `0.5` and `0.75`. -/
def threeCall : UploadCall :=
  { fileList := [fileA, fileB, trackFile], now := fun _ => 1700000000000,
    random := fun k => 1 / 4 + (k : ℚ) / 4 }

/-- The queue after the upload of three files and two invocations of
`startConversion` in a row, the first run over the items `[0, 1, 2]` and the
second over `[1, 2]`; then the second run completes item 1 and takes up item 2,
the first run completes item 0 and takes up item 1 again, and the second run
completes item 2 and finishes. -/
def finishedBesideConverting : App :=
  trace (fun s => s) App.init
    [.upload threeCall.fileList threeCall.now threeCall.random, .start, .start,
     .settle 1 (.ok (monoBuffer (Js.JsNum.num 1))),
     .settle 0 (.ok (monoBuffer (Js.JsNum.num 1))),
     .settle 0 (.ok (monoBuffer (Js.JsNum.num 1)))]

/-- An event other than an invocation of `startConversion`, and whose
conversion, if it settles one, is not rejected with `null` or `undefined`: the
rejections of `convertWithAudioContext` carry the exception that the platform
threw (line 362) or the event of the reader (line 365), which are objects. -/
def Event.Passive : Event → Prop
  | .start => False
  | .click => False
  | .settle _ decoded => decoded ≠ .error .nullish
  | _ => True

/-- Whether an event settles the conversion that the first suspended run
awaits. -/
def Event.settlesFirst : Event → Bool
  | .settle 0 _ => true
  | _ => false

/-- The state of the instance while its only run, over `pendingFiles`, has had
`done` of its conversions settled: the items before position `done` are
`completed` or `error`; if the run is not through, it is suspended at position
`done`, whose item is `converting`, and the items after it are `pending`; if it
is through, no run is suspended. -/
def RunProgress (pendingFiles : List ℕ) (done : ℕ) (app : App) : Prop :=
  (∀ (j r : ℕ), j < done → pendingFiles[j]? = some r →
      app.hasStatus .completed r = true ∨ app.hasStatus .error r = true)
    ∧ (done < pendingFiles.length →
        app.runs = [{ pendingFiles := pendingFiles, i := done }]
          ∧ (∀ r : ℕ, pendingFiles[done]? = some r → app.hasStatus .converting r = true)
          ∧ ∀ (j r : ℕ), done < j → pendingFiles[j]? = some r →
              app.hasStatus .pending r = true)
    ∧ (pendingFiles.length ≤ done → app.runs = [])

/-- The instance after the upload of `track.mp3` and an invocation of
`startConversion`, which is suspended on the item. -/
def orderlyStart : App :=
  step (fun s => s)
    (step (fun s => s) App.init
      (.upload [trackFile] (fun _ => 1700000000000) (fun _ => 1 / 2)))
    .start

/-- The item of `orderlyStart` while it is converting. -/
def startedItem : FileItem :=
  { newItem (1700000000000 + 1 / 2) trackFile "mp3" with status := .converting }

end AudioConverter

namespace Js

/-- The call `parseInt(c)` for `c` one character of a string, or `undefined`
past its end: the value of a decimal digit, and NaN (`none`) otherwise. -/
def parseIntChar : Option Char → Option ℕ
  | some c => if c.isDigit then some (c.toNat - 48) else none
  | none => none

/-- The method `String.prototype.padStart(targetLength, fill)` for a fill string
of one character. -/
def padStart (s : String) (targetLength : ℕ) (fill : Char) : String :=
  String.mk (List.replicate (targetLength - s.length) fill ++ s.toList)

/-- The method `String.prototype.substr(start, length)` for non-negative
arguments. -/
def substr (s : String) (start length : ℕ) : String :=
  String.mk ((s.toList.drop start).take length)

/-- The function `Math.floor` on a finite number. -/
def mathFloor (q : ℚ) : ℤ := Rat.floor q

/-- The call of `String.prototype.replace` of line 643, with a global regular
expression matching the hyphen and the empty replacement: every hyphen removed. -/
def removeHyphens (s : String) : String :=
  String.mk (s.toList.filter (fun c => c != '-'))

end Js

namespace IdCardTool

open Js

/-! ### The identity-number tool (`src/app.js`, lines 507-664)

Strings are indexed by code points; `calcCheck` and `queryID` look at the first
18 positions only and accept ASCII characters only, where code points and UTF-16
code units coincide. -/

/-- The field `this.weights` of line 509. -/
def weights : List ℕ := [7, 9, 10, 5, 8, 4, 2, 1, 6, 3, 7, 9, 10, 5, 8, 4, 2]

/-- The field `this.checkCodes` of line 510. -/
def checkCodes : List Char := ['1', '0', 'X', '9', '8', '7', '6', '5', '4', '3', '2']

/-- The variable `sum` of `calcCheck` after `n` turns of the loop of line 591:
`sum += parseInt(id17[i]) * this.weights[i]`; NaN is `none`. -/
def weightedSum (id17 : List Char) : ℕ → Option ℕ
  | 0 => some 0
  | n + 1 =>
    match weightedSum id17 n, parseIntChar id17[n]?, weights[n]? with
    | some sum, some digit, some weight => some (sum + digit * weight)
    | _, _, _ => none

/-- The method `calcCheck(id17)` (lines 589-593): `this.checkCodes[sum % 11]`,
which is `undefined` (`none`) when `sum` is NaN. -/
def calcCheck (id17 : String) : Option Char :=
  match weightedSum id17.toList 17 with
  | some sum => checkCodes[sum % 11]?
  | none => none

/-- What `queryID` shows: the toast that asks for a number, or in the result box
the format error, the check-code error with the check character it names, or
the confirmation with the birth date and the gender read from the number (the
age, which depends on the reference date, is left out). -/
inductive Report where
  | prompt
  | formatError
  | checkError (check : Option Char)
  | correct (year month day : String) (male : Bool)
  deriving DecidableEq, Repr

/-- The test `/^\d{17}[\dX]$/i.test(id)` of line 609: 17 decimal digits, then a
decimal digit or, case-insensitively, the letter X. -/
def testPattern (id : String) : Bool :=
  id.length == 18 && (id.toList.take 17).all Char.isDigit
    && (match id.toList[17]? with
        | some c => c.isDigit || c == 'X' || c == 'x'
        | none => false)

/-- The method `queryID` (lines 595-634) on the value of the input element, the
elements `id-input` and `id-result` being present.  The platform's
`String.prototype.trim` and `toUpperCase` are parameters. -/
def queryID (trim toUpperCase : String → String) (value : String) : Report :=
  let id := toUpperCase (trim value)
  if id = "" then .prompt
  else if !testPattern id then .formatError
  else
    let check := calcCheck (substr id 0 17)
    if id.toList[17]? ≠ check then .checkError check
    else
      .correct (substr id 6 4) (substr id 10 2) (substr id 12 2)
        (match parseIntChar id.toList[16]? with
          | some digit => digit % 2 == 1
          | none => false)

/-- The number that one turn of the loop of `generateIDs` builds (lines
652-656) from the draw `Math.random()`, a Number in `[0, 1)`:
`id17 + this.calcCheck(id17)`, where the concatenation turns `undefined` into the
text `undefined`.  The product `Math.random() * 1000` is a Number, the double
nearest to the exact product, and `Math.floor` is applied to that. -/
def generateID (birth gender : String) (draw : ℚ) : String :=
  let seq := (mathFloor (toDouble (draw * 1000))).toNat
  let seq := if gender = "male" then seq * 2 + 1
    else if gender = "female" then seq * 2 else seq
  let id17 := "110101" ++ birth ++ padStart (toString seq) 3 '0'
  id17 ++ (match calcCheck id17 with
    | some check => check.toString
    | none => "undefined")

/-- The method `generateIDs` (lines 636-664) on the values of the birth-date and
gender elements and the value of `count`, with the draw `random i` of
`Math.random()` in turn `i`: the numbers it lists, in order. -/
def generateIDs (birthValue gender : String) (count : ℕ) (random : ℕ → ℚ) : List String :=
  (List.range count).map (fun i => generateID (removeHyphens birthValue) gender (random i))

/-- The value of a character of an identity number in the ISO 7064 MOD 11-2
check: a decimal digit counts as itself and `X` as 10. -/
def charValue (c : Char) : ℕ :=
  if c = 'X' then 10 else c.toNat - 48

/-- The weights of the 18 positions of an identity number: those of the 17
leading digits, and 1 for the check position. -/
def positionWeights : List ℕ :=
  [7, 9, 10, 5, 8, 4, 2, 1, 6, 3, 7, 9, 10, 5, 8, 4, 2, 1]

/-- The sum over the 18 positions of an identity number of the value of the
character times the weight of the position. -/
def isoSum (number : List Char) : ℕ :=
  ∑ i in Finset.range 18, charValue (number.getD i '0') * positionWeights.getD i 0

/-- A string of decimal digits of the given length. -/
def IsDigits (length : ℕ) (s : String) : Prop :=
  s.length = length ∧ ∀ c ∈ s.toList, c.isDigit = true

/-- The form of an identity number in the words of the specification: 17
decimal digits followed by a decimal digit or `X`. -/
def HasForm (id : String) : Prop :=
  id.length = 18 ∧ (∀ c ∈ id.toList.take 17, c.isDigit = true)
    ∧ ∃ c : Char, id.toList[17]? = some c ∧ (c.isDigit = true ∨ c = 'X')

/-- The check of an identity number in the words of the specification: its 18th
character equals `calcCheck` of its first 17. -/
def HasCheck (id : String) : Prop :=
  id.toList[17]? = calcCheck (substr id 0 17)

/-- The birth date of the example numbers. -/
def exampleBirth : String := "1990-01-01"

/-- Seventeen digits. -/
def exampleId17 : String := "11010519491231002"

end IdCardTool

/-! ## Lemmas and theorems -/

namespace Js
open JsNum

theorem leBytes_length (w v : ℕ) : (leBytes w v).length = w := by
  induction w generalizing v with
  | zero => rfl
  | succ w ih => simp [leBytes, ih]

theorem ofLeBytes_leBytes (w v : ℕ) : ofLeBytes (leBytes w v) = v % 256 ^ w := by
  induction w generalizing v with
  | zero => simp [leBytes, ofLeBytes, Nat.mod_one]
  | succ w ih =>
    simp only [leBytes, ofLeBytes, ih]
    rw [pow_succ, Nat.mul_comm (256 ^ w) 256, Nat.mod_mul, Nat.add_comm]

namespace DataView

theorem setBytes_append (w bs t : List ℕ) (h : bs.length ≤ t.length) :
    setBytes (w ++ t) w.length bs = .ok (w ++ bs ++ t.drop bs.length) := by
  unfold setBytes
  have h1 : w.length + bs.length ≤ (w ++ t).length := by
    rw [List.length_append]; omega
  rw [if_pos h1, List.take_left, List.drop_append]

theorem setBytes_zeros (w bs : List ℕ) (r : ℕ) :
    setBytes (w ++ List.replicate (bs.length + r) 0) w.length bs
      = .ok ((w ++ bs) ++ List.replicate r 0) := by
  rw [setBytes_append _ _ _ (by simp), List.drop_replicate]
  simp

end DataView
end Js

namespace AudioConverter
open Js Js.JsNum

theorem setUint32_at (w : List ℕ) (r o : ℕ) (l : List Access) (d : ℕ) :
    setUint32 (Encoder.at w (r + 4) o l) d
      = .ok (Encoder.at (w ++ leBytes 4 (d % 4294967296)) r o l) := by
  unfold setUint32 DataView.setUint32 Encoder.at
  have := DataView.setBytes_zeros w (leBytes 4 (d % 4294967296)) r
  rw [leBytes_length, Nat.add_comm] at this
  simp only [this]
  simp [leBytes_length, bind, Except.bind, pure, Except.pure]

theorem setUint16_at (w : List ℕ) (r o : ℕ) (l : List Access) (d : ℕ) :
    setUint16 (Encoder.at w (r + 2) o l) d
      = .ok (Encoder.at (w ++ leBytes 2 (d % 65536)) r o l) := by
  unfold setUint16 DataView.setUint16 Encoder.at
  have := DataView.setBytes_zeros w (leBytes 2 (d % 65536)) r
  rw [leBytes_length, Nat.add_comm] at this
  simp only [this]
  simp [leBytes_length, bind, Except.bind, pure, Except.pure]

theorem headerBytes_length (c n r : ℕ) : (headerBytes c n r).length = 44 := by
  simp [headerBytes, leBytes_length]

theorem writeHeader_eq (buffer : AudioBuffer) :
    writeHeader buffer (buffer.length * buffer.numberOfChannels * 2 + 44)
      = .ok (Encoder.at (headerBytes buffer.numberOfChannels buffer.length buffer.sampleRate)
          (buffer.length * buffer.numberOfChannels * 2) 0 []) := by
  generalize hm : buffer.length * buffer.numberOfChannels * 2 = m
  unfold writeHeader
  have h0 : ({ view := List.replicate (m + 44) 0, pos := 0, offset := 0, log := [] } : Encoder)
      = Encoder.at [] (m + 40 + 4) 0 [] := by simp [Encoder.at]
  rw [h0]
  simp only [bind, Except.bind]
  rw [setUint32_at]
  simp only []
  rw [show m + 40 = m + 36 + 4 from rfl, setUint32_at]
  simp only []
  rw [show m + 36 = m + 32 + 4 from rfl, setUint32_at]
  simp only []
  rw [show m + 32 = m + 28 + 4 from rfl, setUint32_at]
  simp only []
  rw [show m + 28 = m + 24 + 4 from rfl, setUint32_at]
  simp only []
  rw [show m + 24 = m + 22 + 2 from rfl, setUint16_at]
  simp only []
  rw [show m + 22 = m + 20 + 2 from rfl, setUint16_at]
  simp only []
  rw [show m + 20 = m + 16 + 4 from rfl, setUint32_at]
  simp only []
  rw [show m + 16 = m + 12 + 4 from rfl, setUint32_at]
  simp only []
  rw [show m + 12 = m + 10 + 2 from rfl, setUint16_at]
  simp only []
  rw [show m + 10 = m + 8 + 2 from rfl, setUint16_at]
  simp only []
  rw [show m + 8 = m + 4 + 4 from rfl, setUint32_at]
  simp only []
  rw [show m + 4 = m + 0 + 4 from rfl, setUint32_at]
  have hp : ∀ (w : List ℕ) (r o : ℕ) (l : List Access), (Encoder.at w r o l).pos = w.length :=
    fun _ _ _ _ => rfl
  simp only [hp, headerBytes, hm, List.length_append, leBytes_length, List.length_nil,
    List.nil_append]
  rw [show m + 44 - (0 + 4 + 4 + 4 + 4 + 4 + 2 + 2 + 4 + 4 + 2 + 2 + 4) - 4 = m by omega]

end AudioConverter

namespace AudioConverter
open Js Js.JsNum

theorem sampleBytes_length (x : JsNum) : (sampleBytes x).length = 2 := by
  simp [sampleBytes, leBytes_length]

theorem frameBytes_length (channels : List (List JsNum)) (offset k i : ℕ) :
    (frameBytes channels offset k i).length = 2 * k := by
  induction k generalizing i with
  | zero => rfl
  | succ k ih => simp [frameBytes, ih, sampleBytes_length]; omega

theorem dataBytes_length (channels : List (List JsNum)) (c m offset : ℕ) :
    (dataBytes channels c m offset).length = m * (2 * c) := by
  induction m generalizing offset with
  | zero => simp [dataBytes]
  | succ m ih => simp [dataBytes, ih, frameBytes_length]; ring

theorem collectChannels_eq (buffer : AudioBuffer) (l₂ l₁ acc : List (List JsNum))
    (h : buffer.channelData = l₁ ++ l₂) :
    collectChannels buffer l₂.length l₁.length acc = .ok (acc ++ l₂) := by
  induction l₂ generalizing l₁ acc with
  | nil => simp [collectChannels]
  | cons ch l₂ ih =>
    have hget : buffer.getChannelData l₁.length = .ok ch := by
      have : (l₁ ++ ch :: l₂)[l₁.length]? = some ch := by
        rw [List.getElem?_append_right (Nat.le_refl _)]; simp
      simp only [AudioBuffer.getChannelData, h, this]
    have h' : buffer.channelData = (l₁ ++ [ch]) ++ l₂ := by simp [h]
    have := ih (l₁ ++ [ch]) (acc ++ [ch]) h'
    simp only [List.length_append, List.length_singleton] at this
    simp [collectChannels, hget, bind, Except.bind, this]

theorem collectChannels_all (buffer : AudioBuffer) :
    collectChannels buffer buffer.numberOfChannels 0 [] = .ok buffer.channelData := by
  have := collectChannels_eq buffer buffer.channelData [] [] (by simp)
  simpa [AudioBuffer.numberOfChannels] using this

theorem forChannels_at (channels : List (List JsNum)) (k i : ℕ) (w : List ℕ) (r o : ℕ)
    (l : List Access) (h : i + k ≤ channels.length) :
    forChannels channels k i (Encoder.at w (2 * k + r) o l)
      = .ok (Encoder.at (w ++ frameBytes channels o k i) r o (l ++ frameLog o k i w.length)) := by
  induction k generalizing i w l with
  | zero => simp [forChannels, frameBytes, frameLog]
  | succ k ih =>
    have hi : i < channels.length := by omega
    have hch : channels[i]? = some channels[i] := List.getElem?_eq_getElem hi
    generalize channels[i] = ch at hch
    have hel : element channels i o = .ok ch[o]? := by simp [element, hch]
    have hs : sampleAt channels i o = toNumber ch[o]? := by simp [sampleAt, hch]
    have hset := DataView.setBytes_zeros w (sampleBytes (toNumber ch[o]?)) (2 * k + r)
    rw [sampleBytes_length] at hset
    have hr : 2 * (k + 1) + r = 2 + (2 * k + r) := by ring
    have hstep := ih (i + 1) (w ++ sampleBytes (toNumber ch[o]?))
      (l ++ [Access.read i o, Access.write w.length]) (by omega)
    simp only [forChannels, hel, bind, Except.bind, Encoder.at, DataView.setInt16, hr]
    simp only [sampleBytes] at hset hstep
    rw [hset]
    simp only [Encoder.at, List.length_append, leBytes_length, List.append_assoc] at hstep ⊢
    rw [hstep]
    simp only [frameBytes, frameLog, hs, sampleBytes, List.append_assoc, List.length_append,
      leBytes_length, Nat.add_assoc]

end AudioConverter

namespace AudioConverter
open Js Js.JsNum

theorem writeLoop_at (channels : List (List JsNum)) (c : ℕ) (hc : c = channels.length)
    (hpos : 0 < c) (m fuel : ℕ) (w : List ℕ) (o : ℕ) (l : List Access) (hf : m ≤ fuel) :
    writeLoop channels (w.length + m * (2 * c)) c fuel (Encoder.at w (m * (2 * c)) o l)
      = .ok (Encoder.at (w ++ dataBytes channels c m o) 0 (o + m)
          (l ++ dataLog c m o w.length)) := by
  induction m generalizing fuel w o l with
  | zero =>
    cases fuel <;> simp [writeLoop, Encoder.at, dataBytes, dataLog]
  | succ m ih =>
    obtain ⟨fuel, rfl⟩ : ∃ f, fuel = f + 1 := ⟨fuel - 1, by omega⟩
    have hlt : (Encoder.at w ((m + 1) * (2 * c)) o l).pos < w.length + (m + 1) * (2 * c) := by
      have : 0 < (m + 1) * (2 * c) := Nat.mul_pos (Nat.succ_pos m) (by omega)
      simp only [Encoder.at]; omega
    have hr : (m + 1) * (2 * c) = 2 * c + m * (2 * c) := by ring
    have hfor := forChannels_at channels c 0 w (m * (2 * c)) o l (by omega)
    have hnext := ih fuel (w ++ frameBytes channels o c 0) (o + 1)
      (l ++ frameLog o c 0 w.length) (by omega)
    rw [List.length_append, frameBytes_length] at hnext
    rw [writeLoop, if_pos hlt]
    simp only [bind, Except.bind]
    rw [hr, hfor]
    simp only []
    have hst : ({ Encoder.at (w ++ frameBytes channels o c 0) (m * (2 * c)) o
          (l ++ frameLog o c 0 w.length) with offset := o + 1 } : Encoder)
        = Encoder.at (w ++ frameBytes channels o c 0) (m * (2 * c)) (o + 1)
          (l ++ frameLog o c 0 w.length) := rfl
    have hlen : w.length + (2 * c + m * (2 * c)) = w.length + 2 * c + m * (2 * c) := by ring
    simp only [Encoder.at] at hst hnext ⊢
    rw [hlen, hnext]
    simp only [dataBytes, dataLog, List.append_assoc, Nat.add_assoc, Nat.add_comm 1 m]

theorem writeLoop_outOfFuel (channels : List (List JsNum)) (c : ℕ) (hc : c = channels.length)
    (hpos : 0 < c) (fuel m : ℕ) (w : List ℕ) (o : ℕ) (l : List Access) (hf : fuel < m) :
    writeLoop channels (w.length + m * (2 * c)) c fuel (Encoder.at w (m * (2 * c)) o l)
      = .error .outOfFuel := by
  induction fuel generalizing m w o l with
  | zero =>
    have : 0 < m * (2 * c) := Nat.mul_pos hf (by omega)
    have hlt : (Encoder.at w (m * (2 * c)) o l).pos < w.length + m * (2 * c) := by
      simp only [Encoder.at]; omega
    rw [writeLoop, if_pos hlt]
  | succ fuel ih =>
    obtain ⟨m, rfl⟩ : ∃ k, m = k + 1 := ⟨m - 1, by omega⟩
    have hlt : (Encoder.at w ((m + 1) * (2 * c)) o l).pos < w.length + (m + 1) * (2 * c) := by
      have : 0 < (m + 1) * (2 * c) := Nat.mul_pos (Nat.succ_pos m) (by omega)
      simp only [Encoder.at]; omega
    have hr : (m + 1) * (2 * c) = 2 * c + m * (2 * c) := by ring
    have hfor := forChannels_at channels c 0 w (m * (2 * c)) o l (by omega)
    have hnext := ih m (w ++ frameBytes channels o c 0) (o + 1)
      (l ++ frameLog o c 0 w.length) (by omega)
    rw [List.length_append, frameBytes_length] at hnext
    rw [writeLoop, if_pos hlt]
    simp only [bind, Except.bind]
    rw [hr, hfor]
    simp only []
    have hlen : w.length + (2 * c + m * (2 * c)) = w.length + 2 * c + m * (2 * c) := by ring
    simp only [Encoder.at] at hnext ⊢
    rw [hlen, hnext]

theorem dataBytes_zero (channels : List (List JsNum)) (m o : ℕ) :
    dataBytes channels 0 m o = [] := by
  induction m generalizing o with
  | zero => rfl
  | succ m ih => simp [dataBytes, frameBytes, ih]

theorem dataLog_zero (m o p : ℕ) : dataLog 0 m o p = [] := by
  induction m generalizing o p with
  | zero => rfl
  | succ m ih => simp [dataLog, frameLog, ih]

/-- The final state of the encoder on a buffer of `n` frames and `c` channels. -/
theorem encode_eq (fuel : ℕ) (buffer : AudioBuffer) (hf : buffer.length ≤ fuel) :
    encode fuel buffer = .ok
      { view := headerBytes buffer.numberOfChannels buffer.length buffer.sampleRate
          ++ dataBytes buffer.channelData buffer.numberOfChannels buffer.length 0,
        pos := 44 + buffer.length * (2 * buffer.numberOfChannels),
        offset := if buffer.numberOfChannels = 0 then 0 else buffer.length,
        log := dataLog buffer.numberOfChannels buffer.length 0 44 } := by
  unfold encode
  simp only [bind, Except.bind, writeHeader_eq, collectChannels_all]
  by_cases hc : buffer.numberOfChannels = 0
  · simp only [hc, Nat.mul_zero, Nat.zero_mul, Nat.zero_add, dataBytes_zero, dataLog_zero,
      if_true, List.append_nil, Nat.add_zero]
    cases fuel <;> simp [writeLoop, Encoder.at, headerBytes_length]
  · have hpos : 0 < buffer.numberOfChannels := Nat.pos_of_ne_zero hc
    have h := writeLoop_at buffer.channelData buffer.numberOfChannels rfl hpos buffer.length fuel
      (headerBytes buffer.numberOfChannels buffer.length buffer.sampleRate) 0 [] hf
    rw [headerBytes_length] at h
    have e1 : buffer.length * buffer.numberOfChannels * 2 + 44
        = 44 + buffer.length * (2 * buffer.numberOfChannels) := by ring
    have e2 : buffer.length * buffer.numberOfChannels * 2
        = buffer.length * (2 * buffer.numberOfChannels) := by ring
    rw [e1, e2, h]
    simp [Encoder.at, hc, headerBytes_length, dataBytes_length]

theorem encode_outOfFuel (fuel : ℕ) (buffer : AudioBuffer) (hc : 0 < buffer.numberOfChannels)
    (hf : fuel < buffer.length) : encode fuel buffer = .error .outOfFuel := by
  unfold encode
  simp only [bind, Except.bind, writeHeader_eq, collectChannels_all]
  have h := writeLoop_outOfFuel buffer.channelData buffer.numberOfChannels rfl hc fuel
    buffer.length (headerBytes buffer.numberOfChannels buffer.length buffer.sampleRate) 0 [] hf
  rw [headerBytes_length] at h
  have e1 : buffer.length * buffer.numberOfChannels * 2 + 44
      = 44 + buffer.length * (2 * buffer.numberOfChannels) := by ring
  have e2 : buffer.length * buffer.numberOfChannels * 2
      = buffer.length * (2 * buffer.numberOfChannels) := by ring
  rw [e1, e2, h]

theorem audioBufferToWav_eq (fuel : ℕ) (buffer : AudioBuffer) (hf : buffer.length ≤ fuel) :
    audioBufferToWav fuel buffer = .ok
      { bytes := headerBytes buffer.numberOfChannels buffer.length buffer.sampleRate
          ++ dataBytes buffer.channelData buffer.numberOfChannels buffer.length 0,
        type := "audio/wav" } := by
  unfold audioBufferToWav
  rw [encode_eq fuel buffer hf]
  rfl

end AudioConverter

namespace Js
open JsNum

theorem truncate_bounds (q : ℚ) (a b : ℤ) (ha : a ≤ 0) (hb : 0 ≤ b) (h1 : (a : ℚ) ≤ q)
    (h2 : q ≤ (b : ℚ)) : a ≤ truncate q ∧ truncate q ≤ b := by
  unfold truncate
  split_ifs with h
  · have h0 : 0 ≤ ⌊q⌋ := Int.floor_nonneg.mpr h
    have h3 : ((⌊q⌋ : ℤ) : ℚ) ≤ (b : ℚ) := le_trans (Int.floor_le q) h2
    exact ⟨le_trans ha h0, by exact_mod_cast h3⟩
  · have hq : 0 ≤ -q := by linarith
    have h0 : 0 ≤ ⌊-q⌋ := Int.floor_nonneg.mpr hq
    have h3 : ((⌊-q⌋ : ℤ) : ℚ) ≤ ((-a : ℤ) : ℚ) := by
      have := Int.floor_le (-q)
      push_cast
      linarith
    have h4 : ⌊-q⌋ ≤ -a := by exact_mod_cast h3
    constructor <;> omega

theorem toInt32_num_of_bounds (q : ℚ) (h1 : -2147483648 ≤ truncate q)
    (h2 : truncate q ≤ 2147483647) : toInt32 (num q) = truncate q := by
  show (truncate q + 2147483648) % 4294967296 - 2147483648 = truncate q
  omega

theorem mathMin_num (a b : ℚ) : mathMin (num a) (num b) = num (min a b) := by
  unfold mathMin
  simp only [JsNum.lt]
  by_cases h : b < a
  · simp [h, min_eq_right (le_of_lt h)]
  · simp [h, min_eq_left (not_lt.mp h)]

theorem mathMax_num (a b : ℚ) : mathMax (num a) (num b) = num (max a b) := by
  unfold mathMax
  simp only [JsNum.lt]
  by_cases h : a < b
  · simp [h, max_eq_right (le_of_lt h)]
  · simp [h, max_eq_left (not_lt.mp h)]

end Js

namespace AudioConverter
open Js Js.JsNum

/-- The clamped sample and the factor that line 410 applies to it. -/
theorem scaleSample_num (q : ℚ) :
    scaleSample (num q)
      = truncate (if max (-1) (min 1 q) < -1 / 2 then max (-1) (min 1 q) * 32768
          else max (-1) (min 1 q) * 32767) := by
  unfold scaleSample
  simp only [mathMin_num, mathMax_num, JsNum.add, JsNum.lt, JsNum.mul]
  set c := max (-1) (min 1 q) with hc
  have hlo : -1 ≤ c := le_max_left _ _
  have hhi : c ≤ 1 := max_le (by norm_num) (min_le_left _ _)
  by_cases h : c < -1 / 2
  · have h' : 1 / 2 + c < 0 := by linarith
    simp only [h', h, decide_True, if_true]
    have hb := truncate_bounds (c * 32768) (-32768) 0 (by norm_num) (by norm_num)
      (by push_cast; linarith) (by push_cast; linarith)
    exact toInt32_num_of_bounds _ (by omega) (by omega)
  · have h' : ¬ (1 / 2 + c < 0) := by linarith
    simp only [h', h, decide_False, if_false]
    have hb := truncate_bounds (c * 32767) (-32767) 32767 (by norm_num) (by norm_num)
      (by push_cast; linarith) (by push_cast; linarith)
    simp only [Bool.false_eq_true, if_false]
    exact toInt32_num_of_bounds _ (by omega) (by omega)

theorem scaleSample_posInf : scaleSample posInf = 32767 := by decide!

theorem scaleSample_negInf : scaleSample negInf = -32768 := by decide!

theorem scaleSample_nan : scaleSample nan = 0 := by decide!

theorem scaleSample_range (x : JsNum) : -32768 ≤ scaleSample x ∧ scaleSample x ≤ 32767 := by
  cases x with
  | posInf => rw [scaleSample_posInf]; omega
  | negInf => rw [scaleSample_negInf]; omega
  | nan => rw [scaleSample_nan]; omega
  | num q =>
    rw [scaleSample_num]
    set c := max (-1) (min 1 q) with hc
    have hlo : -1 ≤ c := le_max_left _ _
    have hhi : c ≤ 1 := max_le (by norm_num) (min_le_left _ _)
    split_ifs with h
    · exact truncate_bounds (c * 32768) (-32768) 32767 (by norm_num) (by norm_num)
        (by push_cast; linarith) (by push_cast; linarith)
    · have h' : -1 / 2 ≤ c := not_lt.mp h
      exact truncate_bounds (c * 32767) (-32768) 32767 (by norm_num) (by norm_num)
        (by push_cast; linarith) (by push_cast; linarith)

theorem toInt16_sampleBytes (x : JsNum) :
    toInt16 (ofLeBytes (sampleBytes x)) = scaleSample x := by
  obtain ⟨h1, h2⟩ := scaleSample_range x
  unfold sampleBytes
  rw [ofLeBytes_leBytes]
  unfold toInt16 toUint16
  have h3 : (0 : ℤ) ≤ scaleSample x % 65536 := Int.emod_nonneg _ (by norm_num)
  have h4 : scaleSample x % 65536 < 65536 := Int.emod_lt_of_pos _ (by norm_num)
  have h5 : ((scaleSample x % 65536).toNat : ℤ) = scaleSample x % 65536 :=
    Int.toNat_of_nonneg h3
  have h6 : (256 : ℕ) ^ 2 = 65536 := by norm_num
  rw [h6]
  push_cast
  rw [h5]
  omega

end AudioConverter

namespace AudioConverter
open Js Js.JsNum

theorem slice_field (bytes pre mid post : List ℕ) (p k : ℕ) (hb : bytes = pre ++ mid ++ post)
    (hp : pre.length = p) (hk : mid.length = k) : (bytes.drop p).take k = mid := by
  subst hb hp hk
  rw [List.append_assoc, List.drop_left, List.take_left]

theorem getUint32_field (bytes pre post : List ℕ) (v p : ℕ)
    (hb : bytes = pre ++ leBytes 4 v ++ post) (hp : pre.length = p) :
    DataView.getUint32 bytes p = some (v % 4294967296) := by
  have hs := slice_field bytes pre (leBytes 4 v) post p 4 hb hp (leBytes_length 4 v)
  have hl : p + 4 ≤ bytes.length := by
    rw [hb, List.length_append, List.length_append, leBytes_length, hp]; omega
  rw [DataView.getUint32, if_pos hl, hs, ofLeBytes_leBytes]
  norm_num

theorem getUint16_field (bytes pre post : List ℕ) (v p : ℕ)
    (hb : bytes = pre ++ leBytes 2 v ++ post) (hp : pre.length = p) :
    DataView.getUint16 bytes p = some (v % 65536) := by
  have hs := slice_field bytes pre (leBytes 2 v) post p 2 hb hp (leBytes_length 2 v)
  have hl : p + 2 ≤ bytes.length := by
    rw [hb, List.length_append, List.length_append, leBytes_length, hp]; omega
  rw [DataView.getUint16, if_pos hl, hs, ofLeBytes_leBytes]
  norm_num

theorem frameBytes_slice (channels : List (List JsNum)) (o k i j : ℕ) (hj : j < k) :
    ((frameBytes channels o k i).drop (2 * j)).take 2
      = sampleBytes (sampleAt channels (i + j) o) := by
  induction k generalizing i j with
  | zero => omega
  | succ k ih =>
    cases j with
    | zero =>
      simp only [frameBytes, Nat.mul_zero, List.drop_zero, Nat.add_zero]
      rw [← sampleBytes_length (sampleAt channels i o), List.take_left]
    | succ j =>
      have h2 : 2 * (j + 1) = (sampleBytes (sampleAt channels i o)).length + 2 * j := by
        rw [sampleBytes_length]; ring
      simp only [frameBytes]
      rw [h2, List.drop_append, ih (i + 1) j (by omega)]
      congr 2
      omega

theorem dataBytes_slice (channels : List (List JsNum)) (c m o f j : ℕ) (hf : f < m)
    (hj : j < c) :
    ((dataBytes channels c m o).drop ((f * c + j) * 2)).take 2
      = sampleBytes (sampleAt channels j (o + f)) := by
  induction m generalizing o f with
  | zero => omega
  | succ m ih =>
    cases f with
    | zero =>
      have hlen : 2 * j ≤ (frameBytes channels o c 0).length := by
        rw [frameBytes_length]; omega
      have hrest : 2 ≤ ((frameBytes channels o c 0).drop (2 * j)).length := by
        rw [List.length_drop, frameBytes_length]; omega
      simp only [dataBytes, Nat.zero_mul, Nat.zero_add, Nat.add_zero]
      rw [Nat.mul_comm j 2, List.drop_append_of_le_length hlen,
        List.take_append_of_le_length hrest, frameBytes_slice channels o c 0 j hj, Nat.zero_add]
    | succ f =>
      have h2 : ((f + 1) * c + j) * 2 = (frameBytes channels o c 0).length + (f * c + j) * 2 := by
        rw [frameBytes_length]; ring
      simp only [dataBytes]
      rw [h2, List.drop_append, ih (o + 1) f (by omega)]
      congr 2
      omega

/-- Where the encoder stores a sample: the slot of channel `j` in frame `f`. -/
theorem getInt16_sample (channels : List (List JsNum)) (header : List ℕ) (c n f j : ℕ)
    (hh : header.length = 44) (hf : f < n) (hj : j < c) :
    DataView.getInt16 (header ++ dataBytes channels c n 0) (44 + (f * c + j) * 2)
      = some (scaleSample (sampleAt channels j f)) := by
  have hs := dataBytes_slice channels c n 0 f j hf hj
  have hlen : (f * c + j) * 2 + 2 ≤ (dataBytes channels c n 0).length := by
    rw [dataBytes_length]
    have h1 : f * c + j + 1 ≤ n * c := by
      calc f * c + j + 1 ≤ f * c + c := by omega
        _ = (f + 1) * c := by ring
        _ ≤ n * c := Nat.mul_le_mul_right c hf
    nlinarith
  have hl : 44 + (f * c + j) * 2 + 2 ≤ (header ++ dataBytes channels c n 0).length := by
    rw [List.length_append, hh]; omega
  rw [DataView.getInt16, DataView.getUint16, if_pos hl, ← hh, List.drop_append, hs]
  simp only [toInt16_sampleBytes, Nat.zero_add]

end AudioConverter

namespace AudioConverter
open Js Js.JsNum

/-! ### The claims about `audioBufferToWav` -/

theorem wavInt16_sample (fuel : ℕ) (buffer : AudioBuffer) (c f : ℕ)
    (hf : buffer.length ≤ fuel) (hfr : f < buffer.length) (hc : c < buffer.numberOfChannels) :
    wavInt16 fuel buffer (44 + (f * buffer.numberOfChannels + c) * 2)
      = some (scaleSample (sampleAt buffer.channelData c f)) := by
  unfold wavInt16
  rw [audioBufferToWav_eq fuel buffer hf]
  exact getInt16_sample _ _ _ _ _ _ (headerBytes_length _ _ _) hfr hc

theorem sampleAt_eq (channels : List (List JsNum)) (c f : ℕ) (ch : List JsNum) (x : JsNum)
    (hch : channels[c]? = some ch) (hx : ch[f]? = some x) : sampleAt channels c f = x := by
  simp [sampleAt, hch, hx, toNumber]

theorem lt_of_getElem?_eq_some {α : Type} (l : List α) (i : ℕ) (a : α) (h : l[i]? = some a) :
    i < l.length := by
  by_contra hn
  rw [List.getElem?_eq_none (not_lt.mp hn)] at h
  exact Option.noConfusion h

/-- C1, as the specification states it, fails: for the sample `-0.25` the encoder
writes `-8191` (the product with 32767, truncated), while the rule "scale a
negative value by 32768" gives `-8192`. -/
theorem c1_negative_quarter_scaled_by_32767 :
    wavInt16 1 (monoBuffer (num (-1 / 4))) 44
        = some (-8191)
      ∧ claimedSample (-1 / 4) = -8192 := by
  decide!

theorem scaleSample_clamped (x : JsNum) (hx : x ≠ nan) :
    scaleSample x
      = truncate (if clamped x < -1 / 2 then clamped x * 32768 else clamped x * 32767) := by
  cases x with
  | num q => exact scaleSample_num q
  | posInf => rw [scaleSample_posInf]; norm_num [clamped, truncate]
  | negInf => rw [scaleSample_negInf]; norm_num [clamped, truncate]
  | nan => exact absurd rfl hx

/-- C1, amended: for every sample value `s` that is a number (finite or
infinite), `audioBufferToWav` writes for that sample the 16-bit signed integer
obtained by clamping `s` to `[-1, 1]`, multiplying the clamped value by 32768 if
it is below `-1/2` and by 32767 otherwise, and truncating the product toward
zero.  A NaN sample is written as 0.  In every case the integer lies in
`[-32768, 32767]`, so the 16-bit store keeps it. -/
theorem c1_sample_scaling (fuel : ℕ) (buffer : AudioBuffer) (c f : ℕ) (ch : List JsNum)
    (x : JsNum) (hf : buffer.length ≤ fuel) (hfr : f < buffer.length)
    (hch : buffer.channelData[c]? = some ch) (hx : ch[f]? = some x) :
    (x ≠ nan → wavInt16 fuel buffer (44 + (f * buffer.numberOfChannels + c) * 2)
        = some (truncate (if clamped x < -1 / 2 then clamped x * 32768
            else clamped x * 32767)))
      ∧ (x = nan → wavInt16 fuel buffer (44 + (f * buffer.numberOfChannels + c) * 2) = some 0)
      ∧ ∃ v, wavInt16 fuel buffer (44 + (f * buffer.numberOfChannels + c) * 2) = some v
          ∧ -32768 ≤ v ∧ v ≤ 32767 := by
  have hc : c < buffer.numberOfChannels := lt_of_getElem?_eq_some _ _ _ hch
  have h := wavInt16_sample fuel buffer c f hf hfr hc
  rw [sampleAt_eq _ _ _ _ _ hch hx] at h
  refine ⟨fun hne => ?_, fun hnan => ?_, _, h, scaleSample_range x⟩
  · rw [h, scaleSample_clamped x hne]
  · rw [h, hnan, scaleSample_nan]

/-- C1, amended, at the buffer holding the single sample `-0.25`, which is
written as the truncation of `-0.25 * 32767`. -/
theorem c1_sample_scaling_witness :
    wavInt16 1 (monoBuffer (num (-1 / 4))) (44 + (0 * 1 + 0) * 2)
      = some (truncate (if clamped (num (-1 / 4)) < -1 / 2 then clamped (num (-1 / 4)) * 32768
          else clamped (num (-1 / 4)) * 32767)) :=
  (c1_sample_scaling 1 (monoBuffer (num (-1 / 4))) 0 0 [num (-1 / 4)] (num (-1 / 4))
    (by decide) (by decide) rfl rfl).1 (by decide)

end AudioConverter

namespace AudioConverter
open Js Js.JsNum

theorem header_tags (c n r : ℕ) (data : List ℕ) :
    ((headerBytes c n r ++ data).drop 0).take 4 = ascii "RIFF"
      ∧ ((headerBytes c n r ++ data).drop 8).take 4 = ascii "WAVE"
      ∧ ((headerBytes c n r ++ data).drop 12).take 4 = ascii "fmt "
      ∧ ((headerBytes c n r ++ data).drop 36).take 4 = ascii "data" := by
  simp [headerBytes, leBytes, ascii]

theorem header_chunkSize (c n r : ℕ) (data : List ℕ) :
    DataView.getUint32 (headerBytes c n r ++ data) 4 = some ((n * c * 2 + 44 - 8) % 4294967296) := by
  simp [DataView.getUint32, headerBytes, leBytes, ofLeBytes]
  try omega

theorem header_subchunk1Size (c n r : ℕ) (data : List ℕ) :
    DataView.getUint32 (headerBytes c n r ++ data) 16 = some (16) := by
  simp [DataView.getUint32, headerBytes, leBytes, ofLeBytes]
  try omega

theorem header_audioFormat (c n r : ℕ) (data : List ℕ) :
    DataView.getUint16 (headerBytes c n r ++ data) 20 = some (1) := by
  simp [DataView.getUint16, headerBytes, leBytes, ofLeBytes]
  try omega

theorem header_numChannels (c n r : ℕ) (data : List ℕ) :
    DataView.getUint16 (headerBytes c n r ++ data) 22 = some (c % 65536) := by
  simp [DataView.getUint16, headerBytes, leBytes, ofLeBytes]
  try omega

theorem header_sampleRate (c n r : ℕ) (data : List ℕ) :
    DataView.getUint32 (headerBytes c n r ++ data) 24 = some (r % 4294967296) := by
  simp [DataView.getUint32, headerBytes, leBytes, ofLeBytes]
  try omega

theorem header_byteRate (c n r : ℕ) (data : List ℕ) :
    DataView.getUint32 (headerBytes c n r ++ data) 28 = some (r * 2 * c % 4294967296) := by
  simp [DataView.getUint32, headerBytes, leBytes, ofLeBytes]
  try omega

theorem header_blockAlign (c n r : ℕ) (data : List ℕ) :
    DataView.getUint16 (headerBytes c n r ++ data) 32 = some (c * 2 % 65536) := by
  simp [DataView.getUint16, headerBytes, leBytes, ofLeBytes]
  try omega

theorem header_bitsPerSample (c n r : ℕ) (data : List ℕ) :
    DataView.getUint16 (headerBytes c n r ++ data) 34 = some (16) := by
  simp [DataView.getUint16, headerBytes, leBytes, ofLeBytes]
  try omega

theorem header_subchunk2Size (c n r : ℕ) (data : List ℕ) :
    DataView.getUint32 (headerBytes c n r ++ data) 40 = some (n * c * 2 % 4294967296) := by
  simp [DataView.getUint32, headerBytes, leBytes, ofLeBytes]
  try omega

/-- The header fields of the encoder's result, each reduced to its field width. -/
theorem wav_header_fields (fuel : ℕ) (buffer : AudioBuffer) (hf : buffer.length ≤ fuel) :
    wavUint32 fuel buffer 4
        = some ((buffer.length * buffer.numberOfChannels * 2 + 44 - 8) % 4294967296)
      ∧ wavUint32 fuel buffer 16 = some 16
      ∧ wavUint16 fuel buffer 20 = some 1
      ∧ wavUint16 fuel buffer 22 = some (buffer.numberOfChannels % 65536)
      ∧ wavUint32 fuel buffer 24 = some (buffer.sampleRate % 4294967296)
      ∧ wavUint32 fuel buffer 28
        = some (buffer.sampleRate * 2 * buffer.numberOfChannels % 4294967296)
      ∧ wavUint16 fuel buffer 32 = some (buffer.numberOfChannels * 2 % 65536)
      ∧ wavUint16 fuel buffer 34 = some 16
      ∧ wavUint32 fuel buffer 40
        = some (buffer.length * buffer.numberOfChannels * 2 % 4294967296) := by
  unfold wavUint32 wavUint16
  rw [audioBufferToWav_eq fuel buffer hf]
  exact ⟨header_chunkSize _ _ _ _, header_subchunk1Size _ _ _ _, header_audioFormat _ _ _ _,
    header_numChannels _ _ _ _, header_sampleRate _ _ _ _, header_byteRate _ _ _ _,
    header_blockAlign _ _ _ _, header_bitsPerSample _ _ _ _, header_subchunk2Size _ _ _ _⟩

/-- C2: for every buffer with `C` channels of `N` frames, the byte sequence that
`audioBufferToWav` produces has length exactly `44 + N*C*2`, and its bytes at
offsets 0-3, 8-11, 12-15 and 36-39 are the ASCII tags "RIFF", "WAVE", "fmt " and
"data". -/
theorem c2_length_and_tags (fuel : ℕ) (buffer : AudioBuffer) (hf : buffer.length ≤ fuel) :
    ∃ blob, audioBufferToWav fuel buffer = .ok blob
      ∧ blob.bytes.length = 44 + buffer.length * buffer.numberOfChannels * 2
      ∧ (blob.bytes.drop 0).take 4 = ascii "RIFF"
      ∧ (blob.bytes.drop 8).take 4 = ascii "WAVE"
      ∧ (blob.bytes.drop 12).take 4 = ascii "fmt "
      ∧ (blob.bytes.drop 36).take 4 = ascii "data" := by
  refine ⟨_, audioBufferToWav_eq fuel buffer hf, ?_, header_tags _ _ _ _⟩
  simp only [List.length_append, headerBytes_length, dataBytes_length]
  ring

/-- C2 at a stereo buffer of two frames: 52 bytes with the four tags. -/
theorem c2_length_and_tags_witness :
    (2 : ℕ) ≤ 2 ∧ ∃ blob,
      audioBufferToWav 2 stereoBuffer = .ok blob
      ∧ blob.bytes.length = 52
      ∧ (blob.bytes.drop 0).take 4 = ascii "RIFF"
      ∧ (blob.bytes.drop 8).take 4 = ascii "WAVE"
      ∧ (blob.bytes.drop 12).take 4 = ascii "fmt "
      ∧ (blob.bytes.drop 36).take 4 = ascii "data" :=
  ⟨by decide, c2_length_and_tags 2 stereoBuffer (by decide)⟩

/-- C3: for a 1-channel buffer at sample rate 44100 holding a single sample, the
little-endian 16-bit value written at offset 44 is `0x7FFF` (32767) for the
sample 1.0, `0x8000` (-32768 in two's complement) for -1.0 and `0x0000` for 0.0. -/
theorem c3_reference_samples :
    wavUint16 1 (monoBuffer (num 1)) 44
        = some 0x7FFF
      ∧ wavInt16 1 (monoBuffer (num 1)) 44
        = some 32767
      ∧ wavUint16 1 (monoBuffer (num (-1))) 44
        = some 0x8000
      ∧ wavInt16 1 (monoBuffer (num (-1))) 44
        = some (-32768)
      ∧ wavUint16 1 (monoBuffer (num 0)) 44
        = some 0x0000 := by
  decide!

end AudioConverter

namespace AudioConverter
open Js Js.JsNum

theorem scaleSample_of_one_le (x : JsNum) (h : (num 1).le x = true) : scaleSample x = 32767 := by
  cases x with
  | posInf => exact scaleSample_posInf
  | negInf => simp [JsNum.le, JsNum.lt] at h
  | nan => simp [JsNum.le] at h
  | num q =>
    have hq : (1 : ℚ) ≤ q := by
      simpa [JsNum.le, JsNum.lt] using h
    rw [scaleSample_num, min_eq_left hq]
    norm_num [truncate]

theorem scaleSample_of_le_neg_one (x : JsNum) (h : x.le (num (-1)) = true) :
    scaleSample x = -32768 := by
  cases x with
  | posInf => simp [JsNum.le, JsNum.lt] at h
  | negInf => exact scaleSample_negInf
  | nan => simp [JsNum.le] at h
  | num q =>
    have hq : q ≤ -1 := by
      simpa [JsNum.le, JsNum.lt] using h
    have h1 : min 1 q = q := min_eq_right (by linarith)
    rw [scaleSample_num, h1, max_eq_left hq]
    norm_num [truncate]

theorem scaleSample_clampEquivalent (x y : JsNum) (h : ClampEquivalent x y) :
    scaleSample x = scaleSample y := by
  rcases h with h | ⟨hx, hy⟩ | ⟨hx, hy⟩
  · rw [h]
  · rw [scaleSample_of_one_le x hx, scaleSample_of_one_le y hy]
  · rw [scaleSample_of_le_neg_one x hx, scaleSample_of_le_neg_one y hy]

theorem frameBytes_congr (ch₁ ch₂ : List (List JsNum)) (o k i : ℕ)
    (h : ∀ i, scaleSample (sampleAt ch₁ i o) = scaleSample (sampleAt ch₂ i o)) :
    frameBytes ch₁ o k i = frameBytes ch₂ o k i := by
  induction k generalizing i with
  | zero => rfl
  | succ k ih => simp only [frameBytes, sampleBytes, h i, ih]

theorem dataBytes_congr (ch₁ ch₂ : List (List JsNum)) (c m o : ℕ)
    (h : ∀ i o, scaleSample (sampleAt ch₁ i o) = scaleSample (sampleAt ch₂ i o)) :
    dataBytes ch₁ c m o = dataBytes ch₂ c m o := by
  induction m generalizing o with
  | zero => rfl
  | succ m ih => simp only [dataBytes, frameBytes_congr ch₁ ch₂ o c 0 (fun i => h i o), ih]

/-- C4, the clamping law: when two buffers of the same shape and rate differ only
in samples that are both at least 1 or both at most -1, `audioBufferToWav`
produces the same bytes for both.  In particular a sample `s >= 1` is written as
the sample 1.0 is, and a sample `s <= -1` as the sample -1.0 is. -/
theorem c4_clamping_law (fuel : ℕ) (b₁ b₂ : AudioBuffer) (hf : b₁.length ≤ fuel)
    (hr : b₁.sampleRate = b₂.sampleRate) (hl : b₁.length = b₂.length)
    (hc : b₁.numberOfChannels = b₂.numberOfChannels)
    (hs : ∀ i o, ClampEquivalent (sampleAt b₁.channelData i o) (sampleAt b₂.channelData i o)) :
    audioBufferToWav fuel b₁ = audioBufferToWav fuel b₂
      ∧ ∃ blob, audioBufferToWav fuel b₁ = .ok blob := by
  have h2 := audioBufferToWav_eq fuel b₂ (hl ▸ hf)
  have h1 := audioBufferToWav_eq fuel b₁ hf
  refine ⟨?_, _, h1⟩
  rw [h1, h2, hr, hl, hc]
  rw [dataBytes_congr b₁.channelData b₂.channelData _ _ _
    (fun i o => scaleSample_clampEquivalent _ _ (hs i o))]

theorem clampEquivalent_pair (a b : JsNum) (i o : ℕ)
    (h0 : ClampEquivalent a b) :
    ClampEquivalent (sampleAt [[a]] i o) (sampleAt [[b]] i o) := by
  match i, o with
  | 0, 0 => simpa [sampleAt, toNumber] using h0
  | 0, o + 1 => exact Or.inl (by simp [sampleAt, toNumber])
  | i + 1, o => exact Or.inl (by simp [sampleAt, toNumber])

/-- C4 at the samples of the specification: 2.0 encodes like 1.0 and -2.0 like
-1.0. -/
theorem c4_clamping_law_witness :
    audioBufferToWav 1 (monoBuffer (num 2)) = audioBufferToWav 1 (monoBuffer (num 1))
      ∧ audioBufferToWav 1 (monoBuffer (num (-2))) = audioBufferToWav 1 (monoBuffer (num (-1))) :=
  ⟨(c4_clamping_law 1 (monoBuffer (num 2)) (monoBuffer (num 1)) (by decide) rfl rfl rfl
      (fun i o => clampEquivalent_pair _ _ i o (Or.inr (Or.inl ⟨by decide!, by decide!⟩)))).1,
   (c4_clamping_law 1 (monoBuffer (num (-2))) (monoBuffer (num (-1))) (by decide) rfl rfl rfl
      (fun i o => clampEquivalent_pair _ _ i o (Or.inr (Or.inr ⟨by decide!, by decide!⟩)))).1⟩

end AudioConverter

namespace AudioConverter
open Js Js.JsNum

theorem longBuffer_wellFormed : longBuffer.WellFormed := by
  intro ch h
  have h' : ch ∈ [List.replicate 1073741824 (num 0), List.replicate 1073741824 (num 0)] := h
  rcases List.mem_cons.mp h' with rfl | h''
  · exact List.length_replicate _ _
  · rcases List.mem_cons.mp h'' with rfl | h'''
    · exact List.length_replicate _ _
    · exact absurd h''' (List.not_mem_nil _)

/-- C5, as the specification states it, fails: for a well-formed stereo buffer of
`2^30` frames the data size `2^32` does not fit the 32-bit field at offset 40,
which holds 0, and 0 divided by `2*C` is not the frame count. -/
theorem c5_data_size_wraps :
    longBuffer.WellFormed ∧ longBuffer.numberOfChannels = 2
      ∧ longBuffer.length = 1073741824
      ∧ (wavUint32 1073741824 longBuffer 40).map (fun d => d / (2 * 2)) = some 0 := by
  refine ⟨longBuffer_wellFormed, rfl, rfl, ?_⟩
  have h := (wav_header_fields 1073741824 longBuffer (Nat.le_refl _)).2.2.2.2.2.2.2.2
  have hc : longBuffer.numberOfChannels = 2 := rfl
  have hl : longBuffer.length = 1073741824 := rfl
  rw [hc, hl] at h
  rw [h]
  rfl

/-- C5, amended: for every channel count `1 <= C < 2^16`, sample rate `R < 2^32`
and frame count `N` with `N*C*2 < 2^32`, the header written by `audioBufferToWav`
preserves them exactly: the 16-bit field at offset 22 decodes to `C`, the 32-bit
field at offset 24 decodes to `R`, and the 32-bit data-size field at offset 40
divided by `2*C` gives `N`. -/
theorem c5_header_roundtrip (fuel : ℕ) (buffer : AudioBuffer) (hf : buffer.length ≤ fuel)
    (hc0 : 0 < buffer.numberOfChannels) (hc : buffer.numberOfChannels < 65536)
    (hr : buffer.sampleRate < 4294967296)
    (hn : buffer.length * buffer.numberOfChannels * 2 < 4294967296) :
    wavUint16 fuel buffer 22 = some buffer.numberOfChannels
      ∧ wavUint32 fuel buffer 24 = some buffer.sampleRate
      ∧ (wavUint32 fuel buffer 40).map (fun d => d / (2 * buffer.numberOfChannels))
        = some buffer.length := by
  obtain ⟨-, -, -, h22, h24, -, -, -, h40⟩ := wav_header_fields fuel buffer hf
  rw [h22, h24, h40, Nat.mod_eq_of_lt hc, Nat.mod_eq_of_lt hr, Nat.mod_eq_of_lt hn]
  refine ⟨rfl, rfl, ?_⟩
  simp only [Option.map_some', Option.some.injEq]
  rw [Nat.mul_assoc, Nat.mul_comm buffer.numberOfChannels 2]
  exact Nat.mul_div_cancel _ (by omega)

/-- C5, amended, at the stereo buffer of two frames. -/
theorem c5_header_roundtrip_witness :
    wavUint16 2 stereoBuffer 22 = some 2
      ∧ wavUint32 2 stereoBuffer 24 = some 44100
      ∧ (wavUint32 2 stereoBuffer 40).map (fun d => d / (2 * 2)) = some 2 :=
  c5_header_roundtrip 2 stereoBuffer (by decide) (by decide) (by decide) (by decide)
    (by decide)

/-- C6: for every buffer whose values fit the field widths, the header written by
`audioBufferToWav` holds, little-endian: ChunkSize (offset 4) = total length - 8,
Subchunk1Size (16) = 16, AudioFormat (20) = 1, ByteRate (28) =
sampleRate*channelCount*2, BlockAlign (32) = channelCount*2, BitsPerSample (34)
= 16, and Subchunk2Size (40) = frameCount*channelCount*2. -/
theorem c6_header_fields (fuel : ℕ) (buffer : AudioBuffer) (hf : buffer.length ≤ fuel)
    (hsize : 44 + buffer.length * buffer.numberOfChannels * 2 - 8 < 4294967296)
    (hrate : buffer.sampleRate * buffer.numberOfChannels * 2 < 4294967296)
    (halign : buffer.numberOfChannels * 2 < 65536) :
    wavUint32 fuel buffer 4 = some (44 + buffer.length * buffer.numberOfChannels * 2 - 8)
      ∧ wavUint32 fuel buffer 16 = some 16
      ∧ wavUint16 fuel buffer 20 = some 1
      ∧ wavUint32 fuel buffer 28 = some (buffer.sampleRate * buffer.numberOfChannels * 2)
      ∧ wavUint16 fuel buffer 32 = some (buffer.numberOfChannels * 2)
      ∧ wavUint16 fuel buffer 34 = some 16
      ∧ wavUint32 fuel buffer 40 = some (buffer.length * buffer.numberOfChannels * 2) := by
  obtain ⟨h4, h16, h20, -, -, h28, h32, h34, h40⟩ := wav_header_fields fuel buffer hf
  have e1 : buffer.length * buffer.numberOfChannels * 2 + 44 - 8
      = 44 + buffer.length * buffer.numberOfChannels * 2 - 8 := by omega
  have e2 : buffer.sampleRate * 2 * buffer.numberOfChannels
      = buffer.sampleRate * buffer.numberOfChannels * 2 := by ring
  rw [e1, Nat.mod_eq_of_lt hsize] at h4
  rw [e2, Nat.mod_eq_of_lt hrate] at h28
  rw [Nat.mod_eq_of_lt halign] at h32
  rw [Nat.mod_eq_of_lt (by omega)] at h40
  exact ⟨h4, h16, h20, h28, h32, h34, h40⟩

/-- C6 at the stereo buffer of two frames at 44100 Hz. -/
theorem c6_header_fields_witness :
    wavUint32 2 stereoBuffer 4 = some 44
      ∧ wavUint32 2 stereoBuffer 16 = some 16
      ∧ wavUint16 2 stereoBuffer 20 = some 1
      ∧ wavUint32 2 stereoBuffer 28 = some 176400
      ∧ wavUint16 2 stereoBuffer 32 = some 4
      ∧ wavUint16 2 stereoBuffer 34 = some 16
      ∧ wavUint32 2 stereoBuffer 40 = some 8 :=
  c6_header_fields 2 stereoBuffer (by decide) (by decide) (by decide) (by decide)

end AudioConverter

namespace AudioConverter
open Js Js.JsNum

theorem slice_sample (channels : List (List JsNum)) (header : List ℕ) (c n f j : ℕ)
    (hh : header.length = 44) (hf : f < n) (hj : j < c) :
    ((header ++ dataBytes channels c n 0).drop (44 + (f * c + j) * 2)).take 2
      = sampleBytes (sampleAt channels j f) := by
  have hs := dataBytes_slice channels c n 0 f j hf hj
  rw [← hh, List.drop_append, hs, Nat.zero_add]

theorem wellFormed_sample (buffer : AudioBuffer) (hwf : buffer.WellFormed) (c f : ℕ)
    (hc : c < buffer.numberOfChannels) (hf : f < buffer.length) :
    ∃ x, buffer.channelData[c]?.bind (fun ch => ch[f]?) = some x
      ∧ sampleAt buffer.channelData c f = x := by
  have hc' : c < buffer.channelData.length := hc
  have hlen : (buffer.channelData[c]).length = buffer.length :=
    hwf _ (List.getElem_mem _)
  have hf' : f < (buffer.channelData[c]).length := by omega
  refine ⟨(buffer.channelData[c])[f], ?_, ?_⟩
  · rw [List.getElem?_eq_getElem hc']
    simp only [Option.some_bind]
    exact List.getElem?_eq_getElem hf'
  · unfold sampleAt toNumber
    rw [List.getElem?_eq_getElem hc']
    simp only [Option.some_bind]
    rw [List.getElem?_eq_getElem hf']
    rfl

/-- C7: for every buffer with `C` channels of `N` frames each, every frame index
`f < N` and channel index `c < C`, the converted value of channel `c`'s sample
`f` is written little-endian at byte offset `44 + (f*C + c)*2`: the samples are
channel-interleaved frame by frame. -/
theorem c7_interleaved_layout (fuel : ℕ) (buffer : AudioBuffer) (c f : ℕ)
    (hfuel : buffer.length ≤ fuel) (hwf : buffer.WellFormed)
    (hf : f < buffer.length) (hc : c < buffer.numberOfChannels) :
    ∃ x blob, buffer.channelData[c]?.bind (fun ch => ch[f]?) = some x
      ∧ audioBufferToWav fuel buffer = .ok blob
      ∧ (blob.bytes.drop (44 + (f * buffer.numberOfChannels + c) * 2)).take 2
        = [toUint16 (scaleSample x) % 256, toUint16 (scaleSample x) / 256 % 256]
      ∧ DataView.getInt16 blob.bytes (44 + (f * buffer.numberOfChannels + c) * 2)
        = some (scaleSample x) := by
  obtain ⟨x, hx, hsx⟩ := wellFormed_sample buffer hwf c f hc hf
  refine ⟨x, _, hx, audioBufferToWav_eq fuel buffer hfuel, ?_, ?_⟩
  · rw [slice_sample _ _ _ _ _ _ (headerBytes_length _ _ _) hf hc, hsx]
    rfl
  · rw [getInt16_sample _ _ _ _ _ _ (headerBytes_length _ _ _) hf hc, hsx]

/-- C7 at frame 1, channel 0 of the stereo buffer: the sample 1.0 is stored as
`FF 7F` at offset 48. -/
theorem c7_interleaved_layout_witness :
    ∃ x blob, stereoBuffer.channelData[0]?.bind (fun ch => ch[1]?) = some x
      ∧ audioBufferToWav 2 stereoBuffer = .ok blob
      ∧ (blob.bytes.drop (44 + (1 * stereoBuffer.numberOfChannels + 0) * 2)).take 2
        = [toUint16 (scaleSample x) % 256, toUint16 (scaleSample x) / 256 % 256]
      ∧ DataView.getInt16 blob.bytes (44 + (1 * stereoBuffer.numberOfChannels + 0) * 2)
        = some (scaleSample x) :=
  c7_interleaved_layout 2 stereoBuffer 0 1 (by decide) (by decide) (by decide) (by decide)

theorem mem_frameLog_read (o k i pos a b : ℕ) (h : Access.read a b ∈ frameLog o k i pos) :
    i ≤ a ∧ a < i + k ∧ b = o := by
  induction k generalizing i pos with
  | zero => simp [frameLog] at h
  | succ k ih =>
    simp only [frameLog, List.cons_append, List.nil_append, List.mem_cons] at h
    rcases h with h | h | h
    · injection h with h1 h2
      omega
    · exact Access.noConfusion h
    · have := ih _ _ h
      omega

theorem mem_frameLog_write (o k i pos p : ℕ) (h : Access.write p ∈ frameLog o k i pos) :
    pos ≤ p ∧ p + 2 ≤ pos + 2 * k := by
  induction k generalizing i pos with
  | zero => simp [frameLog] at h
  | succ k ih =>
    simp only [frameLog, List.cons_append, List.nil_append, List.mem_cons] at h
    rcases h with h | h | h
    · exact Access.noConfusion h
    · injection h with h1
      omega
    · have := ih _ _ h
      omega

theorem mem_dataLog_read (c m o pos a b : ℕ) (h : Access.read a b ∈ dataLog c m o pos) :
    a < c ∧ o ≤ b ∧ b < o + m := by
  induction m generalizing o pos with
  | zero => simp [dataLog] at h
  | succ m ih =>
    simp only [dataLog, List.mem_append] at h
    rcases h with h | h
    · have := mem_frameLog_read _ _ _ _ _ _ h
      omega
    · have := ih _ _ h
      omega

theorem mem_dataLog_write (c m o pos p : ℕ) (h : Access.write p ∈ dataLog c m o pos) :
    pos ≤ p ∧ p + 2 ≤ pos + m * (2 * c) := by
  induction m generalizing o pos with
  | zero => simp [dataLog] at h
  | succ m ih =>
    simp only [dataLog, List.mem_append] at h
    have e : (m + 1) * (2 * c) = 2 * c + m * (2 * c) := by ring
    rcases h with h | h
    · have := mem_frameLog_write _ _ _ _ _ h
      omega
    · have := ih _ _ h
      omega

/-- C8: `audioBufferToWav` has no failure path on a valid buffer.  For every
buffer with `C >= 1` channels all of the same length `N`, the write loop
terminates after exactly `N` outer iterations (a budget of `N` iterations
suffices and a smaller one does not; the counter `offset` ends at `N`), every
sample index it reads is `< N` and inside the channel array it reads from, and
every 2-byte write lies inside the allocated `44 + N*C*2` bytes, after the
header. -/
theorem c8_no_failure_path (buffer : AudioBuffer) (hc : 1 ≤ buffer.numberOfChannels)
    (hwf : buffer.WellFormed) :
    (∀ fuel, buffer.length ≤ fuel →
      ∃ s blob, encode fuel buffer = .ok s ∧ audioBufferToWav fuel buffer = .ok blob
        ∧ blob.bytes = s.view
        ∧ s.view.length = 44 + buffer.length * buffer.numberOfChannels * 2
        ∧ s.offset = buffer.length
        ∧ (∀ i j, Access.read i j ∈ s.log →
            j < buffer.length ∧ ∃ ch, buffer.channelData[i]? = some ch ∧ j < ch.length)
        ∧ (∀ p, Access.write p ∈ s.log →
            44 ≤ p ∧ p + 2 ≤ 44 + buffer.length * buffer.numberOfChannels * 2))
      ∧ (∀ fuel, fuel < buffer.length → encode fuel buffer = .error .outOfFuel) := by
  refine ⟨fun fuel hfuel => ?_, fun fuel hfuel => encode_outOfFuel fuel buffer hc hfuel⟩
  have hne : buffer.numberOfChannels ≠ 0 := by omega
  refine ⟨_, _, encode_eq fuel buffer hfuel, audioBufferToWav_eq fuel buffer hfuel, rfl, ?_, ?_,
    ?_, ?_⟩
  · simp only [List.length_append, headerBytes_length, dataBytes_length]
    ring
  · simp only [if_neg hne]
  · intro i j hmem
    obtain ⟨h1, h2, h3⟩ := mem_dataLog_read _ _ _ _ _ _ hmem
    have hi : i < buffer.channelData.length := h1
    refine ⟨by omega, buffer.channelData[i], List.getElem?_eq_getElem hi, ?_⟩
    rw [hwf _ (List.getElem_mem _)]
    omega
  · intro p hmem
    obtain ⟨h1, h2⟩ := mem_dataLog_write _ _ _ _ _ hmem
    refine ⟨h1, ?_⟩
    have e : buffer.length * (2 * buffer.numberOfChannels)
        = buffer.length * buffer.numberOfChannels * 2 := by ring
    omega

/-- C8 at the stereo buffer of two frames: the run with a budget of two
iterations ends with `offset = 2`, and a budget of one iteration is not enough. -/
theorem c8_no_failure_path_witness :
    (∃ s blob, encode 2 stereoBuffer = .ok s ∧ audioBufferToWav 2 stereoBuffer = .ok blob
        ∧ blob.bytes = s.view
        ∧ s.view.length = 44 + stereoBuffer.length * stereoBuffer.numberOfChannels * 2
        ∧ s.offset = stereoBuffer.length
        ∧ (∀ i j, Access.read i j ∈ s.log →
            j < stereoBuffer.length
              ∧ ∃ ch, stereoBuffer.channelData[i]? = some ch ∧ j < ch.length)
        ∧ (∀ p, Access.write p ∈ s.log →
            44 ≤ p ∧ p + 2 ≤ 44 + stereoBuffer.length * stereoBuffer.numberOfChannels * 2))
      ∧ encode 1 stereoBuffer = .error .outOfFuel :=
  ⟨(c8_no_failure_path stereoBuffer (by decide) (by decide)).1 2 (by decide),
   (c8_no_failure_path stereoBuffer (by decide) (by decide)).2 1 (by decide)⟩

end AudioConverter

namespace AudioConverter
open Js Js.JsNum

/-- C9, as the specification states it, fails: with two pending items, a first
invocation of `startConversion` moves the first item into `converting` and is
suspended; a second invocation made then is not rejected, it moves the second
item into `converting` as well and a second pass is under way. -/
theorem c9_second_invocation_starts_second_pass :
    (startConversion twoPending).statuses = [some .converting, some .pending]
      ∧ (startConversion twoPending).runs.length = 1
      ∧ (startConversion (startConversion twoPending)).statuses
        = [some .converting, some .converting]
      ∧ (startConversion (startConversion twoPending)).runs.length = 2 := by
  decide

end AudioConverter

namespace AudioConverter
open Js Js.JsNum

theorem hasStatus_eq_true (app : App) (status : Status) (r : ℕ)
    (h : app.hasStatus status r = true) :
    ∃ item, app.heap[r]? = some item ∧ item.status = status := by
  unfold App.hasStatus at h
  cases hr : app.heap[r]? with
  | none => rw [hr] at h; exact absurd h (by simp)
  | some item =>
    rw [hr] at h
    exact ⟨item, rfl, by simpa using h⟩

/-- C9, amended: `startConversion` has no busy check, so an invocation made while
a run is in progress behaves like any other invocation, whatever the suspended
runs are.  When no item of the queue is pending it changes no item, neither
collection and no run (it only shows a toast).  When some item is pending it is
not rejected: it moves the first pending item into `converting` with progress 0
and is suspended as a further run over the items pending at that moment.  The
only protection is on the button: the pass disables the convert button, and a
click on the disabled button is ignored. -/
theorem c9_reentrant_invocation (app : App) :
    (app.files.filter (app.hasStatus .pending) = [] →
        (startConversion app).heap = app.heap ∧ (startConversion app).files = app.files
          ∧ (startConversion app).converted = app.converted
          ∧ (startConversion app).runs = app.runs)
      ∧ (∀ r rest, app.files.filter (app.hasStatus .pending) = r :: rest →
          ∃ fileItem, app.heap[r]? = some fileItem ∧ fileItem.status = .pending
            ∧ (startConversion app).heap
              = app.heap.set r { fileItem with status := .converting, progress := 0 }
            ∧ (startConversion app).files = app.files
            ∧ (startConversion app).converted = app.converted
            ∧ (startConversion app).runs = app.runs ++ [{ pendingFiles := r :: rest, i := 0 }]
            ∧ (startConversion app).button.disabled = true
            ∧ clickConvert (startConversion app) = startConversion app) := by
  constructor
  · intro h
    unfold startConversion
    by_cases h0 : app.files.length = 0
    · simp [h0]
    · simp [h0, h]
  · intro r rest h
    have hmem : r ∈ app.files.filter (app.hasStatus .pending) := by
      rw [h]; exact List.mem_cons_self _ _
    obtain ⟨fileItem, hitem, hst⟩ := hasStatus_eq_true app .pending r (List.mem_filter.mp hmem).2
    have h0 : app.files.length ≠ 0 := by
      intro h0
      have : app.files = [] := List.length_eq_zero.mp h0
      rw [this] at h
      exact List.noConfusion h
    have hstart : startConversion app
        = { app with
            heap := app.heap.set r { fileItem with status := .converting, progress := 0 },
            button := { app.button with disabled := true },
            runs := app.runs ++ [{ pendingFiles := r :: rest, i := 0 }] } := by
      unfold startConversion
      simp [h0, h, loopHead, hitem, App.setItem]
    refine ⟨fileItem, hitem, hst, ?_⟩
    rw [hstart]
    refine ⟨rfl, rfl, rfl, rfl, rfl, ?_⟩
    simp [clickConvert]

/-- C9, amended, at the queue of two pending items on which a first invocation
is suspended: the second invocation moves item 1 into `converting`. -/
theorem c9_reentrant_invocation_witness :
    ∃ fileItem, (startConversion twoPending).heap[1]? = some fileItem
      ∧ fileItem.status = .pending
      ∧ (startConversion (startConversion twoPending)).heap
        = (startConversion twoPending).heap.set 1
            { fileItem with status := .converting, progress := 0 }
      ∧ (startConversion (startConversion twoPending)).files = (startConversion twoPending).files
      ∧ (startConversion (startConversion twoPending)).converted
        = (startConversion twoPending).converted
      ∧ (startConversion (startConversion twoPending)).runs
        = (startConversion twoPending).runs ++ [{ pendingFiles := [1], i := 0 }]
      ∧ (startConversion (startConversion twoPending)).button.disabled = true
      ∧ clickConvert (startConversion (startConversion twoPending))
        = startConversion (startConversion twoPending) :=
  (c9_reentrant_invocation (startConversion twoPending)).2 1 [] (by decide)

/-- C10: at the end of a second run, made after an earlier run left one converted
item in `converted`, the toast reports 2 converted files although the second run
took one pending item and converted that one: the reported count is
`this.converted.length`, which accumulates over the runs.  It also differs from
the number of items the run completed when a completed item is removed during
the run: a run that completes two items then reports 1. -/
theorem c10_second_run_reports_cumulative_count :
    afterFirstRun.toasts = [Toast.converted 1]
      ∧ afterFirstRun.statuses = [some .completed]
      ∧ (pushFile afterFirstRun (newItem 2 fileB "mp3")).statuses
        = [some .completed, some .pending]
      ∧ (startConversion (pushFile afterFirstRun (newItem 2 fileB "mp3"))).runs
        = [{ pendingFiles := [1], i := 0 }]
      ∧ afterSecondRun.statuses = [some .completed, some .completed]
      ∧ afterSecondRun.runs = []
      ∧ afterSecondRun.toasts = [Toast.converted 1, Toast.converted 2]
      ∧ (clickConvert twoPending).runs = [{ pendingFiles := [0, 1], i := 0 }]
      ∧ afterRemovalRun.heap.map (fun item => item.status) = [.completed, .completed]
      ∧ afterRemovalRun.runs = []
      ∧ afterRemovalRun.toasts = [Toast.converted 1] := by
  decide!

end AudioConverter

namespace AudioConverter
open Js Js.JsNum

/-! ### The claims about the conversion queue -/

/-- C12: when the conversion of the first of two pending items is rejected with
`null`, the run ends by throwing: it is no longer suspended, the second item is
still pending, no summary is shown, the convert button stays disabled, and a
later outcome finds no run to continue. -/
theorem c12_null_rejection_raises :
    (startConversion twoPending).runs = [{ pendingFiles := [0, 1], i := 0 }]
      ∧ afterNullRejection.uncaught = 1
      ∧ afterNullRejection.runs = []
      ∧ afterNullRejection.statuses = [some .error, some .pending]
      ∧ afterNullRejection.toasts = []
      ∧ afterNullRejection.button = { disabled := true, hidden := false }
      ∧ conversionRun twoPending [.error .nullish, .ok (monoBuffer (num 1))]
        = afterNullRejection := by
  decide!

/-- C14, as the specification states it, fails: on a queue without a pending
item `startConversion` reports no counts; it shows the toast "all files are
converted", or "upload files first" when the queue is empty. -/
theorem c14_no_summary_without_pending :
    afterFirstRun.files.filter (afterFirstRun.hasStatus .pending) = []
      ∧ (startConversion afterFirstRun).toasts = [Toast.converted 1, Toast.allConverted]
      ∧ (startConversion App.init).toasts = [Toast.uploadFirst] := by
  decide!

/-- C14, amended: `startConversion` invoked on a queue with zero pending items
changes no item, neither `files` nor `converted`, no run and not the button: the
instance is left as it was, except for one more toast, "upload files first" when
the queue is empty and "all files are converted" otherwise.  No summary of counts
is returned or shown.  Invoking it twice gives the same, with the toast twice. -/
theorem c14_zero_pending (app : App)
    (h : app.files.filter (app.hasStatus .pending) = []) :
    startConversion app
        = { app with toasts := app.toasts
              ++ [if app.files.length = 0 then Toast.uploadFirst else Toast.allConverted] }
      ∧ startConversion (startConversion app)
        = { app with toasts := app.toasts
              ++ [if app.files.length = 0 then Toast.uploadFirst else Toast.allConverted,
                  if app.files.length = 0 then Toast.uploadFirst else Toast.allConverted] } := by
  have h1 : ∀ a : App, a.files.filter (a.hasStatus .pending) = [] →
      startConversion a = { a with toasts := a.toasts
        ++ [if a.files.length = 0 then Toast.uploadFirst else Toast.allConverted] } := by
    intro a ha
    unfold startConversion
    by_cases h0 : a.files.length = 0
    · simp [h0]
    · simp [h0, ha]
  refine ⟨h1 app h, ?_⟩
  rw [h1 app h, h1 _ (by simpa [App.hasStatus] using h)]
  simp

/-- C14, amended, at the queue whose only item is converted. -/
theorem c14_zero_pending_witness :
    startConversion afterFirstRun
        = { afterFirstRun with toasts := afterFirstRun.toasts
              ++ [if afterFirstRun.files.length = 0 then Toast.uploadFirst
                  else Toast.allConverted] }
      ∧ startConversion (startConversion afterFirstRun)
        = { afterFirstRun with toasts := afterFirstRun.toasts
              ++ [if afterFirstRun.files.length = 0 then Toast.uploadFirst
                  else Toast.allConverted,
                  if afterFirstRun.files.length = 0 then Toast.uploadFirst
                  else Toast.allConverted] } :=
  c14_zero_pending afterFirstRun (by decide!)

end AudioConverter

namespace AudioConverter
open Js Js.JsNum

/-- C16, as the specification states it, fails: with the format label that the
instance starts with, the converted item `track.mp3`, whose result is a WAV blob,
is downloaded under the name `track.mp3`, alone or in the archive; after
`setFormat('flac')` it is `track.flac`. -/
theorem c16_name_follows_format_label :
    (downloadSingle afterTrackRun 7).map (fun d => (d.name, d.content.type))
        = some ("track.mp3", "audio/wav")
      ∧ (downloadAll afterTrackRun).map (fun a => a.entries.map (fun d => d.name))
        = some ["track.mp3"]
      ∧ (downloadSingle (setFormat afterTrackRun "flac") 7).map (fun d => d.name)
        = some "track.flac" := by
  decide!

theorem find?_eq_some_mem {α : Type} (p : α → Bool) (l : List α) (a : α)
    (h : l.find? p = some a) : a ∈ l ∧ p a = true := by
  induction l with
  | nil => simp at h
  | cons x xs ih =>
    rw [List.find?_cons] at h
    cases hp : p x with
    | true =>
      rw [hp] at h
      injection h with h
      subst h
      exact ⟨List.mem_cons_self _ _, hp⟩
    | false =>
      rw [hp] at h
      exact ⟨List.mem_cons_of_mem _ (ih h).1, (ih h).2⟩

/-- C16, amended: the destination file name computed for a converted item, in
`downloadSingle` and in `downloadAll`, is the original file name with its
extension removed (the text from the last `.` on, when at least one character
follows it and none of them is a `/`) followed by `.` and the format label
selected in `config.format`; so `track.mp3` maps to `track.` followed by that
label, and to `track.wav` only when the label is `wav`. -/
theorem c16_destination_name (app : App) :
    (∀ id d, downloadSingle app id = some d →
        ∃ r item, r ∈ app.files ∧ app.heap[r]? = some item ∧ item.id = id
          ∧ item.result = some d.content
          ∧ d.name = stripExtension item.name ++ "." ++ app.config.format)
      ∧ (∀ archive d, downloadAll app = some archive → d ∈ archive.entries →
        ∃ r item, r ∈ app.converted ∧ app.heap[r]? = some item
          ∧ item.result = some d.content
          ∧ d.name = stripExtension item.name ++ "." ++ app.config.format)
      ∧ newName app "track.mp3" = "track." ++ app.config.format := by
  refine ⟨?_, ?_, ?_⟩
  · intro id d h
    unfold downloadSingle at h
    split at h
    · exact absurd h (by simp)
    · rename_i r hfind
      obtain ⟨hmem, hp⟩ := find?_eq_some_mem _ _ _ hfind
      cases hr : app.heap[r]? with
      | none => rw [hr] at h; exact absurd h (by simp)
      | some item =>
        rw [hr] at h hp
        simp only [] at h hp
        cases hres : item.result with
        | none => rw [hres] at h; exact absurd h (by simp)
        | some result =>
          rw [hres] at h
          simp only [Option.some.injEq] at h
          subst h
          exact ⟨r, item, hmem, hr, by simpa using hp, hres, rfl⟩
  · intro archive d h hd
    unfold downloadAll at h
    split at h
    · exact absurd h (by simp)
    · simp only [Option.some.injEq] at h
      subst h
      simp only [List.mem_filterMap] at hd
      obtain ⟨r, hr, hsome⟩ := hd
      cases hitem : app.heap[r]? with
      | none => rw [hitem] at hsome; exact absurd hsome (by simp)
      | some item =>
        rw [hitem] at hsome
        simp only [] at hsome
        cases hres : item.result with
        | none => rw [hres] at hsome; exact absurd hsome (by simp)
        | some result =>
          rw [hres] at hsome
          simp only [Option.some.injEq] at hsome
          subst hsome
          exact ⟨r, item, hr, hitem, hres, rfl⟩
  · have h1 : stripExtension "track.mp3" = "track" := by decide
    unfold newName
    rw [h1, show ("track" : String) ++ "." = "track." from by decide]

/-- C16, amended, at the converted item `track.mp3` with the label `mp3`. -/
theorem c16_destination_name_witness :
    ∃ r item, r ∈ afterTrackRun.files ∧ afterTrackRun.heap[r]? = some item ∧ item.id = 7
      ∧ item.result = some
          ({ name := "track.mp3",
             content := { bytes := headerBytes 1 1 44100 ++ [255, 127], type := "audio/wav" } }
            : Download).content
      ∧ ({ name := "track.mp3",
           content := { bytes := headerBytes 1 1 44100 ++ [255, 127], type := "audio/wav" } }
            : Download).name
        = stripExtension item.name ++ "." ++ afterTrackRun.config.format :=
  (c16_destination_name afterTrackRun).1 7 _ (by decide!)

end AudioConverter

namespace AudioConverter
open Js Js.JsNum

theorem pushFiles_eq (toLowerCase : String → String) (now : ℕ → ℕ) (random : ℕ → ℚ)
    (validFiles : List File) (k : ℕ) (app : App) :
    pushFiles toLowerCase now random validFiles k app
      = { app with
          heap := app.heap ++ uploadedItems toLowerCase now random validFiles k,
          files := app.files
            ++ (List.range validFiles.length).map (fun j => app.heap.length + j) } := by
  induction validFiles generalizing k app with
  | nil => simp [pushFiles, uploadedItems]
  | cons file validFiles ih =>
    rw [pushFiles, ih]
    simp only [pushFile, uploadedItems, List.append_assoc, List.singleton_append,
      List.length_append, List.length_singleton, List.length_cons]
    congr 1
    rw [List.range_succ_eq_map, List.map_cons, List.map_map]
    simp only [Nat.add_zero, List.length_nil, Nat.zero_add]
    congr 2
    apply List.map_congr_left
    intro j _
    simp only [Function.comp]
    omega

theorem uploadedItems_length (toLowerCase : String → String) (now : ℕ → ℕ) (random : ℕ → ℚ)
    (validFiles : List File) (k : ℕ) :
    (uploadedItems toLowerCase now random validFiles k).length = validFiles.length := by
  induction validFiles generalizing k with
  | nil => rfl
  | cons file validFiles ih => simp [uploadedItems, ih]

theorem uploadedItems_file (toLowerCase : String → String) (now : ℕ → ℕ) (random : ℕ → ℚ)
    (validFiles : List File) (k : ℕ) :
    (uploadedItems toLowerCase now random validFiles k).map (fun item => item.file)
      = validFiles := by
  induction validFiles generalizing k with
  | nil => rfl
  | cons file validFiles ih => simp [uploadedItems, ih, newItem]

theorem uploadedItems_fresh (toLowerCase : String → String) (now : ℕ → ℕ) (random : ℕ → ℚ)
    (validFiles : List File) (k : ℕ) (item : FileItem)
    (h : item ∈ uploadedItems toLowerCase now random validFiles k) :
    item.status = .pending ∧ item.progress = 0 ∧ item.result = none ∧ item.error = none
      ∧ item.name = item.file.name ∧ item.size = item.file.size
      ∧ item.ext = UIUtils.getFileExtension toLowerCase item.file.name := by
  induction validFiles generalizing k with
  | nil => simp [uploadedItems] at h
  | cons file validFiles ih =>
    simp only [uploadedItems, List.mem_cons] at h
    rcases h with h | h
    · subst h
      simp [newItem]
    · exact ih _ h

theorem uploadedItems_id (toLowerCase : String → String) (now : ℕ → ℕ) (random : ℕ → ℚ)
    (validFiles : List File) (k : ℕ) :
    (uploadedItems toLowerCase now random validFiles k).map (fun item => item.id)
      = (List.range validFiles.length).map
          (fun j => toDouble ((now (k + j) : ℚ) + random (k + j))) := by
  induction validFiles generalizing k with
  | nil => rfl
  | cons file validFiles ih =>
    simp only [uploadedItems, List.map_cons, List.length_cons, ih]
    rw [List.range_succ_eq_map, List.map_cons, List.map_map]
    simp only [Nat.add_zero, List.cons.injEq, newItem, true_and]
    apply List.map_congr_left
    intro j _
    simp only [Function.comp, Nat.add_assoc, Nat.add_comm 1 j]

theorem valid_filter (fileList : List File) :
    fileList.filter (fun file => !decide (file.size > CONFIG.MAX_AUDIO_SIZE))
      = fileList.filter (fun file => decide (file.size ≤ CONFIG.MAX_AUDIO_SIZE)) := by
  apply List.filter_congr
  intro file _
  by_cases h : file.size ≤ CONFIG.MAX_AUDIO_SIZE
  · simp [h, Nat.not_lt.mpr h]
  · simp [h, Nat.lt_of_not_le h]

/-- The instance after `handleUpload`, whether or not a file was accepted. -/
theorem handleUpload_eq (toLowerCase : String → String) (app : App) (fileList : List File)
    (now : ℕ → ℕ) (random : ℕ → ℚ) :
    (handleUpload toLowerCase app fileList now random).heap
        = app.heap ++ uploadedItems toLowerCase now random
            (fileList.filter (fun file => decide (file.size ≤ CONFIG.MAX_AUDIO_SIZE))) 0
      ∧ (handleUpload toLowerCase app fileList now random).files
        = app.files ++ (List.range
            (fileList.filter (fun file => decide (file.size ≤ CONFIG.MAX_AUDIO_SIZE))).length).map
              (fun j => app.heap.length + j)
      ∧ (handleUpload toLowerCase app fileList now random).converted = app.converted
      ∧ (handleUpload toLowerCase app fileList now random).runs = app.runs
      ∧ (handleUpload toLowerCase app fileList now random).button = app.button
      ∧ (handleUpload toLowerCase app fileList now random).uncaught = app.uncaught
      ∧ (handleUpload toLowerCase app fileList now random).config = app.config := by
  unfold handleUpload
  rw [valid_filter]
  generalize fileList.filter (fun file => decide (file.size ≤ CONFIG.MAX_AUDIO_SIZE)) = valid
  by_cases h : valid.length = 0
  · have hv : valid = [] := List.length_eq_zero.mp h
    subst hv
    simp [uploadedItems]
  · simp only [h, if_false, pushFiles_eq]
    simp

/-- C17: `handleUpload` creates a queue item exactly for the input files whose
size is at most the configured maximum (`100*1024*1024` bytes) and none for
larger files; the new items are appended in input order after the existing
items, each with status `pending`, progress 0, no result and no error, and the
existing items are unchanged. -/
theorem c17_handleUpload (toLowerCase : String → String) (app : App) (fileList : List File)
    (now : ℕ → ℕ) (random : ℕ → ℚ) :
    CONFIG.MAX_AUDIO_SIZE = 100 * 1024 * 1024
      ∧ ∃ newItems : List FileItem,
        (handleUpload toLowerCase app fileList now random).heap = app.heap ++ newItems
        ∧ (handleUpload toLowerCase app fileList now random).files
          = app.files ++ (List.range newItems.length).map (fun j => app.heap.length + j)
        ∧ newItems.map (fun item => item.file)
          = fileList.filter (fun file => decide (file.size ≤ CONFIG.MAX_AUDIO_SIZE))
        ∧ (∀ item ∈ newItems, item.status = .pending ∧ item.progress = 0 ∧ item.result = none
            ∧ item.error = none ∧ item.name = item.file.name ∧ item.size = item.file.size)
        ∧ (handleUpload toLowerCase app fileList now random).converted = app.converted
        ∧ (handleUpload toLowerCase app fileList now random).runs = app.runs := by
  obtain ⟨h1, h2, h3, h4, -⟩ := handleUpload_eq toLowerCase app fileList now random
  refine ⟨rfl, _, h1, ?_, uploadedItems_file _ _ _ _ _, ?_, h3, h4⟩
  · rw [h2, uploadedItems_length]
  · intro item hitem
    obtain ⟨a, b, c, d, e, f, -⟩ := uploadedItems_fresh _ _ _ _ _ item hitem
    exact ⟨a, b, c, d, e, f⟩

end AudioConverter

namespace AudioConverter
open Js Js.JsNum

theorem uploads_fold (toLowerCase : String → String) (calls : List UploadCall) (app : App) :
    ((calls.foldl (fun app call =>
          handleUpload toLowerCase app call.fileList call.now call.random) app).heap.map
        (fun item => item.id) = app.heap.map (fun item => item.id) ++ stampedIds calls)
      ∧ (calls.foldl (fun app call =>
          handleUpload toLowerCase app call.fileList call.now call.random) app).files
        = app.files ++ (List.range (stampedIds calls).length).map (fun j => app.heap.length + j)
      := by
  induction calls generalizing app with
  | nil => simp [stampedIds]
  | cons call calls ih =>
    obtain ⟨h1, h2, -⟩ := handleUpload_eq toLowerCase app call.fileList call.now call.random
    have hid : (uploadedItems toLowerCase call.now call.random call.accepted 0).map
        (fun item => item.id) = call.ids := by
      rw [uploadedItems_id]
      simp [UploadCall.ids]
    have hlen : call.ids.length = call.accepted.length := by simp [UploadCall.ids]
    obtain ⟨ih1, ih2⟩ := ih (handleUpload toLowerCase app call.fileList call.now call.random)
    rw [List.foldl_cons]
    refine ⟨?_, ?_⟩
    · rw [ih1, h1]
      simp only [List.map_append, stampedIds, List.append_assoc]
      rw [← hid]
      rfl
    · rw [ih2, h2, h1]
      simp only [stampedIds, List.length_append, List.append_assoc, uploadedItems_length]
      congr 1
      rw [hlen]
      have e : call.accepted.length
          = (call.fileList.filter
              (fun file => decide (file.size ≤ CONFIG.MAX_AUDIO_SIZE))).length := rfl
      rw [← e, List.range_add, List.map_append, List.map_map]
      congr 1
      apply List.map_congr_left
      intro j _
      simp only [Function.comp]
      omega

theorem length_le_one_of_all_eq {α : Type} (l : List α) (hn : l.Nodup)
    (h : ∀ a ∈ l, ∀ b ∈ l, a = b) : l.length ≤ 1 := by
  match l, hn, h with
  | [], _, _ => simp
  | [_], _, _ => simp
  | a :: b :: t, hn, h =>
    have hab : a = b := h a (by simp) b (by simp)
    rw [hab] at hn
    exact absurd (List.mem_cons_self b t) (List.nodup_cons.mp hn).1

/-- C18, as the specification states it, fails: two files accepted by one call
of `handleUpload` within the same millisecond, with the different random draws
`0.5` and `0.5 + 2^-14`, get the same id (at a clock reading of `1.7e12` the
Number `Date.now() + Math.random()` has a resolution of `2^-12`); `removeFile` of
that id then removes both items. -/
theorem c18_ids_collide :
    collidingCall.random 0 ≠ collidingCall.random 1
      ∧ collidingUpload.files = [0, 1]
      ∧ collidingUpload.heap.map (fun item => item.name) = ["a.mp3", "b.mp3"]
      ∧ collidingUpload.heap.map (fun item => item.id)
        = [1700000000000 + 1 / 2, 1700000000000 + 1 / 2]
      ∧ (removeFile collidingUpload (1700000000000 + 1 / 2)).files = [] := by
  decide!

/-- C18, amended: after every sequence of `handleUpload` calls the ids of the
items are, in queue order, the Numbers `Date.now() + Math.random()` formed from
the clock reading and the random draw made for each accepted file.  Two distinct
items of the queue have different ids provided these Numbers are pairwise
different, which the code does not ensure; under that proviso at most one item
of the queue has a given id, so that `removeFile(id)` and `downloadSingle(id)`
address one item. -/
theorem c18_ids_of_uploads (toLowerCase : String → String) (calls : List UploadCall) :
    (uploads toLowerCase calls).heap.map (fun item => item.id) = stampedIds calls
      ∧ (uploads toLowerCase calls).files = List.range (uploads toLowerCase calls).heap.length
      ∧ ((stampedIds calls).Nodup →
          (∀ (r₁ r₂ : ℕ) (item₁ item₂ : FileItem), (uploads toLowerCase calls).heap[r₁]? = some item₁ →
            (uploads toLowerCase calls).heap[r₂]? = some item₂ → r₁ ≠ r₂ →
            item₁.id ≠ item₂.id)
          ∧ ∀ id, ((uploads toLowerCase calls).files.filter (fun r =>
              match (uploads toLowerCase calls).heap[r]? with
              | some f => f.id == id
              | none => false)).length ≤ 1) := by
  obtain ⟨h1, h2⟩ := uploads_fold toLowerCase calls App.init
  have hids : (uploads toLowerCase calls).heap.map (fun item => item.id) = stampedIds calls := by
    simpa [uploads, App.init] using h1
  have hlen : (uploads toLowerCase calls).heap.length = (stampedIds calls).length := by
    rw [← hids, List.length_map]
  have hfiles : (uploads toLowerCase calls).files
      = List.range (uploads toLowerCase calls).heap.length := by
    have : (uploads toLowerCase calls).files
        = (List.range (stampedIds calls).length).map (fun j => 0 + j) := by
      simpa [uploads, App.init] using h2
    rw [this, hlen]
    simp
  have hdistinct : (stampedIds calls).Nodup →
      ∀ (r₁ r₂ : ℕ) (item₁ item₂ : FileItem), (uploads toLowerCase calls).heap[r₁]? = some item₁ →
        (uploads toLowerCase calls).heap[r₂]? = some item₂ → r₁ ≠ r₂ → item₁.id ≠ item₂.id := by
    intro hn r₁ r₂ item₁ item₂ e₁ e₂ hne heq
    rw [← hids] at hn
    have g₁ : ((uploads toLowerCase calls).heap.map (fun item => item.id))[r₁]?
        = some item₁.id := by rw [List.getElem?_map, e₁]; rfl
    have g₂ : ((uploads toLowerCase calls).heap.map (fun item => item.id))[r₂]?
        = some item₁.id := by rw [List.getElem?_map, e₂, heq]; rfl
    have hlt : r₁ < ((uploads toLowerCase calls).heap.map (fun item => item.id)).length := by
      by_contra hc
      rw [List.getElem?_eq_none (not_lt.mp hc)] at g₁
      exact Option.noConfusion g₁
    exact hne (List.getElem?_inj hlt hn (g₁.trans g₂.symm))
  refine ⟨hids, hfiles, fun hn => ⟨hdistinct hn, fun id => ?_⟩⟩
  apply length_le_one_of_all_eq
  · rw [hfiles]
    exact (List.nodup_range _).filter _
  · intro a ha b hb
    obtain ⟨-, pa⟩ := List.mem_filter.mp ha
    obtain ⟨-, pb⟩ := List.mem_filter.mp hb
    cases ea : (uploads toLowerCase calls).heap[a]? with
    | none => rw [ea] at pa; exact absurd pa (by simp)
    | some ia =>
      cases eb : (uploads toLowerCase calls).heap[b]? with
      | none => rw [eb] at pb; exact absurd pb (by simp)
      | some ib =>
        rw [ea] at pa
        rw [eb] at pb
        simp only [beq_iff_eq] at pa pb
        by_contra hne
        exact hdistinct hn a b ia ib ea eb hne (pa.trans pb.symm)

/-- C18, amended, at one call that accepts the two example files with the random
draws `0.25` and `0.75`. -/
theorem c18_ids_of_uploads_witness :
    (∀ (r₁ r₂ : ℕ) (item₁ item₂ : FileItem),
        (uploads (fun s => s) [spacedCall]).heap[r₁]? = some item₁ →
        (uploads (fun s => s) [spacedCall]).heap[r₂]? = some item₂ → r₁ ≠ r₂ →
        item₁.id ≠ item₂.id)
      ∧ ∀ id, ((uploads (fun s => s) [spacedCall]).files.filter (fun r =>
          match (uploads (fun s => s) [spacedCall]).heap[r]? with
          | some f => f.id == id
          | none => false)).length ≤ 1 :=
  (c18_ids_of_uploads (fun s => s) [spacedCall]).2.2 (by decide!)

end AudioConverter

namespace AudioConverter
open Js Js.JsNum

/-! ### The steps of a run -/

theorem loopHead_done (app : App) (run : Run) (h : run.pendingFiles[run.i]? = none) :
    loopHead app run = finish app := by
  simp [loopHead, h]

theorem loopHead_missing (app : App) (run : Run) (r : ℕ)
    (h : run.pendingFiles[run.i]? = some r) (hr : app.heap[r]? = none) :
    loopHead app run = app := by
  simp [loopHead, h, hr]

theorem loopHead_next (app : App) (run : Run) (r : ℕ) (item : FileItem)
    (h : run.pendingFiles[run.i]? = some r) (hr : app.heap[r]? = some item) :
    loopHead app run
      = { app with heap := app.heap.set r { item with status := .converting, progress := 0 },
                   runs := app.runs ++ [run] } := by
  simp [loopHead, h, hr, App.setItem]

theorem convert_cases (item : FileItem) (decoded : Except Thrown AudioBuffer) :
    (∃ blob, convertWithAudioContext item decoded = ({ item with progress := 100 }, .ok blob)
        ∧ decoded ≠ .error .nullish)
      ∨ (convertWithAudioContext item decoded = (item, .error .nullish)
        ∧ decoded = .error .nullish)
      ∨ (∃ message, convertWithAudioContext item decoded = (item, .error (.object message))
        ∧ decoded ≠ .error .nullish) := by
  unfold convertWithAudioContext
  cases decoded with
  | error e =>
    cases e with
    | nullish => exact Or.inr (Or.inl ⟨rfl, rfl⟩)
    | object message => exact Or.inr (Or.inr ⟨message, rfl, by simp⟩)
  | ok buffer =>
    dsimp only
    cases hw : audioBufferToWav buffer.length buffer with
    | ok blob => exact Or.inl ⟨blob, rfl, by simp⟩
    | error f => exact Or.inr (Or.inr ⟨_, rfl, by simp⟩)

theorem raises_iff (item : FileItem) (decoded : Except Thrown AudioBuffer) :
    raises item decoded = true ↔ decoded = .error .nullish := by
  unfold raises
  rcases convert_cases item decoded with ⟨blob, h, hd⟩ | ⟨h, hd⟩ | ⟨m, h, hd⟩
  · simp [h, hd]
  · rw [h]; simp [hd]
  · simp [h, hd]

theorem resume_none (app : App) (k : ℕ) (decoded : Except Thrown AudioBuffer)
    (h : app.runs[k]? = none) : resume app k decoded = app := by
  simp [resume, h]

theorem resume_no_item (app : App) (k : ℕ) (decoded : Except Thrown AudioBuffer) (run : Run)
    (h : app.runs[k]? = some run)
    (hr : run.pendingFiles[run.i]? = none
      ∨ ∃ r, run.pendingFiles[run.i]? = some r ∧ app.heap[r]? = none) :
    resume app k decoded = { app with runs := app.runs.eraseIdx k } := by
  rcases hr with hr | ⟨r, hr, hitem⟩
  · simp [resume, h, hr]
  · simp [resume, h, hr, hitem]

/-- The continuation of a run on the outcome of the awaited conversion. -/
theorem resume_eq (app : App) (k : ℕ) (decoded : Except Thrown AudioBuffer) (run : Run) (r : ℕ)
    (item : FileItem) (h : app.runs[k]? = some run) (hr : run.pendingFiles[run.i]? = some r)
    (hitem : app.heap[r]? = some item) :
    resume app k decoded
      = if raises item decoded then
          { app with runs := app.runs.eraseIdx k,
                     heap := app.heap.set r (settled item decoded),
                     uncaught := app.uncaught + 1 }
        else
          loopHead
            { app with runs := app.runs.eraseIdx k,
                       heap := app.heap.set r (settled item decoded),
                       converted := app.converted
                         ++ (if succeeded item decoded then [r] else []) }
            { run with i := run.i + 1 } := by
  unfold resume
  simp only [h, hr, hitem]
  unfold raises succeeded settled
  cases hc : convertWithAudioContext item decoded with
  | mk item' outcome =>
    cases outcome with
    | ok result => simp [App.setItem]
    | error e =>
      cases e with
      | nullish => simp [App.setItem]
      | object message => simp [App.setItem]

theorem settled_sameIdentity (item : FileItem) (decoded : Except Thrown AudioBuffer) :
    SameIdentity item (settled item decoded) := by
  unfold settled
  rcases convert_cases item decoded with ⟨blob, h, -⟩ | ⟨h, -⟩ | ⟨m, h, -⟩ <;> rw [h] <;>
    exact ⟨rfl, rfl, rfl, rfl, rfl⟩

theorem settled_status (item : FileItem) (decoded : Except Thrown AudioBuffer) :
    (settled item decoded).status = .completed ∨ (settled item decoded).status = .error := by
  unfold settled
  rcases convert_cases item decoded with ⟨blob, h, -⟩ | ⟨h, -⟩ | ⟨m, h, -⟩ <;> rw [h] <;> simp

theorem settled_consistent (item : FileItem) (decoded : Except Thrown AudioBuffer)
    (hres : item.result = none) (herr : item.error = none) (hd : decoded ≠ .error .nullish) :
    (settled item decoded).Consistent := by
  unfold settled FileItem.Consistent
  rcases convert_cases item decoded with ⟨blob, h, -⟩ | ⟨h, hd'⟩ | ⟨m, h, -⟩
  · rw [h]; simp [herr]
  · exact absurd hd' hd
  · rw [h]; simp [hres]

end AudioConverter

namespace AudioConverter
open Js Js.JsNum

/-! ### The frame of a run -/

theorem getElem?_set_same {α : Type} (l : List α) (r : ℕ) (a x : α) (h : l[r]? = some a) :
    (l.set r x)[r]? = some x := by
  have hlt : r < l.length := lt_of_getElem?_eq_some l r a h
  rw [List.getElem?_set, if_pos rfl, if_pos hlt]

theorem sameIdentity_refl (a : FileItem) : SameIdentity a a := ⟨rfl, rfl, rfl, rfl, rfl⟩

theorem sameIdentity_trans (a b c : FileItem) (h₁ : SameIdentity a b) (h₂ : SameIdentity b c) :
    SameIdentity a c :=
  ⟨h₁.1.trans h₂.1, h₁.2.1.trans h₂.2.1, h₁.2.2.1.trans h₂.2.2.1,
    h₁.2.2.2.1.trans h₂.2.2.2.1, h₁.2.2.2.2.trans h₂.2.2.2.2⟩

theorem frame_refl (touched : List ℕ) (heap : List FileItem) : Frame touched heap heap :=
  fun _ item h => ⟨item, h, sameIdentity_refl item, fun _ => rfl⟩

theorem frame_set (touched : List ℕ) (before heap : List FileItem) (r : ℕ)
    (item item' : FileItem) (hF : Frame touched before heap) (hr : heap[r]? = some item)
    (hid : SameIdentity item item') (ht : r ∈ touched) :
    Frame touched before (heap.set r item') := by
  intro q item0 hq
  obtain ⟨it, hit, hsame, hun⟩ := hF q item0 hq
  by_cases hqr : r = q
  · subst hqr
    have : it = item := by rw [hr] at hit; exact (Option.some.inj hit).symm
    subst this
    exact ⟨item', getElem?_set_same heap r it item' hr, sameIdentity_trans _ _ _ hsame hid,
      fun hn => absurd ht hn⟩
  · exact ⟨it, by rw [List.getElem?_set_ne hqr]; exact hit, hsame, hun⟩

theorem frame_loopHead (touched : List ℕ) (before : List FileItem) (app : App) (run : Run)
    (hF : Frame touched before app.heap) (hsub : ∀ r ∈ run.pendingFiles, r ∈ touched) :
    Frame touched before (loopHead app run).heap
      ∧ ((loopHead app run).runs = app.runs ∨ (loopHead app run).runs = app.runs ++ [run]) := by
  cases hr : run.pendingFiles[run.i]? with
  | none => rw [loopHead_done app run hr]; exact ⟨hF, Or.inl rfl⟩
  | some r =>
    cases hitem : app.heap[r]? with
    | none => rw [loopHead_missing app run r hr hitem]; exact ⟨hF, Or.inl rfl⟩
    | some item =>
      rw [loopHead_next app run r item hr hitem]
      exact ⟨frame_set touched before app.heap r item _ hF hitem ⟨rfl, rfl, rfl, rfl, rfl⟩
        (hsub r (List.getElem?_mem hr)), Or.inr rfl⟩

theorem frame_resume (touched : List ℕ) (before : List FileItem) (app : App) (k : ℕ)
    (decoded : Except Thrown AudioBuffer) (run : Run) (hrun : app.runs[k]? = some run)
    (hF : Frame touched before app.heap) (hsub : ∀ r ∈ run.pendingFiles, r ∈ touched) :
    Frame touched before (resume app k decoded).heap
      ∧ ((resume app k decoded).runs = app.runs.eraseIdx k
        ∨ (resume app k decoded).runs = app.runs.eraseIdx k ++ [{ run with i := run.i + 1 }]) := by
  cases hr : run.pendingFiles[run.i]? with
  | none =>
    rw [resume_no_item app k decoded run hrun (Or.inl hr)]
    exact ⟨hF, Or.inl rfl⟩
  | some r =>
    cases hitem : app.heap[r]? with
    | none =>
      rw [resume_no_item app k decoded run hrun (Or.inr ⟨r, hr, hitem⟩)]
      exact ⟨hF, Or.inl rfl⟩
    | some item =>
      have hF1 : Frame touched before (app.heap.set r (settled item decoded)) :=
        frame_set touched before app.heap r item _ hF hitem (settled_sameIdentity item decoded)
          (hsub r (List.getElem?_mem hr))
      rw [resume_eq app k decoded run r item hrun hr hitem]
      split
      · exact ⟨hF1, Or.inl rfl⟩
      · exact frame_loopHead touched before _ { run with i := run.i + 1 } hF1 hsub

theorem frame_startConversion (app : App) :
    Frame (app.files.filter (app.hasStatus .pending)) app.heap (startConversion app).heap
      ∧ ((startConversion app).runs = app.runs
        ∨ (startConversion app).runs
          = app.runs ++ [{ pendingFiles := app.files.filter (app.hasStatus .pending), i := 0 }])
      := by
  unfold startConversion
  split
  · exact ⟨frame_refl _ _, Or.inl rfl⟩
  · dsimp only
    split
    · exact ⟨frame_refl _ _, Or.inl rfl⟩
    · exact frame_loopHead _ app.heap { app with button := { app.button with disabled := true } }
        _ (frame_refl _ _) (fun r hr => hr)

/-- The invariant of a run without interleaved events: the frame holds and the
run, while suspended, is the last suspended run. -/
theorem frame_conversionRun (app : App) (outcomes : List (Except Thrown AudioBuffer)) :
    Frame (app.files.filter (app.hasStatus .pending)) app.heap (conversionRun app outcomes).heap
      ∧ ((conversionRun app outcomes).runs = app.runs
        ∨ ∃ i, (conversionRun app outcomes).runs
          = app.runs ++ [{ pendingFiles := app.files.filter (app.hasStatus .pending), i := i }])
      := by
  induction outcomes using List.reverseRecOn with
  | nil =>
    obtain ⟨h1, h2⟩ := frame_startConversion app
    exact ⟨h1, h2.imp id (fun h => ⟨0, h⟩)⟩
  | append_singleton outcomes decoded ih =>
    obtain ⟨hF, hruns⟩ := ih
    have hfold : conversionRun app (outcomes ++ [decoded])
        = continueRun app.runs.length (conversionRun app outcomes) decoded := by
      simp [conversionRun, List.foldl_append]
    rw [hfold]
    unfold continueRun
    rcases hruns with hruns | ⟨i, hruns⟩
    · have hne : (conversionRun app outcomes).runs.length ≠ app.runs.length + 1 := by
        rw [hruns]; omega
      rw [if_neg hne]
      exact ⟨hF, Or.inl hruns⟩
    · have hlen : (conversionRun app outcomes).runs.length = app.runs.length + 1 := by
        rw [hruns]; simp
      rw [if_pos hlen]
      have hrun : (conversionRun app outcomes).runs[app.runs.length]?
          = some { pendingFiles := app.files.filter (app.hasStatus .pending), i := i } := by
        rw [hruns, List.getElem?_append_right (Nat.le_refl _)]
        simp
      have herase : (conversionRun app outcomes).runs.eraseIdx app.runs.length = app.runs := by
        rw [hruns, List.eraseIdx_append_of_length_le (Nat.le_refl _)]
        simp
      obtain ⟨h1, h2⟩ := frame_resume _ app.heap (conversionRun app outcomes) app.runs.length
        decoded _ hrun hF (fun r hr => hr)
      rw [herase] at h2
      exact ⟨h1, h2.imp id (fun h => ⟨i + 1, h⟩)⟩

/-- C13: a `startConversion` run modifies only items that were pending when it
started.  After the call and any number of conversion outcomes, every object
that existed before still exists and keeps its id, file, name, size and
extension; an object that is not one of the pending items of the queue at the
start keeps all its fields, in particular every item that was already
`completed` or `error` keeps its status, progress, result and error. -/
theorem c13_run_frame (app : App) (outcomes : List (Except Thrown AudioBuffer)) (r : ℕ)
    (item : FileItem) (h : app.heap[r]? = some item) :
    ∃ item', (conversionRun app outcomes).heap[r]? = some item'
      ∧ item'.id = item.id ∧ item'.name = item.name ∧ item'.size = item.size
      ∧ item'.ext = item.ext ∧ item'.file = item.file
      ∧ (r ∉ app.files.filter (app.hasStatus .pending) → item' = item)
      ∧ (item.status ≠ .pending → item' = item) := by
  obtain ⟨item', h1, ⟨a, b, c, d, e⟩, hun⟩ := (frame_conversionRun app outcomes).1 r item h
  refine ⟨item', h1, a.symm, c.symm, d.symm, e.symm, b.symm, hun, fun hst => hun ?_⟩
  intro hmem
  have hp := (List.mem_filter.mp hmem).2
  unfold App.hasStatus at hp
  rw [h] at hp
  simp only [beq_iff_eq] at hp
  exact hst hp

/-- C13 at the queue with one converted and one pending item: the run that
converts the pending item leaves the converted one as it was. -/
theorem c13_run_frame_witness :
    ∃ item', (conversionRun (pushFile afterFirstRun (newItem 2 fileB "mp3"))
        [.ok (monoBuffer (num 0))]).heap[0]? = some item'
      ∧ item'.id = (settled { newItem 1 fileA "mp3" with status := .converting }
          (.ok (monoBuffer (num 1)))).id
      ∧ item'.name = (settled { newItem 1 fileA "mp3" with status := .converting }
          (.ok (monoBuffer (num 1)))).name
      ∧ item'.size = (settled { newItem 1 fileA "mp3" with status := .converting }
          (.ok (monoBuffer (num 1)))).size
      ∧ item'.ext = (settled { newItem 1 fileA "mp3" with status := .converting }
          (.ok (monoBuffer (num 1)))).ext
      ∧ item'.file = (settled { newItem 1 fileA "mp3" with status := .converting }
          (.ok (monoBuffer (num 1)))).file
      ∧ (0 ∉ (pushFile afterFirstRun (newItem 2 fileB "mp3")).files.filter
            ((pushFile afterFirstRun (newItem 2 fileB "mp3")).hasStatus .pending) →
          item' = settled { newItem 1 fileA "mp3" with status := .converting }
            (.ok (monoBuffer (num 1))))
      ∧ ((settled { newItem 1 fileA "mp3" with status := .converting }
            (.ok (monoBuffer (num 1)))).status ≠ .pending →
          item' = settled { newItem 1 fileA "mp3" with status := .converting }
            (.ok (monoBuffer (num 1)))) :=
  c13_run_frame (pushFile afterFirstRun (newItem 2 fileB "mp3")) [.ok (monoBuffer (num 0))] 0
    (settled { newItem 1 fileA "mp3" with status := .converting } (.ok (monoBuffer (num 1))))
    (by decide!)

end AudioConverter

namespace AudioConverter
open Js Js.JsNum

/-! ### One conversion at a time -/

theorem countP_le_one {α : Type} (p : α → Bool) (l : List α)
    (h : ∀ (i j : ℕ) (a b : α), l[i]? = some a → l[j]? = some b → p a = true → p b = true →
      i = j) :
    l.countP p ≤ 1 := by
  induction l with
  | nil => simp
  | cons a l ih =>
    rw [List.countP_cons]
    by_cases ha : p a = true
    · have h0 : l.countP p = 0 := by
        rw [List.countP_eq_zero]
        intro b hb hpb
        obtain ⟨j, hj⟩ := List.getElem?_of_mem hb
        have := h 0 (j + 1) a b (by simp) (by simpa using hj) ha hpb
        omega
      simp [h0, ha]
    · have hl : l.countP p ≤ 1 :=
        ih (fun i j x y hx hy hpx hpy => by
          have := h (i + 1) (j + 1) x y (by simpa using hx) (by simpa using hy) hpx hpy
          omega)
      simp only [ha, Bool.false_eq_true, if_false]
      omega

theorem converting_le_one (app : App) (h : app.SingleFlight) : app.converting ≤ 1 := by
  unfold App.converting
  apply countP_le_one
  intro i j a b ha hb hpa hpb
  obtain ⟨run, hrun, hi⟩ := h.2 i a ha (by simpa using hpa)
  obtain ⟨run', hrun', hj⟩ := h.2 j b hb (by simpa using hpb)
  rw [hrun] at hrun'
  have : run = run' := by simpa using hrun'
  subst this
  rw [hi] at hj
  exact Option.some.inj hj

theorem singleFlight_of_idle (app : App) (h0 : app.runs = []) (h : app.Idle) :
    app.SingleFlight :=
  ⟨by simp [h0], fun r item hr hs => absurd hs (h r item hr)⟩

theorem singleFlight_loopHead (app : App) (run : Run) (h0 : app.runs = []) (h : app.Idle) :
    (loopHead app run).SingleFlight := by
  cases hp : run.pendingFiles[run.i]? with
  | none =>
    rw [loopHead_done app run hp]
    exact singleFlight_of_idle _ h0 h
  | some r =>
    cases hr : app.heap[r]? with
    | none =>
      rw [loopHead_missing app run r hp hr]
      exact singleFlight_of_idle _ h0 h
    | some item =>
      rw [loopHead_next app run r item hp hr]
      refine ⟨by simp [h0], ?_⟩
      intro r' item' hr' hs
      refine ⟨run, by simp [h0], ?_⟩
      by_cases hrr : r' = r
      · rw [hrr]; exact hp
      · have hne : r ≠ r' := fun e => hrr e.symm
        simp only [List.getElem?_set_ne hne] at hr'
        exact absurd hs (h r' item' hr')

theorem singleFlight_startConversion (app : App) (h0 : app.runs = []) (h : app.Idle) :
    (startConversion app).SingleFlight := by
  unfold startConversion
  split
  · exact singleFlight_of_idle _ h0 h
  · dsimp only
    split
    · exact singleFlight_of_idle _ h0 h
    · exact singleFlight_loopHead _ _ h0 h

theorem singleFlight_resume (app : App) (k : ℕ) (decoded : Except Thrown AudioBuffer)
    (h : app.SingleFlight) : (resume app k decoded).SingleFlight := by
  cases hk : app.runs[k]? with
  | none => rw [resume_none app k decoded hk]; exact h
  | some run =>
    have hlen : app.runs.length ≤ 1 := h.1
    have hklt : k < app.runs.length := lt_of_getElem?_eq_some _ _ _ hk
    have hk0 : k = 0 := by omega
    subst hk0
    have hruns : app.runs = [run] := by
      cases hrs : app.runs with
      | nil => rw [hrs] at hk; simp at hk
      | cons x xs =>
        rw [hrs] at hk hlen
        have hx : x = run := by simpa using hk
        have hxs : xs = [] := by
          apply List.length_eq_zero.mp
          simp only [List.length_cons] at hlen
          omega
        rw [hx, hxs]
    have herase : app.runs.eraseIdx 0 = [] := by rw [hruns]; rfl
    have hcur : ∀ (r : ℕ) (item : FileItem), app.heap[r]? = some item →
        item.status = .converting → run.pendingFiles[run.i]? = some r := by
      intro r item hr hs
      obtain ⟨run', hrun', hi⟩ := h.2 r item hr hs
      rw [hruns] at hrun'
      have : run = run' := by simpa using hrun'
      rw [this]; exact hi
    cases hp : run.pendingFiles[run.i]? with
    | none =>
      rw [resume_no_item app 0 decoded run hk (Or.inl hp), herase]
      refine singleFlight_of_idle _ rfl ?_
      intro r item hr hs
      have := hcur r item hr hs
      rw [hp] at this
      exact Option.noConfusion this
    | some r =>
      cases hitem : app.heap[r]? with
      | none =>
        rw [resume_no_item app 0 decoded run hk (Or.inr ⟨r, hp, hitem⟩), herase]
        refine singleFlight_of_idle _ rfl ?_
        intro r' item hr hs
        have := hcur r' item hr hs
        rw [hp] at this
        have hrr : r = r' := Option.some.inj this
        rw [← hrr, hitem] at hr
        exact Option.noConfusion hr
      | some item =>
        rw [resume_eq app 0 decoded run r item hk hp hitem, herase]
        have hidle : ∀ (r' : ℕ) (item' : FileItem),
            (app.heap.set r (settled item decoded))[r']? = some item' →
            item'.status ≠ .converting := by
          intro r' item' hr' hs
          by_cases hrr : r' = r
          · rw [hrr, getElem?_set_same app.heap r item _ hitem] at hr'
            have := Option.some.inj hr'
            rw [← this] at hs
            rcases settled_status item decoded with h1 | h1 <;> rw [h1] at hs <;>
              exact Status.noConfusion hs
          · have hne : r ≠ r' := fun e => hrr e.symm
            rw [List.getElem?_set_ne hne] at hr'
            have := hcur r' item' hr' hs
            rw [hp] at this
            exact hrr (Option.some.inj this).symm
        split
        · exact singleFlight_of_idle _ rfl hidle
        · exact singleFlight_loopHead _ _ rfl hidle

theorem singleFlight_handleUpload (toLowerCase : String → String) (app : App)
    (fileList : List File) (now : ℕ → ℕ) (random : ℕ → ℚ) (h : app.SingleFlight) :
    (handleUpload toLowerCase app fileList now random).SingleFlight := by
  obtain ⟨hheap, -, -, hruns, -⟩ := handleUpload_eq toLowerCase app fileList now random
  unfold App.SingleFlight
  rw [hheap, hruns]
  refine ⟨h.1, ?_⟩
  intro r item hr hs
  by_cases hlt : r < app.heap.length
  · rw [List.getElem?_append_left hlt] at hr
    exact h.2 r item hr hs
  · rw [List.getElem?_append_right (not_lt.mp hlt)] at hr
    have hmem := List.getElem?_mem hr
    have := (uploadedItems_fresh toLowerCase now random _ 0 item hmem).1
    rw [this] at hs
    exact Status.noConfusion hs

theorem removeFile_heap_runs (app : App) (id : ℚ) :
    (removeFile app id).heap = app.heap ∧ (removeFile app id).runs = app.runs
      ∧ (removeFile app id).button.disabled = app.button.disabled := by
  unfold removeFile
  dsimp only
  split <;> simp [reset]

theorem step_singleFlight (toLowerCase : String → String) (app : App) (e : Event)
    (he : e.starts = false) (h : app.SingleFlight) : (step toLowerCase app e).SingleFlight := by
  cases e with
  | upload fileList now random => exact singleFlight_handleUpload toLowerCase app _ _ _ h
  | remove id =>
    obtain ⟨hheap, hruns, -⟩ := removeFile_heap_runs app id
    unfold App.SingleFlight
    simp only [step, hheap, hruns]
    exact h
  | start => simp [Event.starts] at he
  | click => simp [Event.starts] at he
  | settle k decoded => exact singleFlight_resume app k decoded h
  | reset => exact h
  | clear => exact h

theorem trace_singleFlight (toLowerCase : String → String) (events : List Event) (app : App)
    (hev : ∀ e ∈ events, e.starts = false) (h : app.SingleFlight) :
    (trace toLowerCase app events).SingleFlight := by
  induction events generalizing app with
  | nil => exact h
  | cons e events ih =>
    unfold trace
    rw [List.foldl_cons]
    exact ih _ (fun e' he' => hev e' (List.mem_cons_of_mem _ he'))
      (step_singleFlight toLowerCase app e (hev e (List.mem_cons_self _ _)) h)

/-- C19: during a single run of `startConversion`, at most one item is
`converting`.  The run is invoked on an instance with no suspended run and no
`converting` object; whatever happens afterwards, short of another invocation of
`startConversion` (uploads, removals, `reset`, `clear`, and the settling of the
awaited conversions, with any outcome), at most one object has the status
`converting`. -/
theorem c19_one_converting_at_a_time (toLowerCase : String → String) (app : App)
    (events : List Event) (h0 : app.runs = [])
    (h1 : ∀ item ∈ app.heap, item.status ≠ .converting)
    (hev : ∀ e ∈ events, e.starts = false) :
    (trace toLowerCase (startConversion app) events).converting ≤ 1 :=
  converting_le_one _
    (trace_singleFlight toLowerCase events _ hev
      (singleFlight_startConversion app h0
        (fun _ item hr => h1 item (List.getElem?_mem hr))))

theorem c19_one_converting_at_a_time_witness :
    twoPending.runs = [] ∧ (∀ item ∈ twoPending.heap, item.status ≠ .converting)
      ∧ (startConversion twoPending).converting = 1
      ∧ (trace (fun s => s) (startConversion twoPending)
          [.settle 0 (.ok (monoBuffer (num 1))), .remove 1]).converting ≤ 1 :=
  ⟨by decide!, by decide!, by decide!,
    c19_one_converting_at_a_time (fun s => s) twoPending
      [.settle 0 (.ok (monoBuffer (num 1))), .remove 1] (by decide!) (by decide!)
      (by simp [Event.starts])⟩

end AudioConverter

namespace AudioConverter
open Js Js.JsNum

/-! ### The invariant of the item record -/

theorem hasStatus_of (app : App) (status : Status) (r : ℕ) (item : FileItem)
    (h : app.heap[r]? = some item) (hs : item.status = status) :
    app.hasStatus status r = true := by
  simp [App.hasStatus, h, hs]

theorem hasStatus_of_heap (app app' : App) (status : Status) (r : ℕ)
    (h : app'.heap[r]? = app.heap[r]?) : app'.hasStatus status r = app.hasStatus status r := by
  unfold App.hasStatus
  rw [h]

theorem consistent_unsettled (item : FileItem) (h : item.Consistent)
    (hs : item.status = .pending ∨ item.status = .converting) :
    item.result = none ∧ item.error = none := by
  obtain ⟨h1, h2⟩ := h
  constructor
  · by_contra hne
    have := h1.mp hne
    rcases hs with hs | hs <;> rw [hs] at this <;> exact Status.noConfusion this
  · by_contra hne
    have := h2.mp hne
    rcases hs with hs | hs <;> rw [hs] at this <;> exact Status.noConfusion this

theorem consistent_converting (item : FileItem) (hres : item.result = none)
    (herr : item.error = none) :
    FileItem.Consistent { item with status := .converting, progress := 0 } := by
  simp [FileItem.Consistent, hres, herr]

theorem runSound_of_heap (app app' : App) (run : Run) (h : app'.heap = app.heap)
    (hs : run.Sound app) : run.Sound app' := by
  obtain ⟨h1, h2, h3⟩ := hs
  refine ⟨h1, ?_, ?_⟩
  · intro r hr
    rw [hasStatus_of_heap app app' _ r (by rw [h])]
    exact h2 r hr
  · intro j r hj hr
    rw [hasStatus_of_heap app app' _ r (by rw [h])]
    exact h3 j r hj hr

/-- The invariant carries over to an instance with the same objects, a part of
the queue, the same suspended runs or none, and the same state of the button. -/
theorem sound_of_eq (app app' : App) (h : app.Sound) (hheap : app'.heap = app.heap)
    (hfiles : app'.files.Sublist app.files)
    (hruns : app'.runs = app.runs ∨ app'.runs = [])
    (hbtn : app'.button.disabled = app.button.disabled) : app'.Sound where
  consistent := by rw [hheap]; exact h.consistent
  nodup := h.nodup.sublist hfiles
  bound := by
    intro r hr
    rw [hheap]
    exact h.bound r (hfiles.subset hr)
  single := by
    intro run hrun
    rcases hruns with hruns | hruns
    · rw [hruns] at hrun ⊢
      obtain ⟨h1, h2, h3⟩ := h.single run hrun
      exact ⟨h1, by rw [hbtn]; exact h2, runSound_of_heap app app' run hheap h3⟩
    · rw [hruns] at hrun
      exact absurd hrun (List.not_mem_nil _)

/-- The next turn of the loop of a run that is ready, no other run being
suspended, keeps the invariant. -/
theorem sound_loopHead (app : App) (run : Run) (h0 : app.runs = [])
    (hcons : ∀ (r : ℕ) (item : FileItem), app.heap[r]? = some item → item.Consistent)
    (hnodup : app.files.Nodup) (hbound : ∀ r ∈ app.files, r < app.heap.length)
    (hbtn : app.button.disabled = true) (hready : run.Ready app) :
    (loopHead app run).Sound := by
  cases hp : run.pendingFiles[run.i]? with
  | none =>
    rw [loopHead_done app run hp]
    exact
      { consistent := hcons, nodup := hnodup, bound := hbound,
        single := by
          intro run' hrun'
          simp only [finish] at hrun'
          rw [h0] at hrun'
          exact absurd hrun' (List.not_mem_nil _) }
  | some r =>
    obtain ⟨item, hr, hs⟩ := hasStatus_eq_true app .pending r (hready.2 run.i r le_rfl hp)
    rw [loopHead_next app run r item hp hr]
    have hnone := consistent_unsettled item (hcons r item hr) (Or.inl hs)
    refine { consistent := ?_, nodup := hnodup, bound := ?_, single := ?_ }
    · intro r' item' hr'
      by_cases hrr : r' = r
      · rw [hrr] at hr'
        simp only [getElem?_set_same app.heap r item _ hr] at hr'
        rw [← Option.some.inj hr']
        exact consistent_converting item hnone.1 hnone.2
      · have hne : r ≠ r' := fun e => hrr e.symm
        simp only [List.getElem?_set_ne hne] at hr'
        exact hcons r' item' hr'
    · intro r' hr'
      simp only [List.length_set]
      exact hbound r' hr'
    · intro run' hrun'
      simp only [h0, List.nil_append, List.mem_singleton] at hrun'
      subst hrun'
      refine ⟨by simp [h0], hbtn, hready.1, ?_, ?_⟩
      · intro r' hr'
        rw [hp] at hr'
        rw [← Option.some.inj hr']
        exact hasStatus_of _ _ r _ (getElem?_set_same app.heap r item _ hr) rfl
      · intro j r' hj hr'
        have hne : r ≠ r' := by
          intro e
          rw [← e, ← hp] at hr'
          have hlt : j < run'.pendingFiles.length := by
            rw [hp] at hr'
            exact lt_of_getElem?_eq_some _ _ _ hr'
          have := List.getElem?_inj hlt hready.1 hr'
          omega
        rw [hasStatus_of_heap app _ .pending r' (List.getElem?_set_ne hne)]
        exact hready.2 j r' (Nat.le_of_lt hj) hr'

theorem sound_startConversion (app : App) (h : app.Sound) (h0 : app.runs = []) :
    (startConversion app).Sound := by
  unfold startConversion
  split
  · exact sound_of_eq app _ h rfl (List.Sublist.refl _) (Or.inl rfl) rfl
  · dsimp only
    split
    · exact sound_of_eq app _ h rfl (List.Sublist.refl _) (Or.inl rfl) rfl
    · apply sound_loopHead
      · exact h0
      · exact h.consistent
      · exact h.nodup
      · exact h.bound
      · rfl
      · refine ⟨h.nodup.filter _, ?_⟩
        intro j r _ hr
        exact (List.mem_filter.mp (List.getElem?_mem hr)).2

theorem runs_eq_singleton (app : App) (k : ℕ) (run : Run) (h : app.Sound)
    (hk : app.runs[k]? = some run) : app.runs = [run] ∧ k = 0 := by
  have hmem : run ∈ app.runs := List.getElem?_mem hk
  obtain ⟨h1, -, -⟩ := h.single run hmem
  have hlt := lt_of_getElem?_eq_some _ _ _ hk
  rw [h1] at hlt
  simp only [List.length_singleton] at hlt
  exact ⟨h1, by omega⟩

theorem sound_resume (app : App) (k : ℕ) (decoded : Except Thrown AudioBuffer) (h : app.Sound)
    (hd : decoded ≠ .error .nullish) : (resume app k decoded).Sound := by
  cases hk : app.runs[k]? with
  | none => rw [resume_none app k decoded hk]; exact h
  | some run =>
    obtain ⟨hruns, hk0⟩ := runs_eq_singleton app k run h hk
    subst hk0
    obtain ⟨-, hbtn, hnodup, hcur, hrest⟩ := h.single run (List.getElem?_mem hk)
    have herase : app.runs.eraseIdx 0 = [] := by rw [hruns]; rfl
    cases hp : run.pendingFiles[run.i]? with
    | none =>
      rw [resume_no_item app 0 decoded run hk (Or.inl hp), herase]
      exact sound_of_eq app _ h rfl (List.Sublist.refl _) (Or.inr rfl) rfl
    | some r =>
      obtain ⟨item, hitem, hs⟩ := hasStatus_eq_true app .converting r (hcur r hp)
      rw [resume_eq app 0 decoded run r item hk hp hitem, herase]
      have hraise : raises item decoded = false := by
        cases hb : raises item decoded with
        | false => rfl
        | true => exact absurd ((raises_iff item decoded).mp hb) hd
      simp only [hraise, Bool.false_eq_true, if_false]
      have hnone := consistent_unsettled item (h.consistent r item hitem) (Or.inr hs)
      apply sound_loopHead
      · rfl
      · intro r' item' hr'
        by_cases hrr : r' = r
        · rw [hrr] at hr'
          simp only [getElem?_set_same app.heap r item _ hitem] at hr'
          rw [← Option.some.inj hr']
          exact settled_consistent item decoded hnone.1 hnone.2 hd
        · have hne : r ≠ r' := fun e => hrr e.symm
          simp only [List.getElem?_set_ne hne] at hr'
          exact h.consistent r' item' hr'
      · exact h.nodup
      · intro r' hr'
        simp only [List.length_set]
        exact h.bound r' hr'
      · exact hbtn
      · refine ⟨hnodup, ?_⟩
        intro j r' hj hr'
        have hj' : run.i < j := hj
        have hne : r ≠ r' := by
          intro e
          rw [← e, ← hp] at hr'
          have hlt : j < run.pendingFiles.length := by
            rw [hp] at hr'
            exact lt_of_getElem?_eq_some _ _ _ hr'
          have := List.getElem?_inj hlt hnodup hr'
          omega
        rw [hasStatus_of_heap app _ .pending r' (List.getElem?_set_ne hne)]
        exact hrest j r' hj' hr'

theorem consistent_of_fresh (item : FileItem) (hs : item.status = .pending)
    (hres : item.result = none) (herr : item.error = none) : item.Consistent := by
  simp [FileItem.Consistent, hs, hres, herr]

theorem sound_handleUpload (toLowerCase : String → String) (app : App) (fileList : List File)
    (now : ℕ → ℕ) (random : ℕ → ℚ) (h : app.Sound) :
    (handleUpload toLowerCase app fileList now random).Sound := by
  obtain ⟨hheap, hfiles, -, hruns, hbtn, -⟩ :=
    handleUpload_eq toLowerCase app fileList now random
  have hold : ∀ r : ℕ, r < app.heap.length →
      (handleUpload toLowerCase app fileList now random).heap[r]? = app.heap[r]? := by
    intro r hr
    rw [hheap, List.getElem?_append_left hr]
  refine { consistent := ?_, nodup := ?_, bound := ?_, single := ?_ }
  · intro r item hr
    by_cases hlt : r < app.heap.length
    · rw [hold r hlt] at hr
      exact h.consistent r item hr
    · rw [hheap, List.getElem?_append_right (not_lt.mp hlt)] at hr
      obtain ⟨h1, -, h3, h4, -⟩ :=
        uploadedItems_fresh toLowerCase now random _ 0 item (List.getElem?_mem hr)
      exact consistent_of_fresh item h1 h3 h4
  · rw [hfiles]
    apply List.Nodup.append h.nodup
    · exact List.Nodup.map (fun a b hab => by simpa using hab) (List.nodup_range _)
    · intro r hr hr'
      have := h.bound r hr
      simp only [List.mem_map, List.mem_range] at hr'
      obtain ⟨j, -, hj⟩ := hr'
      omega
  · intro r hr
    rw [hfiles] at hr
    rw [hheap, List.length_append, uploadedItems_length]
    rcases List.mem_append.mp hr with hr | hr
    · have := h.bound r hr
      omega
    · simp only [List.mem_map, List.mem_range] at hr
      obtain ⟨j, hj, hjr⟩ := hr
      omega
  · intro run hrun
    rw [hruns] at hrun ⊢
    obtain ⟨h1, h2, h3, h4, h5⟩ := h.single run hrun
    refine ⟨h1, by rw [hbtn]; exact h2, h3, ?_, ?_⟩
    · intro r hr
      have hst := h4 r hr
      obtain ⟨item, hitem, -⟩ := hasStatus_eq_true app _ r hst
      rw [hasStatus_of_heap app _ _ r (hold r (lt_of_getElem?_eq_some _ _ _ hitem))]
      exact hst
    · intro j r hj hr
      have hst := h5 j r hj hr
      obtain ⟨item, hitem, -⟩ := hasStatus_eq_true app _ r hst
      rw [hasStatus_of_heap app _ _ r (hold r (lt_of_getElem?_eq_some _ _ _ hitem))]
      exact hst

theorem removeFile_files (app : App) (id : ℚ) : (removeFile app id).files.Sublist app.files := by
  unfold removeFile
  dsimp only
  split
  · simp [reset]
  · exact List.filter_sublist _

theorem sound_step (toLowerCase : String → String) (app : App) (e : Event) (h : app.Sound)
    (he : e.Orderly app) : (step toLowerCase app e).Sound := by
  cases e with
  | upload fileList now random => exact sound_handleUpload toLowerCase app _ _ _ h
  | remove id =>
    obtain ⟨hheap, hruns, hbtn⟩ := removeFile_heap_runs app id
    exact sound_of_eq app _ h hheap (removeFile_files app id) (Or.inl hruns) hbtn
  | start => exact sound_startConversion app h he
  | click =>
    simp only [step, clickConvert]
    split
    · exact h
    · rename_i hb
      apply sound_startConversion app h
      cases hruns : app.runs with
      | nil => rfl
      | cons run runs =>
        have hmem : run ∈ app.runs := by rw [hruns]; exact List.mem_cons_self _ _
        obtain ⟨-, hdis, -⟩ := h.single run hmem
        rw [hdis] at hb
        simp at hb
  | settle k decoded => exact sound_resume app k decoded h he
  | reset => exact sound_of_eq app _ h rfl (List.nil_sublist _) (Or.inl rfl) rfl
  | clear => exact sound_of_eq app _ h rfl (List.nil_sublist _) (Or.inl rfl) rfl

theorem sound_init : App.init.Sound where
  consistent := by intro r item hr; simp [App.init] at hr
  nodup := List.nodup_nil
  bound := by intro r hr; simp [App.init] at hr
  single := by intro run hrun; simp [App.init] at hrun

theorem orderly_sound (toLowerCase : String → String) (app : App)
    (h : Orderly toLowerCase app) : app.Sound := by
  induction h with
  | init => exact sound_init
  | step app e _ he ih => exact sound_step toLowerCase app e ih he

/-- C15, as the specification states it ("in every state reachable through
handleUpload, startConversion and removeFile, an item has a result exactly when
it is completed"), fails: after the upload of two files, two invocations of
`startConversion` in a row, the conversion of the second item by the second run
and the conversion of the first item by the first run, the first run has taken up
the second item again, which is now `converting` and still holds the result of
its first conversion. -/
theorem c15_converting_item_holds_result :
    overlapped.files = [0, 1]
      ∧ overlapped.heap.map (fun item => item.status) = [.completed, .converting]
      ∧ overlapped.heap.map (fun item => item.result.isSome) = [true, true]
      ∧ overlapped.heap.map (fun item => item.error) = [none, none] := by
  decide!

/-- C15, amended: in every state that the instance reaches from its construction
in the orderly use of the page (any uploads, removals, clicks on the convert
button, `reset` and `clear`; `startConversion` invoked only when no run is
suspended; the awaited conversions settling with any outcome other than a
rejection with `null` or `undefined`), every item of the queue exists and every
object has a result exactly when its status is `completed` and an error
description exactly when its status is `error`. -/
theorem c15_orderly_items_consistent (toLowerCase : String → String) (app : App)
    (h : Orderly toLowerCase app) :
    (∀ r ∈ app.files, ∃ item : FileItem, app.heap[r]? = some item)
      ∧ ∀ (r : ℕ) (item : FileItem), app.heap[r]? = some item →
          (item.result ≠ none ↔ item.status = .completed)
            ∧ (item.error ≠ none ↔ item.status = .error) := by
  have hs := orderly_sound toLowerCase app h
  refine ⟨?_, hs.consistent⟩
  intro r hr
  have hlt := hs.bound r hr
  exact ⟨app.heap[r], List.getElem?_eq_getElem hlt⟩

theorem c15_orderly_items_consistent_witness :
    Orderly (fun s => s) orderlyRun
      ∧ orderlyRun.files = [0]
      ∧ orderlyRun.heap.map (fun item => item.status) = [.completed]
      ∧ ((∀ r ∈ orderlyRun.files, ∃ item : FileItem, orderlyRun.heap[r]? = some item)
        ∧ ∀ (r : ℕ) (item : FileItem), orderlyRun.heap[r]? = some item →
            (item.result ≠ none ↔ item.status = .completed)
              ∧ (item.error ≠ none ↔ item.status = .error)) :=
  have h : Orderly (fun s => s) orderlyRun :=
    Orderly.step _ _
      (Orderly.step _ _ (Orderly.step _ _ Orderly.init trivial)
        (by simp only [Event.Orderly]; decide!))
      (by simp [Event.Orderly])
  ⟨h, by decide!, by decide!, c15_orderly_items_consistent (fun s => s) orderlyRun h⟩

end AudioConverter

namespace AudioConverter
open Js Js.JsNum

/-! ### The range and the order of the converted samples -/

theorem toInt16_of_range (v : ℤ) (h1 : -32768 ≤ v) (h2 : v ≤ 32767) : toInt16 v = v := by
  unfold toInt16
  rw [Int.emod_eq_of_lt (by omega) (by omega)]
  omega

/-- C25: for every sample value, a number of any magnitude, an infinity or NaN
(which is also what a missing element converts to), the integer that line 410
computes lies in `[-32768, 32767]`, so that the 16-bit store of line 411 keeps
it as it is. -/
theorem c25_sample_fits_int16 (x : JsNum) :
    -32768 ≤ scaleSample x ∧ scaleSample x ≤ 32767
      ∧ toInt16 (scaleSample x) = scaleSample x
      ∧ scaleSample (toNumber none) = 0 := by
  obtain ⟨h1, h2⟩ := scaleSample_range x
  exact ⟨h1, h2, toInt16_of_range _ h1 h2, scaleSample_nan⟩

theorem truncate_mono (a b : ℚ) (h : a ≤ b) : truncate a ≤ truncate b := by
  unfold truncate
  split_ifs with ha hb hb
  · exact Int.floor_mono h
  · exact absurd (le_trans ha h) hb
  · have h1 : 0 ≤ ⌊-a⌋ := Int.floor_nonneg.mpr (by linarith)
    have h2 : 0 ≤ ⌊b⌋ := Int.floor_nonneg.mpr hb
    omega
  · have h1 : ⌊-b⌋ ≤ ⌊-a⌋ := Int.floor_mono (by linarith)
    omega

theorem clamped_mono (x y : JsNum) (h : x.le y = true) : clamped x ≤ clamped y := by
  cases x <;> cases y <;> simp [JsNum.le, JsNum.lt] at h <;> simp only [clamped]
  · exact max_le_max le_rfl (min_le_min le_rfl h)
  · exact max_le (by norm_num) (min_le_left _ _)
  · exact le_rfl
  · exact le_max_left _ _
  · norm_num
  · exact le_rfl

theorem scaled_mono (c d : ℚ) (h : c ≤ d) :
    truncate (if c < -1 / 2 then c * 32768 else c * 32767)
      ≤ truncate (if d < -1 / 2 then d * 32768 else d * 32767) := by
  by_cases h1 : c < -1 / 2
  · by_cases h2 : d < -1 / 2
    · simp only [h1, h2, if_true]
      exact truncate_mono _ _ (by linarith)
    · simp only [h1, h2, if_true, if_false]
      have ha : truncate (c * 32768) ≤ truncate ((-16384 : ℤ) : ℚ) :=
        truncate_mono _ _ (by push_cast; linarith)
      have hb : truncate ((-16384 : ℤ) : ℚ) ≤ truncate (d * 32767) :=
        truncate_mono _ _ (by push_cast; push_neg at h2; linarith)
      exact le_trans ha hb
  · have h2 : ¬ d < -1 / 2 := by push_neg at h1 ⊢; linarith
    simp only [h1, h2, if_false]
    exact truncate_mono _ _ (by linarith)

/-- C26: the sample conversion of lines 409-410 is monotone.  For sample values
`x <= y` (JavaScript comparison, so that neither is NaN; the infinities are
included) the integer computed for `x` is at most the one computed for `y`, and
so is the 16-bit value that is written. -/
theorem c26_sample_conversion_monotone (x y : JsNum) (h : x.le y = true) :
    scaleSample x ≤ scaleSample y ∧ toInt16 (scaleSample x) ≤ toInt16 (scaleSample y) := by
  have hx : x ≠ nan := by rintro rfl; simp [JsNum.le] at h
  have hy : y ≠ nan := by rintro rfl; cases x <;> simp [JsNum.le] at h
  have hm : scaleSample x ≤ scaleSample y := by
    rw [scaleSample_clamped x hx, scaleSample_clamped y hy]
    exact scaled_mono _ _ (clamped_mono x y h)
  obtain ⟨a1, a2⟩ := scaleSample_range x
  obtain ⟨b1, b2⟩ := scaleSample_range y
  rw [toInt16_of_range _ a1 a2, toInt16_of_range _ b1 b2]
  exact ⟨hm, hm⟩

theorem c26_sample_conversion_monotone_witness :
    (num (-3 / 4)).le (num (-1 / 2)) = true
      ∧ scaleSample (num (-3 / 4)) = -24576 ∧ scaleSample (num (-1 / 2)) = -16383
      ∧ (scaleSample (num (-3 / 4)) ≤ scaleSample (num (-1 / 2))
        ∧ toInt16 (scaleSample (num (-3 / 4))) ≤ toInt16 (scaleSample (num (-1 / 2)))) :=
  ⟨by decide!, by decide!, by decide!,
    c26_sample_conversion_monotone (num (-3 / 4)) (num (-1 / 2)) (by decide!)⟩

end AudioConverter

namespace Js

theorem lastIndexOfAux_absent (c : Char) (l : List Char) (i : ℕ) (found : ℤ) (h : c ∉ l) :
    lastIndexOfAux c l i found = found := by
  induction l generalizing i found with
  | nil => rfl
  | cons x xs ih =>
    have hx : x ≠ c := fun e => h (by rw [e]; exact List.mem_cons_self _ _)
    have hxs : c ∉ xs := fun e => h (List.mem_cons_of_mem _ e)
    rw [lastIndexOfAux, if_neg hx]
    exact ih _ _ hxs

theorem lastIndexOfAux_last (c : Char) (pre post : List Char) (i : ℕ) (found : ℤ)
    (h : c ∉ post) :
    lastIndexOfAux c (pre ++ c :: post) i found = ((i + pre.length : ℕ) : ℤ) := by
  induction pre generalizing i found with
  | nil =>
    rw [List.nil_append, lastIndexOfAux, if_pos rfl, lastIndexOfAux_absent c post _ _ h]
    simp
  | cons x xs ih =>
    rw [List.cons_append, lastIndexOfAux, ih]
    simp only [List.length_cons]
    congr 1
    omega

theorem drop_past_separator (pre post : List Char) (c : Char) :
    (pre ++ c :: post).drop (pre.length + 1) = post := by
  induction pre with
  | nil => rfl
  | cons x xs ih => simp

theorem toUint32_neg_two : toUint32 (-1 - 1) + 2 = 4294967296 := by decide

theorem toUint32_neg_one : toUint32 (0 - 1) + 2 = 4294967297 := by decide

theorem toUint32_pred (n : ℕ) (h0 : 0 < n) (h : n < 4294967296) :
    toUint32 ((n : ℤ) - 1) + 2 = n + 1 := by
  unfold toUint32
  rw [Int.emod_eq_of_lt (by omega) (by omega)]
  omega

end Js

namespace UIUtils
open Js

/-- C23: `getFileExtension` returns the lower-cased text after the last `.` of
the name, and the empty string when the name has no `.` or its only `.` is its
first character (these three cases cover every name: the last `.` is absent, at
the first position, or later).  The name is shorter than `2^32` characters, as
every string of the platform is, and lower-casing the empty string gives the
empty string. -/
theorem c23_getFileExtension (toLowerCase : String → String) (filename : String)
    (hlen : filename.length < 4294967296) (hempty : toLowerCase "" = "") :
    ('.' ∉ filename.toList → getFileExtension toLowerCase filename = "")
      ∧ (∀ rest : List Char, filename.toList = '.' :: rest → '.' ∉ rest →
          getFileExtension toLowerCase filename = "")
      ∧ (∀ pre post : List Char, filename.toList = pre ++ '.' :: post → pre ≠ [] →
          '.' ∉ post → getFileExtension toLowerCase filename = toLowerCase (String.mk post)) := by
  have hl : filename.toList.length < 4294967296 := hlen
  refine ⟨?_, ?_, ?_⟩
  · intro h
    unfold getFileExtension Js.slice lastIndexOf
    rw [lastIndexOfAux_absent _ _ _ _ h, toUint32_neg_two,
      List.drop_eq_nil_of_le (by omega)]
    exact hempty
  · intro rest hrest h
    unfold getFileExtension Js.slice lastIndexOf
    have h0 := lastIndexOfAux_last '.' [] rest 0 (-1) h
    rw [List.nil_append, ← hrest] at h0
    rw [h0]
    simp only [List.length_nil, Nat.add_zero, Nat.cast_zero]
    rw [toUint32_neg_one, List.drop_eq_nil_of_le (by omega)]
    exact hempty
  · intro pre post hfile hpre h
    unfold getFileExtension Js.slice lastIndexOf
    have h0 := lastIndexOfAux_last '.' pre post 0 (-1) h
    rw [← hfile] at h0
    rw [h0]
    have hpos : 0 < pre.length := List.length_pos.mpr hpre
    have hlt : pre.length < 4294967296 := by
      rw [hfile, List.length_append] at hl
      omega
    rw [Nat.zero_add, toUint32_pred pre.length hpos hlt, hfile]
    rw [drop_past_separator]

theorem c23_getFileExtension_witness :
    ("track.tar.gz".length < 4294967296 ∧ (fun s : String => s) "" = "")
      ∧ getFileExtension (fun s => s) "track.tar.gz" = "gz"
      ∧ getFileExtension (fun s => s) ".bashrc" = ""
      ∧ getFileExtension (fun s => s) "README" = ""
      ∧ (('.' ∉ "track.tar.gz".toList → getFileExtension (fun s => s) "track.tar.gz" = "")
        ∧ (∀ rest : List Char, "track.tar.gz".toList = '.' :: rest → '.' ∉ rest →
            getFileExtension (fun s => s) "track.tar.gz" = "")
        ∧ (∀ pre post : List Char, "track.tar.gz".toList = pre ++ '.' :: post → pre ≠ [] →
            '.' ∉ post →
            getFileExtension (fun s => s) "track.tar.gz" = (fun s => s) (String.mk post))) :=
  ⟨⟨by decide, rfl⟩, by decide, by decide, by decide,
    c23_getFileExtension (fun s => s) "track.tar.gz" (by decide) rfl⟩

end UIUtils

namespace AudioConverter
open Js Js.JsNum

/-! ### Removal -/

/-- C24: the upload of two files, a click on the convert button, the removal of
the second item while the first is converting (the item is pending, so its
remove button is rendered) and the successful conversion of both items lead to a
state in which the second item is in `converted`, and in the archive of
`downloadAll`, but not in the queue. -/
theorem c24_removed_item_is_converted :
    (trace (fun s => s) App.init
        [.upload spacedCall.fileList spacedCall.now spacedCall.random, .click,
         .remove (1700000000000 + 3 / 4)]).runs = [{ pendingFiles := [0, 1], i := 0 }]
      ∧ (trace (fun s => s) App.init
          [.upload spacedCall.fileList spacedCall.now spacedCall.random, .click,
           .remove (1700000000000 + 3 / 4)]).statuses = [some .converting]
      ∧ removedWhilePending.files = [0]
      ∧ removedWhilePending.converted = [0, 1]
      ∧ removedWhilePending.heap.map (fun item => (item.name, item.status))
        = [("a.mp3", .completed), ("b.mp3", .completed)]
      ∧ (downloadAll removedWhilePending).map (fun a => a.entries.map (fun d => d.name))
        = some ["a.mp3", "b.mp3"] := by
  decide!

/-- C22, as the specification states it, fails: in a state in which `converted`
holds an item that the queue does not hold, the removal of the last item of the
queue empties `converted` altogether, including the entry with another id. -/
theorem c22_last_removal_empties_converted :
    removedWhilePending.files = [0]
      ∧ removedWhilePending.converted = [0, 1]
      ∧ removedWhilePending.heap.map (fun item => item.id)
        = [1700000000000 + 1 / 4, 1700000000000 + 3 / 4]
      ∧ removedWhilePending.converted.filter
          (removedWhilePending.keeps (1700000000000 + 1 / 4)) = [1]
      ∧ (removeFile removedWhilePending (1700000000000 + 1 / 4)).files = []
      ∧ (removeFile removedWhilePending (1700000000000 + 1 / 4)).converted = [] := by
  decide!

/-- C22, amended: `removeFile(id)` modifies no item; it removes from `files`
exactly the entries whose id equals `id`, the others staying in the same order;
from `converted` it removes exactly those entries too when an item remains in
the queue, and every entry when none remains (`reset`).  When every entry of
`converted` is in the queue, the two agree: exactly the entries whose id equals
`id` are removed from `converted`. -/
theorem c22_removeFile (app : App) (id : ℚ) :
    (removeFile app id).heap = app.heap
      ∧ (removeFile app id).files = app.files.filter (app.keeps id)
      ∧ (removeFile app id).converted
        = (if app.files.filter (app.keeps id) = [] then []
            else app.converted.filter (app.keeps id))
      ∧ ((∀ r ∈ app.converted, r ∈ app.files) →
          (removeFile app id).converted = app.converted.filter (app.keeps id)) := by
  have hdef : removeFile app id
      = if (app.files.filter (app.keeps id)).length = 0 then
          reset { app with files := app.files.filter (app.keeps id),
                           converted := app.converted.filter (app.keeps id) }
        else { app with files := app.files.filter (app.keeps id),
                        converted := app.converted.filter (app.keeps id) } := rfl
  have h3 : (removeFile app id).converted
      = (if app.files.filter (app.keeps id) = [] then []
          else app.converted.filter (app.keeps id)) := by
    rw [hdef]
    by_cases h : app.files.filter (app.keeps id) = []
    · simp [h, reset]
    · simp [h, List.length_eq_zero]
  refine ⟨(removeFile_heap_runs app id).1, ?_, h3, ?_⟩
  · rw [hdef]
    by_cases h : app.files.filter (app.keeps id) = []
    · simp [h, reset]
    · simp [h, List.length_eq_zero]
  · intro hsub
    rw [h3]
    by_cases h : app.files.filter (app.keeps id) = []
    · rw [if_pos h]
      symm
      rw [List.filter_eq_nil_iff] at h ⊢
      exact fun r hr => h r (hsub r hr)
    · rw [if_neg h]

theorem c22_removeFile_witness :
    (∀ r ∈ afterSecondRun.converted, r ∈ afterSecondRun.files)
      ∧ afterSecondRun.files = [0, 1] ∧ afterSecondRun.converted = [0, 1]
      ∧ (removeFile afterSecondRun 1).files = [1]
      ∧ (removeFile afterSecondRun 1).converted = [1]
      ∧ ((removeFile afterSecondRun 1).heap = afterSecondRun.heap
        ∧ (removeFile afterSecondRun 1).files = afterSecondRun.files.filter (afterSecondRun.keeps 1)
        ∧ (removeFile afterSecondRun 1).converted
          = (if afterSecondRun.files.filter (afterSecondRun.keeps 1) = [] then []
              else afterSecondRun.converted.filter (afterSecondRun.keeps 1))
        ∧ ((∀ r ∈ afterSecondRun.converted, r ∈ afterSecondRun.files) →
            (removeFile afterSecondRun 1).converted
              = afterSecondRun.converted.filter (afterSecondRun.keeps 1))) :=
  ⟨by decide!, by decide!, by decide!, by decide!, by decide!, c22_removeFile afterSecondRun 1⟩

end AudioConverter

namespace AudioConverter
open Js Js.JsNum

/-! ### The result collection -/

theorem settled_succeeded (item : FileItem) (decoded : Except Thrown AudioBuffer)
    (h : succeeded item decoded = true) :
    (settled item decoded).status = .completed ∧ (settled item decoded).result ≠ none := by
  unfold succeeded at h
  unfold settled
  rcases convert_cases item decoded with ⟨blob, hc, -⟩ | ⟨hc, -⟩ | ⟨m, hc, -⟩ <;>
    rw [hc] at h ⊢ <;> simp at h ⊢

theorem removeFile_converted (app : App) (id : ℚ) :
    (removeFile app id).converted.Sublist app.converted := by
  unfold removeFile
  dsimp only
  split
  · simp [reset]
  · exact List.filter_sublist _

/-- The entries of `converted` stay completed when an object that is not
completed is replaced. -/
theorem completed_set (heap : List FileItem) (converted : List ℕ) (r : ℕ) (item new : FileItem)
    (hr : heap[r]? = some item) (hs : item.status ≠ .completed)
    (h : ∀ r' ∈ converted, ∃ item' : FileItem,
      heap[r']? = some item' ∧ item'.status = .completed ∧ item'.result ≠ none) :
    (r ∉ converted) ∧ ∀ r' ∈ converted, ∃ item' : FileItem,
      (heap.set r new)[r']? = some item' ∧ item'.status = .completed ∧ item'.result ≠ none := by
  have hnot : r ∉ converted := by
    intro hmem
    obtain ⟨item', h1, h2, -⟩ := h r hmem
    rw [hr] at h1
    rw [Option.some.inj h1] at hs
    exact hs h2
  refine ⟨hnot, ?_⟩
  intro r' hr'
  have hne : r ≠ r' := fun e => hnot (e ▸ hr')
  rw [List.getElem?_set_ne hne]
  exact h r' hr'

/-- The invariant carries over to an instance with the same objects, parts of
the queue and of `converted`, the same suspended runs or none, and the same
state of the button. -/
theorem tidy_of_eq (app app' : App) (h : app.Tidy) (hheap : app'.heap = app.heap)
    (hfiles : app'.files.Sublist app.files) (hconv : app'.converted.Sublist app.converted)
    (hruns : app'.runs = app.runs ∨ app'.runs = [])
    (hbtn : app'.button.disabled = app.button.disabled) : app'.Tidy where
  nodup := h.nodup.sublist hfiles
  bound := by
    intro r hr
    rw [hheap]
    exact h.bound r (hfiles.subset hr)
  single := by
    intro run hrun
    rcases hruns with hruns | hruns
    · rw [hruns] at hrun ⊢
      obtain ⟨h1, h2, h3⟩ := h.single run hrun
      exact ⟨h1, by rw [hbtn]; exact h2, runSound_of_heap app app' run hheap h3⟩
    · rw [hruns] at hrun
      exact absurd hrun (List.not_mem_nil _)
  completed := by
    intro r hr
    rw [hheap]
    exact h.completed r (hconv.subset hr)
  once := h.once.sublist hconv

/-- The next turn of the loop of a run that is ready, no other run being
suspended, keeps the invariant. -/
theorem tidy_loopHead (app : App) (run : Run) (h0 : app.runs = [])
    (hnodup : app.files.Nodup) (hbound : ∀ r ∈ app.files, r < app.heap.length)
    (hbtn : app.button.disabled = true) (hready : run.Ready app)
    (hcompleted : ∀ r ∈ app.converted, ∃ item : FileItem,
      app.heap[r]? = some item ∧ item.status = .completed ∧ item.result ≠ none)
    (honce : app.converted.Nodup) :
    (loopHead app run).Tidy := by
  cases hp : run.pendingFiles[run.i]? with
  | none =>
    rw [loopHead_done app run hp]
    exact
      { nodup := hnodup, bound := hbound, completed := hcompleted, once := honce,
        single := by
          intro run' hrun'
          simp only [finish] at hrun'
          rw [h0] at hrun'
          exact absurd hrun' (List.not_mem_nil _) }
  | some r =>
    obtain ⟨item, hr, hs⟩ := hasStatus_eq_true app .pending r (hready.2 run.i r le_rfl hp)
    rw [loopHead_next app run r item hp hr]
    have hnc : item.status ≠ .completed := by rw [hs]; exact fun e => Status.noConfusion e
    refine
      { nodup := hnodup, bound := ?_, single := ?_,
        completed := (completed_set app.heap app.converted r item _ hr hnc hcompleted).2,
        once := honce }
    · intro r' hr'
      simp only [List.length_set]
      exact hbound r' hr'
    · intro run' hrun'
      simp only [h0, List.nil_append, List.mem_singleton] at hrun'
      subst hrun'
      refine ⟨by simp [h0], hbtn, hready.1, ?_, ?_⟩
      · intro r' hr'
        rw [hp] at hr'
        rw [← Option.some.inj hr']
        exact hasStatus_of _ _ r _ (getElem?_set_same app.heap r item _ hr) rfl
      · intro j r' hj hr'
        have hne : r ≠ r' := by
          intro e
          rw [← e, ← hp] at hr'
          have hlt : j < run'.pendingFiles.length := by
            rw [hp] at hr'
            exact lt_of_getElem?_eq_some _ _ _ hr'
          have := List.getElem?_inj hlt hready.1 hr'
          omega
        rw [hasStatus_of_heap app _ .pending r' (List.getElem?_set_ne hne)]
        exact hready.2 j r' (Nat.le_of_lt hj) hr'

theorem tidy_startConversion (app : App) (h : app.Tidy) (h0 : app.runs = []) :
    (startConversion app).Tidy := by
  unfold startConversion
  split
  · exact tidy_of_eq app _ h rfl (List.Sublist.refl _) (List.Sublist.refl _) (Or.inl rfl) rfl
  · dsimp only
    split
    · exact tidy_of_eq app _ h rfl (List.Sublist.refl _) (List.Sublist.refl _) (Or.inl rfl) rfl
    · apply tidy_loopHead
      · exact h0
      · exact h.nodup
      · exact h.bound
      · rfl
      · refine ⟨h.nodup.filter _, ?_⟩
        intro j r _ hr
        exact (List.mem_filter.mp (List.getElem?_mem hr)).2
      · exact h.completed
      · exact h.once

theorem tidy_resume (app : App) (k : ℕ) (decoded : Except Thrown AudioBuffer) (h : app.Tidy) :
    (resume app k decoded).Tidy := by
  cases hk : app.runs[k]? with
  | none => rw [resume_none app k decoded hk]; exact h
  | some run =>
    obtain ⟨hruns, hbtn, hnodup, hcur, hrest⟩ := h.single run (List.getElem?_mem hk)
    have hk0 : k = 0 := by
      have hlt := lt_of_getElem?_eq_some _ _ _ hk
      rw [hruns] at hlt
      simp only [List.length_singleton] at hlt
      omega
    subst hk0
    have herase : app.runs.eraseIdx 0 = [] := by rw [hruns]; rfl
    cases hp : run.pendingFiles[run.i]? with
    | none =>
      rw [resume_no_item app 0 decoded run hk (Or.inl hp), herase]
      exact tidy_of_eq app _ h rfl (List.Sublist.refl _) (List.Sublist.refl _) (Or.inr rfl) rfl
    | some r =>
      obtain ⟨item, hitem, hs⟩ := hasStatus_eq_true app .converting r (hcur r hp)
      rw [resume_eq app 0 decoded run r item hk hp hitem, herase]
      have hnc : item.status ≠ .completed := by rw [hs]; exact fun e => Status.noConfusion e
      obtain ⟨hnot, hcompleted⟩ :=
        completed_set app.heap app.converted r item (settled item decoded) hitem hnc h.completed
      have hbound : ∀ r' ∈ app.files, r' < (app.heap.set r (settled item decoded)).length := by
        intro r' hr'
        simp only [List.length_set]
        exact h.bound r' hr'
      split
      · exact
          { nodup := h.nodup, bound := hbound, completed := hcompleted, once := h.once,
            single := by intro run' hrun'; exact absurd hrun' (List.not_mem_nil _) }
      · apply tidy_loopHead
        · rfl
        · exact h.nodup
        · exact hbound
        · exact hbtn
        · refine ⟨hnodup, ?_⟩
          intro j r' hj hr'
          have hj' : run.i < j := hj
          have hne : r ≠ r' := by
            intro e
            rw [← e, ← hp] at hr'
            have hlt : j < run.pendingFiles.length := by
              rw [hp] at hr'
              exact lt_of_getElem?_eq_some _ _ _ hr'
            have := List.getElem?_inj hlt hnodup hr'
            omega
          rw [hasStatus_of_heap app _ .pending r' (List.getElem?_set_ne hne)]
          exact hrest j r' hj' hr'
        · intro r' hr'
          rcases List.mem_append.mp hr' with hr' | hr'
          · exact hcompleted r' hr'
          · cases hsucc : succeeded item decoded with
            | false => rw [hsucc] at hr'; simp at hr'
            | true =>
              rw [hsucc] at hr'
              simp only [if_true, List.mem_singleton] at hr'
              subst hr'
              obtain ⟨h1, h2⟩ := settled_succeeded item decoded hsucc
              exact ⟨_, getElem?_set_same app.heap r' item _ hitem, h1, h2⟩
        · cases hsucc : succeeded item decoded with
          | false => simpa using h.once
          | true =>
            simp only [if_true]
            exact List.Nodup.append h.once (List.nodup_singleton r)
              (by intro x hx hx'; rw [List.mem_singleton] at hx'; exact hnot (hx' ▸ hx))

theorem tidy_handleUpload (toLowerCase : String → String) (app : App) (fileList : List File)
    (now : ℕ → ℕ) (random : ℕ → ℚ) (h : app.Tidy) :
    (handleUpload toLowerCase app fileList now random).Tidy := by
  obtain ⟨hheap, hfiles, hconv, hruns, hbtn, -⟩ :=
    handleUpload_eq toLowerCase app fileList now random
  have hold : ∀ r : ℕ, r < app.heap.length →
      (handleUpload toLowerCase app fileList now random).heap[r]? = app.heap[r]? := by
    intro r hr
    rw [hheap, List.getElem?_append_left hr]
  refine { nodup := ?_, bound := ?_, single := ?_, completed := ?_, once := ?_ }
  · rw [hfiles]
    apply List.Nodup.append h.nodup
    · exact List.Nodup.map (fun a b hab => by simpa using hab) (List.nodup_range _)
    · intro r hr hr'
      have := h.bound r hr
      simp only [List.mem_map, List.mem_range] at hr'
      obtain ⟨j, -, hj⟩ := hr'
      omega
  · intro r hr
    rw [hfiles] at hr
    rw [hheap, List.length_append, uploadedItems_length]
    rcases List.mem_append.mp hr with hr | hr
    · have := h.bound r hr
      omega
    · simp only [List.mem_map, List.mem_range] at hr
      obtain ⟨j, hj, hjr⟩ := hr
      omega
  · intro run hrun
    rw [hruns] at hrun ⊢
    obtain ⟨h1, h2, h3, h4, h5⟩ := h.single run hrun
    refine ⟨h1, by rw [hbtn]; exact h2, h3, ?_, ?_⟩
    · intro r hr
      have hst := h4 r hr
      obtain ⟨item, hitem, -⟩ := hasStatus_eq_true app _ r hst
      rw [hasStatus_of_heap app _ _ r (hold r (lt_of_getElem?_eq_some _ _ _ hitem))]
      exact hst
    · intro j r hj hr
      have hst := h5 j r hj hr
      obtain ⟨item, hitem, -⟩ := hasStatus_eq_true app _ r hst
      rw [hasStatus_of_heap app _ _ r (hold r (lt_of_getElem?_eq_some _ _ _ hitem))]
      exact hst
  · intro r hr
    rw [hconv] at hr
    obtain ⟨item, hitem, h1, h2⟩ := h.completed r hr
    exact ⟨item, by rw [hold r (lt_of_getElem?_eq_some _ _ _ hitem)]; exact hitem, h1, h2⟩
  · rw [hconv]; exact h.once

theorem tidy_step (toLowerCase : String → String) (app : App) (e : Event) (h : app.Tidy)
    (he : e.Sequential app) : (step toLowerCase app e).Tidy := by
  cases e with
  | upload fileList now random => exact tidy_handleUpload toLowerCase app _ _ _ h
  | remove id =>
    obtain ⟨hheap, hruns, hbtn⟩ := removeFile_heap_runs app id
    exact tidy_of_eq app _ h hheap (removeFile_files app id) (removeFile_converted app id)
      (Or.inl hruns) hbtn
  | start => exact tidy_startConversion app h he
  | click =>
    simp only [step, clickConvert]
    split
    · exact h
    · rename_i hb
      apply tidy_startConversion app h
      cases hruns : app.runs with
      | nil => rfl
      | cons run runs =>
        have hmem : run ∈ app.runs := by rw [hruns]; exact List.mem_cons_self _ _
        obtain ⟨-, hdis, -⟩ := h.single run hmem
        rw [hdis] at hb
        simp at hb
  | settle k decoded => exact tidy_resume app k decoded h
  | reset =>
    exact tidy_of_eq app _ h rfl (List.nil_sublist _) (List.nil_sublist _) (Or.inl rfl) rfl
  | clear =>
    exact tidy_of_eq app _ h rfl (List.nil_sublist _) (List.nil_sublist _) (Or.inl rfl) rfl

theorem tidy_init : App.init.Tidy where
  nodup := List.nodup_nil
  bound := by intro r hr; simp [App.init] at hr
  single := by intro run hrun; simp [App.init] at hrun
  completed := by intro r hr; simp [App.init] at hr
  once := List.nodup_nil

theorem sequential_tidy (toLowerCase : String → String) (app : App)
    (h : Sequential toLowerCase app) : app.Tidy := by
  induction h with
  | init => exact tidy_init
  | step app e _ he ih => exact tidy_step toLowerCase app e ih he

/-- C21, as the specification states it ("in every reachable state"), fails:
after two invocations of `startConversion` in a row on two pending items, the
second run completes the second item and the first run, having completed the
first item, takes the second item up again.  The second item is then an entry of
`converted` with the status `converting`; when its second conversion succeeds it
is pushed on `converted` again, and `downloadAll` adds it to the archive twice. -/
theorem c21_converted_entry_converting_and_twice :
    overlapped.converted = [1, 0]
      ∧ overlapped.heap.map (fun item => item.status) = [.completed, .converting]
      ∧ overlappedAgain.converted = [1, 0, 1]
      ∧ (downloadAll overlappedAgain).map (fun a => a.entries.map (fun d => d.name))
        = some ["b.mp3", "a.mp3", "b.mp3"] := by
  decide!

/-- C21, amended: in every state that the instance reaches from its
construction when `startConversion` is invoked only while no earlier invocation
is suspended (with any uploads, removals, `reset`, `clear`, clicks on the convert
button, and the awaited conversions settling with any outcome), every entry of
`converted` is an item whose status is `completed` and whose result is not null,
and no item appears in `converted` more than once. -/
theorem c21_converted_entries (toLowerCase : String → String) (app : App)
    (h : Sequential toLowerCase app) :
    (∀ r ∈ app.converted, ∃ item : FileItem,
        app.heap[r]? = some item ∧ item.status = .completed ∧ item.result ≠ none)
      ∧ app.converted.Nodup :=
  ⟨(sequential_tidy toLowerCase app h).completed, (sequential_tidy toLowerCase app h).once⟩

theorem c21_converted_entries_witness :
    Sequential (fun s => s) sequentialRun
      ∧ sequentialRun.converted = [1]
      ∧ sequentialRun.heap.map (fun item => item.status) = [.error, .completed]
      ∧ ((∀ r ∈ sequentialRun.converted, ∃ item : FileItem,
          sequentialRun.heap[r]? = some item ∧ item.status = .completed ∧ item.result ≠ none)
        ∧ sequentialRun.converted.Nodup) :=
  have h : Sequential (fun s => s) sequentialRun :=
    Sequential.step _ _
      (Sequential.step _ _
        (Sequential.step _ _
          (Sequential.step _ _ (Sequential.step _ _ Sequential.init trivial) trivial)
          trivial)
        (by simp only [Event.Sequential]; decide!))
      trivial
  ⟨h, by decide!, by decide!, c21_converted_entries (fun s => s) sequentialRun h⟩

end AudioConverter

namespace IdCardTool
open Js

/-! ### The check character of `calcCheck` -/

theorem char_eq_of_toNat (a b : Char) (h : a.toNat = b.toNat) : a = b := by
  rw [← Char.ofNat_toNat a, ← Char.ofNat_toNat b, h]

theorem digit_bounds (c : Char) (h : c.isDigit = true) : 48 ≤ c.toNat ∧ c.toNat ≤ 57 := by
  simp only [Char.isDigit, Bool.and_eq_true, decide_eq_true_eq] at h
  exact h

theorem charValue_digit (c : Char) (h : c.isDigit = true) : charValue c = c.toNat - 48 := by
  unfold charValue
  have hx : c ≠ 'X' := by
    rintro rfl
    exact absurd h (by decide)
  rw [if_neg hx]

theorem weights_getElem? (n : ℕ) (h : n < 17) : weights[n]? = some (weights.getD n 0) := by
  interval_cases n <;> rfl

theorem weights_bounds (n : ℕ) (h : n < 17) :
    1 ≤ weights.getD n 0 ∧ weights.getD n 0 ≤ 10 := by
  interval_cases n <;> decide

theorem positionWeights_eq (n : ℕ) (h : n < 17) :
    positionWeights.getD n 0 = weights.getD n 0 := by
  interval_cases n <;> rfl

/-- The sum of `calcCheck` on digits: after `n` turns of the loop, the sum of the
first `n` digits times their weights. -/
theorem weightedSum_digits (l : List Char) (n : ℕ) (hn : n ≤ 17) (hl : n ≤ l.length)
    (hd : ∀ c ∈ l, c.isDigit = true) :
    weightedSum l n
      = some (∑ i in Finset.range n, ((l.getD i '0').toNat - 48) * weights.getD i 0) := by
  induction n with
  | zero => rfl
  | succ n ih =>
    have hlt : n < l.length := by omega
    have hget : l[n]? = some l[n] := List.getElem?_eq_getElem hlt
    have hdig : l[n].isDigit = true := hd _ (List.getElem_mem hlt)
    rw [weightedSum, ih (by omega) (by omega), hget, weights_getElem? n (by omega)]
    simp only [parseIntChar, hdig, if_true]
    rw [Finset.sum_range_succ, List.getD_eq_getElem?_getD l n, hget]
    rfl

theorem calcCheck_digits (d : String) (h : IsDigits 17 d) :
    calcCheck d
      = checkCodes[(∑ i in Finset.range 17,
          ((d.toList.getD i '0').toNat - 48) * weights.getD i 0) % 11]? := by
  unfold calcCheck
  have hl : 17 ≤ d.toList.length := by
    have : d.toList.length = 17 := h.1
    omega
  rw [weightedSum_digits d.toList 17 le_rfl hl h.2]

theorem checkCodes_closes (k : ℕ) (h : k < 11) :
    ∃ c : Char, checkCodes[k]? = some c ∧ (c.isDigit = true ∨ c = 'X')
      ∧ (k + charValue c) % 11 = 1 := by
  interval_cases k <;> exact ⟨_, rfl, by decide, by decide⟩

/-- C27: for every string `d` of 17 decimal digits, `calcCheck(d)` is a digit or
`X`, and the 18-character number `d + calcCheck(d)` satisfies the ISO 7064
MOD 11-2 condition: the sum over its 18 positions of the value of the character
(`X` counting as 10) times the weight of the position (7, 9, 10, 5, 8, 4, 2, 1,
6, 3, 7, 9, 10, 5, 8, 4, 2, and 1 for the check position) is congruent to 1
modulo 11. -/
theorem c27_check_character (d : String) (h : IsDigits 17 d) :
    ∃ c : Char, calcCheck d = some c ∧ (c.isDigit = true ∨ c = 'X')
      ∧ isoSum (d.toList ++ [c]) % 11 = 1 := by
  have hlen : d.toList.length = 17 := h.1
  obtain ⟨c, hc, hkind, hmod⟩ :=
    checkCodes_closes
      ((∑ i in Finset.range 17, ((d.toList.getD i '0').toNat - 48) * weights.getD i 0) % 11)
      (Nat.mod_lt _ (by norm_num))
  refine ⟨c, by rw [calcCheck_digits d h]; exact hc, hkind, ?_⟩
  unfold isoSum
  rw [Finset.sum_range_succ]
  have hsum : ∑ i in Finset.range 17,
        charValue ((d.toList ++ [c]).getD i '0') * positionWeights.getD i 0
      = ∑ i in Finset.range 17, ((d.toList.getD i '0').toNat - 48) * weights.getD i 0 := by
    apply Finset.sum_congr rfl
    intro i hi
    have hi' : i < 17 := Finset.mem_range.mp hi
    have hlt : i < d.toList.length := by omega
    rw [List.getD_append _ _ _ i hlt, positionWeights_eq i hi']
    have hmem : d.toList.getD i '0' ∈ d.toList := by
      rw [List.getD_eq_getElem?_getD, List.getElem?_eq_getElem hlt]
      exact List.getElem_mem hlt
    rw [charValue_digit _ (h.2 _ hmem)]
  have hlast : (d.toList ++ [c]).getD 17 '0' = c := by
    rw [List.getD_eq_getElem?_getD, List.getElem?_append_right (by omega), hlen]
    rfl
  have hw : positionWeights.getD 17 0 = 1 := rfl
  rw [hsum, hlast, hw]
  omega

theorem c27_check_character_witness :
    IsDigits 17 exampleId17 ∧ calcCheck exampleId17 = some 'X'
      ∧ ∃ c : Char, calcCheck exampleId17 = some c ∧ (c.isDigit = true ∨ c = 'X')
        ∧ isoSum (exampleId17.toList ++ [c]) % 11 = 1 :=
  ⟨⟨by decide, by decide⟩, by decide, c27_check_character exampleId17 ⟨by decide, by decide⟩⟩

theorem weight_cancels (w a b : ℕ) (hw1 : 1 ≤ w) (hw2 : w ≤ 10) (ha : a < 10) (hb : b < 10)
    (h : (a * w) % 11 = (b * w) % 11) : a = b := by
  interval_cases w <;> omega

theorem checkCodes_injective (j k : ℕ) (hj : j < 11)
    (h : checkCodes[j]? = checkCodes[k]?) : j = k :=
  List.getElem?_inj (by simpa [checkCodes] using hj) (by decide) h

/-- C28: `calcCheck` detects every single-digit error.  For every string `d` of
17 decimal digits, every position `i` and every digit `c` other than the digit
of `d` at `i`, the string with `c` at position `i` has another check
character. -/
theorem c28_single_digit_error (d : String) (i : ℕ) (c : Char) (h : IsDigits 17 d)
    (hi : i < 17) (hc : c.isDigit = true) (hne : d.toList[i]? ≠ some c) :
    calcCheck (String.mk (d.toList.set i c)) ≠ calcCheck d := by
  have hlen : d.toList.length = 17 := h.1
  have hlt : i < d.toList.length := by omega
  have h' : IsDigits 17 (String.mk (d.toList.set i c)) := by
    refine ⟨?_, ?_⟩
    · show (d.toList.set i c).length = 17
      rw [List.length_set]; exact hlen
    · intro x hx
      rcases List.mem_or_eq_of_mem_set hx with hx | hx
      · exact h.2 x hx
      · rw [hx]; exact hc
  rw [calcCheck_digits d h, calcCheck_digits _ h']
  intro heq
  have hmod := checkCodes_injective _ _ (Nat.mod_lt _ (by norm_num)) heq
  have hmem : i ∈ Finset.range 17 := Finset.mem_range.mpr hi
  rw [← Finset.add_sum_erase _ _ hmem, ← Finset.add_sum_erase _ _ hmem] at hmod
  have hrest : ∑ x ∈ (Finset.range 17).erase i,
        (((String.mk (d.toList.set i c)).toList.getD x '0').toNat - 48) * weights.getD x 0
      = ∑ x ∈ (Finset.range 17).erase i,
        ((d.toList.getD x '0').toNat - 48) * weights.getD x 0 := by
    apply Finset.sum_congr rfl
    intro x hx
    have hxi : i ≠ x := fun e => (Finset.mem_erase.mp hx).1 e.symm
    show (((d.toList.set i c).getD x '0').toNat - 48) * _ = _
    rw [List.getD_eq_getElem?_getD, List.getElem?_set_ne hxi, ← List.getD_eq_getElem?_getD]
  have hnew : (String.mk (d.toList.set i c)).toList.getD i '0' = c := by
    show (d.toList.set i c).getD i '0' = c
    rw [List.getD_eq_getElem?_getD,
      AudioConverter.getElem?_set_same d.toList i _ c (List.getElem?_eq_getElem hlt)]
    rfl
  have hold : d.toList.getD i '0' = d.toList[i] := by
    rw [List.getD_eq_getElem?_getD, List.getElem?_eq_getElem hlt]
    rfl
  rw [hrest, hnew, hold] at hmod
  have key : ∀ A B R : ℕ, (A + R) % 11 = (B + R) % 11 → A % 11 = B % 11 := by
    intro A B R hABR
    omega
  have hcanc := key _ _ _ hmod
  obtain ⟨hw1, hw2⟩ := weights_bounds i hi
  obtain ⟨c1, c2⟩ := digit_bounds c hc
  obtain ⟨d1, d2⟩ := digit_bounds _ (h.2 _ (List.getElem_mem hlt))
  have hval := weight_cancels _ _ _ hw1 hw2 (by omega) (by omega) hcanc
  have htoNat : d.toList[i].toNat = c.toNat := by omega
  have hchar : d.toList[i] = c := char_eq_of_toNat _ _ htoNat
  apply hne
  rw [List.getElem?_eq_getElem hlt, hchar]

theorem c28_single_digit_error_witness :
    IsDigits 17 exampleId17 ∧ exampleId17.toList[16]? ≠ some '3'
      ∧ calcCheck exampleId17 = some 'X'
      ∧ calcCheck "11010519491231003" = some '8'
      ∧ calcCheck (String.mk (exampleId17.toList.set 16 '3')) ≠ calcCheck exampleId17 :=
  ⟨⟨by decide, by decide⟩, by decide, by decide, by decide,
    c28_single_digit_error exampleId17 16 '3' ⟨by decide, by decide⟩ (by decide) (by decide)
      (by decide)⟩

end IdCardTool

namespace IdCardTool
open Js

/-! ### The numbers of `generateIDs` and the verdict of `queryID` -/

/-- C29: for the birth date 1990-01-01, the gender option `male` and the random
draw 0.5, `generateIDs` produces a number of 19 characters: `seq` is
`500 * 2 + 1 = 1001`, which `padStart(3, '0')` leaves at four digits, so that
`id17` has 18 characters, and the check character, computed from the first 17 of
them, is appended as the 19th.  `queryID` reports a format error for this
number.  The same happens for `female` with the draw 1023/1024; with a draw below
0.5, or without a gender, the number has 18 characters and is accepted. -/
theorem c29_gendered_number_has_19_characters :
    generateIDs exampleBirth "male" 1 (fun _ => 1 / 2) = ["110101199001011001X"]
      ∧ (generateIDs exampleBirth "male" 1 (fun _ => 1 / 2)).map String.length = [19]
      ∧ (generateIDs exampleBirth "male" 1 (fun _ => 1 / 2)).map
          (queryID (fun s => s) (fun s => s)) = [.formatError]
      ∧ generateIDs exampleBirth "female" 1 (fun _ => 1023 / 1024) = ["1101011990010119980"]
      ∧ generateIDs exampleBirth "male" 1 (fun _ => 1 / 4) = ["110101199001015019"]
      ∧ (generateIDs exampleBirth "male" 1 (fun _ => 1 / 4)).map
          (queryID (fun s => s) (fun s => s)) = [.correct "1990" "01" "01" true]
      ∧ generateIDs exampleBirth "" 1 (fun _ => 1 / 2) = ["110101199001015000"] := by
  decide!

theorem testPattern_iff (id : String) :
    testPattern id = true
      ↔ id.length = 18 ∧ (∀ c ∈ id.toList.take 17, c.isDigit = true)
        ∧ ∃ c : Char, id.toList[17]? = some c ∧ (c.isDigit = true ∨ c = 'X' ∨ c = 'x') := by
  unfold testPattern
  cases h17 : id.toList[17]? with
  | none => simp
  | some c => simp [List.all_eq_true, and_assoc, or_assoc]

theorem isDigits_substr (id : String) (hlen : id.length = 18)
    (hd : ∀ c ∈ id.toList.take 17, c.isDigit = true) : IsDigits 17 (substr id 0 17) := by
  have hl : id.toList.length = 18 := hlen
  refine ⟨?_, ?_⟩
  · show ((id.toList.drop 0).take 17).length = 17
    rw [List.drop_zero, List.length_take]
    omega
  · intro c hc
    exact hd c (by simpa [substr] using hc)

theorem calcCheck_kind (d : String) (h : IsDigits 17 d) :
    ∃ c : Char, calcCheck d = some c ∧ (c.isDigit = true ∨ c = 'X') := by
  rw [calcCheck_digits d h]
  obtain ⟨c, hc, hkind, -⟩ := checkCodes_closes _ (Nat.mod_lt _ (by norm_num))
  exact ⟨c, hc, hkind⟩

theorem queryID_cases (trim toUpperCase : String → String) (value : String) :
    (toUpperCase (trim value) = "" ∧ queryID trim toUpperCase value = .prompt)
      ∨ (toUpperCase (trim value) ≠ "" ∧ testPattern (toUpperCase (trim value)) = false
        ∧ queryID trim toUpperCase value = .formatError)
      ∨ (toUpperCase (trim value) ≠ "" ∧ testPattern (toUpperCase (trim value)) = true
        ∧ (toUpperCase (trim value)).toList[17]?
            ≠ calcCheck (substr (toUpperCase (trim value)) 0 17)
        ∧ queryID trim toUpperCase value
            = .checkError (calcCheck (substr (toUpperCase (trim value)) 0 17)))
      ∨ (toUpperCase (trim value) ≠ "" ∧ testPattern (toUpperCase (trim value)) = true
        ∧ (toUpperCase (trim value)).toList[17]?
            = calcCheck (substr (toUpperCase (trim value)) 0 17)
        ∧ ∃ (year month day : String) (male : Bool),
            queryID trim toUpperCase value = .correct year month day male) := by
  unfold queryID
  generalize toUpperCase (trim value) = id
  by_cases h0 : id = ""
  · exact Or.inl ⟨h0, by simp [h0]⟩
  · cases ht : testPattern id with
    | false => exact Or.inr (Or.inl ⟨h0, rfl, by simp [h0, ht]⟩)
    | true =>
      by_cases hc : id.toList[17]? = calcCheck (substr id 0 17)
      · refine Or.inr (Or.inr (Or.inr ⟨h0, rfl, hc, substr id 6 4, substr id 10 2,
          substr id 12 2,
          (match parseIntChar id.toList[16]? with
            | some digit => digit % 2 == 1
            | none => false), ?_⟩))
        simp only [h0, ht, if_false, Bool.not_true, Bool.false_eq_true, ne_eq]
        exact (if_neg (not_not.mpr hc)).trans rfl
      · have hc' : ¬ id.data[17]? = calcCheck (substr id 0 17) := hc
        exact Or.inr (Or.inr (Or.inl ⟨h0, rfl, hc, by simp [h0, ht, hc']⟩))

/-- C30: `queryID` reports the entered number as correct if and only if, after
trimming and upper-casing, it consists of 17 decimal digits followed by a digit
or `X` and its 18th character equals `calcCheck` of the first 17.  Otherwise,
for an entry that is not blank, it reports a format error (when the pattern does
not match) or a check-code error that names `calcCheck` of the first 17
characters, which differs from the 18th; for a blank entry it shows the toast
that asks for a number. -/
theorem c30_queryID (trim toUpperCase : String → String) (value : String) :
    ((∃ (year month day : String) (male : Bool),
          queryID trim toUpperCase value = .correct year month day male)
        ↔ HasForm (toUpperCase (trim value)) ∧ HasCheck (toUpperCase (trim value)))
      ∧ (toUpperCase (trim value) ≠ "" →
          ¬ (HasForm (toUpperCase (trim value)) ∧ HasCheck (toUpperCase (trim value))) →
          (queryID trim toUpperCase value = .formatError
              ∧ testPattern (toUpperCase (trim value)) = false)
            ∨ ∃ check : Char,
                calcCheck (substr (toUpperCase (trim value)) 0 17) = some check
                  ∧ (toUpperCase (trim value)).toList[17]? ≠ some check
                  ∧ queryID trim toUpperCase value = .checkError (some check))
      ∧ (toUpperCase (trim value) = "" → queryID trim toUpperCase value = .prompt) := by
  have hcases := queryID_cases trim toUpperCase value
  generalize toUpperCase (trim value) = id at hcases ⊢
  generalize queryID trim toUpperCase value = report at hcases ⊢
  have hform : ∀ (hp : testPattern id = true)
      (hc : id.toList[17]? = calcCheck (substr id 0 17)), HasForm id := by
    intro hp hc
    obtain ⟨hlen, hd, c, h17, hkind⟩ := (testPattern_iff id).mp hp
    obtain ⟨c', hc', hkind'⟩ := calcCheck_kind _ (isDigits_substr id hlen hd)
    rw [hc', h17] at hc
    rw [← Option.some.inj hc] at hkind'
    exact ⟨hlen, hd, c, h17, hkind'⟩
  have hpat : HasForm id → testPattern id = true := by
    rintro ⟨hlen, hd, c, h17, hkind⟩
    exact (testPattern_iff id).mpr
      ⟨hlen, hd, c, h17, hkind.elim Or.inl (fun h => Or.inr (Or.inl h))⟩
  rcases hcases with ⟨h0, hr⟩ | ⟨h0, hp, hr⟩ | ⟨h0, hp, hc, hr⟩ | ⟨h0, hp, hc, hr⟩
  · refine ⟨⟨?_, ?_⟩, fun hne => absurd h0 hne, fun _ => hr⟩
    · rintro ⟨y, m, d, g, h⟩
      rw [hr] at h
      exact Report.noConfusion h
    · rintro ⟨⟨hlen, -⟩, -⟩
      rw [h0] at hlen
      exact absurd hlen (by decide)
  · refine ⟨⟨?_, ?_⟩, fun _ _ => Or.inl ⟨hr, hp⟩, fun he => absurd he h0⟩
    · rintro ⟨y, m, d, g, h⟩
      rw [hr] at h
      exact Report.noConfusion h
    · rintro ⟨hf, -⟩
      rw [hpat hf] at hp
      exact Bool.noConfusion hp
  · obtain ⟨hlen, hd, c, h17, -⟩ := (testPattern_iff id).mp hp
    obtain ⟨c', hc', -⟩ := calcCheck_kind _ (isDigits_substr id hlen hd)
    refine ⟨⟨?_, ?_⟩, fun _ _ => Or.inr ⟨c', hc', by rw [← hc']; exact hc, by rw [hr, hc']⟩,
      fun he => absurd he h0⟩
    · rintro ⟨y, m, d, g, h⟩
      rw [hr] at h
      exact Report.noConfusion h
    · rintro ⟨-, hk⟩
      exact absurd hk hc
  · refine ⟨⟨fun _ => ⟨hform hp hc, hc⟩, fun _ => hr⟩, ?_, fun he => absurd he h0⟩
    intro _ hnot
    exact absurd ⟨hform hp hc, hc⟩ hnot

theorem c30_queryID_witness :
    queryID (fun s => s) (fun s => s) "11010519491231002X" = .correct "1949" "12" "31" false
      ∧ queryID (fun s => s) (fun s => s) "110105194912310021" = .checkError (some 'X')
      ∧ queryID (fun s => s) (fun s => s) "1101051949123100" = .formatError
      ∧ queryID (fun s => s) (fun s => s) "" = .prompt
      ∧ (((∃ (year month day : String) (male : Bool),
            queryID (fun s => s) (fun s => s) "11010519491231002X"
              = .correct year month day male)
          ↔ HasForm "11010519491231002X" ∧ HasCheck "11010519491231002X")
        ∧ ("11010519491231002X" ≠ "" →
            ¬ (HasForm "11010519491231002X" ∧ HasCheck "11010519491231002X") →
            (queryID (fun s => s) (fun s => s) "11010519491231002X" = .formatError
                ∧ testPattern "11010519491231002X" = false)
              ∨ ∃ check : Char,
                  calcCheck (substr "11010519491231002X" 0 17) = some check
                    ∧ "11010519491231002X".toList[17]? ≠ some check
                    ∧ queryID (fun s => s) (fun s => s) "11010519491231002X"
                      = .checkError (some check))
        ∧ ("11010519491231002X" = "" →
            queryID (fun s => s) (fun s => s) "11010519491231002X" = .prompt)) :=
  ⟨by decide, by decide, by decide, by decide,
    c30_queryID (fun s => s) (fun s => s) "11010519491231002X"⟩

end IdCardTool

namespace AudioConverter
open Js Js.JsNum

/-! ### The item that a run has processed -/

/-- C11, as the specification states it ("for every item processed by a
startConversion run"), fails: after two invocations of `startConversion` in a
row on two pending items, the second run completes the second item and the first
run takes it up again; when this second conversion fails, the item ends in the
state `error` with an error description and still holds the result of its first
conversion. -/
theorem c11_failed_item_keeps_result :
    overlapped.runs = [{ pendingFiles := [0, 1], i := 1 }]
      ∧ overlapped.heap.map (fun item => item.status) = [.completed, .converting]
      ∧ overlappedFailure.runs = []
      ∧ overlappedFailure.heap.map (fun item => item.status) = [.completed, .error]
      ∧ overlappedFailure.heap.map (fun item => item.error) = [none, some "EncodingError"]
      ∧ overlappedFailure.heap.map (fun item => item.result.isSome) = [true, true] := by
  decide!

theorem settled_ok (item : FileItem) (buffer : AudioBuffer) (blob : Blob)
    (h : audioBufferToWav buffer.length buffer = .ok blob) :
    settled item (.ok buffer)
      = { item with progress := 100, status := .completed, result := some blob } := by
  unfold settled convertWithAudioContext
  dsimp only
  rw [h]

theorem settled_encode_error (item : FileItem) (buffer : AudioBuffer) (failure : Failure)
    (h : audioBufferToWav buffer.length buffer = .error failure) :
    settled item (.ok buffer) = { item with status := .error, error := some "RangeError" } := by
  unfold settled convertWithAudioContext
  dsimp only
  rw [h]
  simp

theorem settled_decode_error (item : FileItem) (message : Option String) :
    (settled item (.error (.object message))).status = .error
      ∧ (∃ text : String, (settled item (.error (.object message))).error = some text
          ∧ text ≠ "")
      ∧ (settled item (.error (.object message))).result = item.result
      ∧ (settled item (.error (.object message))).progress = item.progress := by
  cases message with
  | none => exact ⟨rfl, ⟨_, rfl, by decide⟩, rfl, rfl⟩
  | some m =>
    by_cases h : m = ""
    · subst h
      exact ⟨rfl, ⟨_, rfl, by decide⟩, rfl, rfl⟩
    · refine ⟨rfl, ⟨m, ?_, h⟩, rfl, rfl⟩
      show some (if m = "" then "转换失败" else m) = some m
      rw [if_neg h]

/-- The object behind the item that a run of the orderly use was waiting for,
after the continuation of the run. -/
theorem resume_current (app : App) (k : ℕ) (decoded : Except Thrown AudioBuffer) (run : Run)
    (r : ℕ) (item : FileItem) (h : app.Sound) (hk : app.runs[k]? = some run)
    (hr : run.pendingFiles[run.i]? = some r) (hitem : app.heap[r]? = some item)
    (hd : decoded ≠ .error .nullish) :
    (resume app k decoded).heap[r]? = some (settled item decoded)
      ∧ item.status = .converting ∧ item.result = none ∧ item.error = none := by
  obtain ⟨-, -, hnodup, hcur, hrest⟩ := h.single run (List.getElem?_mem hk)
  obtain ⟨item₀, hitem₀, hs₀⟩ := hasStatus_eq_true app .converting r (hcur r hr)
  rw [hitem] at hitem₀
  have hs : item.status = .converting := by rw [Option.some.inj hitem₀]; exact hs₀
  have hnone := consistent_unsettled item (h.consistent r item hitem) (Or.inr hs)
  refine ⟨?_, hs, hnone.1, hnone.2⟩
  rw [resume_eq app k decoded run r item hk hr hitem]
  have hraise : raises item decoded = false := by
    cases hb : raises item decoded with
    | false => rfl
    | true => exact absurd ((raises_iff item decoded).mp hb) hd
  simp only [hraise, Bool.false_eq_true, if_false]
  cases hp : run.pendingFiles[run.i + 1]? with
  | none =>
    rw [loopHead_done _ _ hp]
    exact getElem?_set_same app.heap r item _ hitem
  | some r' =>
    have hne : r' ≠ r := by
      intro e
      rw [e, ← hr] at hp
      have hlt : run.i + 1 < run.pendingFiles.length := by
        rw [hr] at hp
        exact lt_of_getElem?_eq_some _ _ _ hp
      have := List.getElem?_inj hlt hnodup hp
      omega
    obtain ⟨item', hitem', -⟩ :=
      hasStatus_eq_true app .pending r' (hrest (run.i + 1) r' (Nat.lt_succ_self _) hp)
    have hnext : (app.heap.set r (settled item decoded))[r']? = some item' := by
      rw [List.getElem?_set_ne (fun e => hne e.symm)]
      exact hitem'
    rw [loopHead_next _ _ r' item' hp hnext]
    show ((app.heap.set r (settled item decoded)).set r' _)[r]? = _
    rw [List.getElem?_set_ne hne]
    exact getElem?_set_same app.heap r item _ hitem

/-- C11, amended: in the orderly use of the page (no invocation of
`startConversion` while an earlier one is suspended), the item that a run is
waiting for has no result and no error description, and when its conversion
settles, the rejection value being an object, the run leaves it as follows.  If
decode and encode succeed, it is `completed` with progress 100, the encoded blob
as its result and no error description.  If decoding fails, or if the encoder
throws, it is in the state `error` with a non-empty error description (the
message of the error or the fallback text), no result, and the progress it had. -/
theorem c11_processed_item (toLowerCase : String → String) (app : App) (k : ℕ)
    (decoded : Except Thrown AudioBuffer) (run : Run) (r : ℕ) (item : FileItem)
    (h : Orderly toLowerCase app) (hk : app.runs[k]? = some run)
    (hr : run.pendingFiles[run.i]? = some r) (hitem : app.heap[r]? = some item)
    (hd : decoded ≠ .error .nullish) :
    ∃ item' : FileItem, (resume app k decoded).heap[r]? = some item'
      ∧ (∀ (buffer : AudioBuffer) (blob : Blob), decoded = .ok buffer →
          audioBufferToWav buffer.length buffer = .ok blob →
          item'.status = .completed ∧ item'.progress = 100 ∧ item'.result = some blob
            ∧ item'.error = none)
      ∧ (∀ (buffer : AudioBuffer) (failure : Failure), decoded = .ok buffer →
          audioBufferToWav buffer.length buffer = .error failure →
          item'.status = .error ∧ (∃ text : String, item'.error = some text ∧ text ≠ "")
            ∧ item'.result = none ∧ item'.progress = item.progress)
      ∧ (∀ thrown : Thrown, decoded = .error thrown →
          item'.status = .error ∧ (∃ text : String, item'.error = some text ∧ text ≠ "")
            ∧ item'.result = none ∧ item'.progress = item.progress) := by
  obtain ⟨hheap, -, hres, herr⟩ :=
    resume_current app k decoded run r item (orderly_sound toLowerCase app h) hk hr hitem hd
  refine ⟨settled item decoded, hheap, ?_, ?_, ?_⟩
  · intro buffer blob hdec henc
    rw [hdec, settled_ok item buffer blob henc]
    exact ⟨rfl, rfl, rfl, herr⟩
  · intro buffer failure hdec henc
    rw [hdec, settled_encode_error item buffer failure henc]
    exact ⟨rfl, ⟨_, rfl, by decide⟩, hres, rfl⟩
  · intro thrown hdec
    cases thrown with
    | nullish => exact absurd hdec hd
    | object message =>
      rw [hdec]
      obtain ⟨h1, h2, h3, h4⟩ := settled_decode_error item message
      exact ⟨h1, h2, by rw [h3]; exact hres, h4⟩

theorem c11_processed_item_witness :
    Orderly (fun s => s) orderlyStart
      ∧ orderlyStart.runs[0]? = some { pendingFiles := [0], i := 0 }
      ∧ orderlyStart.heap[0]? = some startedItem
      ∧ (resume orderlyStart 0 (.error (.object none))).heap.map
          (fun item => (item.status, item.error, item.result, item.progress))
        = [(.error, some "转换失败", none, 0)]
      ∧ ∃ item' : FileItem,
          (resume orderlyStart 0 (.error (.object none))).heap[0]? = some item'
          ∧ (∀ (buffer : AudioBuffer) (blob : Blob),
              (.error (.object none) : Except Thrown AudioBuffer) = .ok buffer →
              audioBufferToWav buffer.length buffer = .ok blob →
              item'.status = .completed ∧ item'.progress = 100 ∧ item'.result = some blob
                ∧ item'.error = none)
          ∧ (∀ (buffer : AudioBuffer) (failure : Failure),
              (.error (.object none) : Except Thrown AudioBuffer) = .ok buffer →
              audioBufferToWav buffer.length buffer = .error failure →
              item'.status = .error ∧ (∃ text : String, item'.error = some text ∧ text ≠ "")
                ∧ item'.result = none ∧ item'.progress = startedItem.progress)
          ∧ (∀ thrown : Thrown,
              (.error (.object none) : Except Thrown AudioBuffer) = .error thrown →
              item'.status = .error ∧ (∃ text : String, item'.error = some text ∧ text ≠ "")
                ∧ item'.result = none ∧ item'.progress = startedItem.progress) :=
  have h : Orderly (fun s => s) orderlyStart :=
    Orderly.step _ _ (Orderly.step _ _ Orderly.init trivial)
      (by simp only [Event.Orderly]; decide!)
  ⟨h, by decide!, by decide!, by decide!,
    c11_processed_item (fun s => s) orderlyStart 0 (.error (.object none))
      { pendingFiles := [0], i := 0 } 0 startedItem h (by decide!) (by decide!) (by decide!)
      (by simp)⟩

end AudioConverter

namespace AudioConverter
open Js Js.JsNum

/-! ### The order of a run -/

/-- C20, as the specification states it, fails: after two invocations of
`startConversion` in a row on three pending items, the first run over the items
`[0, 1, 2]` and the second over `[1, 2]`, the second run completes item 1 and
takes up item 2, the first run completes item 0 and takes up item 1 again, and
the second run completes item 2 and finishes (its toast is shown).  At that
moment item 1, which was pending when the second run started and which that run
has processed, is `converting`. -/
theorem c20_item_converting_when_run_finishes :
    (trace (fun s => s) App.init
        [.upload threeCall.fileList threeCall.now threeCall.random, .start, .start]).runs
        = [{ pendingFiles := [0, 1, 2], i := 0 }, { pendingFiles := [1, 2], i := 0 }]
      ∧ (trace (fun s => s) App.init
          [.upload threeCall.fileList threeCall.now threeCall.random, .start, .start,
           .settle 1 (.ok (monoBuffer (num 1))),
           .settle 0 (.ok (monoBuffer (num 1)))]).runs
        = [{ pendingFiles := [1, 2], i := 1 }, { pendingFiles := [0, 1, 2], i := 1 }]
      ∧ finishedBesideConverting.runs = [{ pendingFiles := [0, 1, 2], i := 1 }]
      ∧ finishedBesideConverting.toasts = [.added 3, .converted 3]
      ∧ finishedBesideConverting.statuses
        = [some .completed, some .converting, some .completed] := by
  decide!

theorem runProgress_of_status (pendingFiles : List ℕ) (done : ℕ) (app app' : App)
    (hruns : app'.runs = app.runs)
    (hheap : ∀ (status : Status) (r : ℕ), app.hasStatus status r = true →
      app'.hasStatus status r = true)
    (h : RunProgress pendingFiles done app) : RunProgress pendingFiles done app' := by
  obtain ⟨h1, h2, h3⟩ := h
  refine ⟨?_, ?_, ?_⟩
  · intro j r hj hr
    rcases h1 j r hj hr with hs | hs
    · exact Or.inl (hheap _ r hs)
    · exact Or.inr (hheap _ r hs)
  · intro hlt
    obtain ⟨ha, hb, hc⟩ := h2 hlt
    exact ⟨by rw [hruns]; exact ha, fun r hr => hheap _ r (hb r hr),
      fun j r hj hr => hheap _ r (hc j r hj hr)⟩
  · intro hle
    rw [hruns]
    exact h3 hle

theorem runProgress_start (app : App) (h0 : app.runs = []) (hnodup : app.files.Nodup) :
    RunProgress (app.files.filter (app.hasStatus .pending)) 0 (startConversion app) := by
  have hidle : ∀ a : App, a.runs = [] →
      (app.files.filter (app.hasStatus .pending)).length = 0 →
      RunProgress (app.files.filter (app.hasStatus .pending)) 0 a := by
    intro a ha hlen
    exact ⟨fun j r hj => absurd hj (Nat.not_lt_zero j), fun hlt => by omega, fun _ => ha⟩
  unfold startConversion
  by_cases hf : app.files.length = 0
  · rw [if_pos hf]
    apply hidle _ h0
    rw [List.length_eq_zero.mp hf]
    rfl
  · rw [if_neg hf]
    dsimp only
    by_cases hp : (app.files.filter (app.hasStatus .pending)).length = 0
    · rw [if_pos hp]
      exact hidle _ h0 hp
    · rw [if_neg hp]
      generalize hP : app.files.filter (app.hasStatus .pending) = P at hp ⊢
      have hPn : P.Nodup := by rw [← hP]; exact hnodup.filter _
      have hpend : ∀ (j r : ℕ), P[j]? = some r → app.hasStatus .pending r = true := by
        intro j r hr
        have hmem : r ∈ P := List.getElem?_mem hr
        rw [← hP] at hmem
        exact (List.mem_filter.mp hmem).2
      have hlt : 0 < P.length := Nat.pos_of_ne_zero hp
      have h0r : P[0]? = some P[0] := List.getElem?_eq_getElem hlt
      obtain ⟨item, hitem, -⟩ := hasStatus_eq_true app .pending P[0] (hpend 0 _ h0r)
      rw [loopHead_next { app with button := { app.button with disabled := true } }
        { pendingFiles := P, i := 0 } P[0] item h0r hitem]
      refine ⟨fun j r hj => absurd hj (Nat.not_lt_zero j), fun _ => ⟨?_, ?_, ?_⟩,
        fun hle => by omega⟩
      · simp [h0]
      · intro r hr
        rw [h0r] at hr
        rw [← Option.some.inj hr]
        exact hasStatus_of _ _ _ _ (getElem?_set_same app.heap P[0] item _ hitem) rfl
      · intro j r hj hr
        have hne : P[0] ≠ r := by
          intro e
          rw [← e, ← h0r] at hr
          have := List.getElem?_inj hlt hPn hr.symm
          omega
        rw [hasStatus_of_heap app _ .pending r (List.getElem?_set_ne hne)]
        exact hpend j r hr

/-- The continuation of the only run, the rejection value being an object,
settles the item at position `done` and takes up the next one, or finishes. -/
theorem runProgress_resume (pendingFiles : List ℕ) (done : ℕ) (app : App)
    (decoded : Except Thrown AudioBuffer) (hP : pendingFiles.Nodup)
    (h : RunProgress pendingFiles done app) (hd : decoded ≠ .error .nullish) :
    RunProgress pendingFiles (done + 1) (resume app 0 decoded) := by
  obtain ⟨h1, h2, h3⟩ := h
  by_cases hlt : done < pendingFiles.length
  · obtain ⟨hruns, hcur, hrest⟩ := h2 hlt
    have hr : pendingFiles[done]? = some pendingFiles[done] := List.getElem?_eq_getElem hlt
    generalize pendingFiles[done] = r at hr
    obtain ⟨item, hitem, -⟩ := hasStatus_eq_true app .converting r (hcur r hr)
    have hk : app.runs[0]? = some { pendingFiles := pendingFiles, i := done } := by
      rw [hruns]; rfl
    rw [resume_eq app 0 decoded _ r item hk hr hitem]
    have herase : app.runs.eraseIdx 0 = [] := by rw [hruns]; rfl
    have hraise : raises item decoded = false := by
      cases hb : raises item decoded with
      | false => rfl
      | true => exact absurd ((raises_iff item decoded).mp hb) hd
    simp only [hraise, Bool.false_eq_true, if_false, herase]
    have hsettled : ∀ a : App, a.heap[r]? = some (settled item decoded) →
        a.hasStatus .completed r = true ∨ a.hasStatus .error r = true := by
      intro a hh
      rcases settled_status item decoded with hs | hs
      · exact Or.inl (hasStatus_of a _ r _ hh hs)
      · exact Or.inr (hasStatus_of a _ r _ hh hs)
    have hkeep : ∀ (a : App) (status : Status) (r' : ℕ), a.heap[r']? = app.heap[r']? →
        app.hasStatus status r' = true → a.hasStatus status r' = true := by
      intro a status r' hh hs
      rw [hasStatus_of_heap app a status r' hh]
      exact hs
    have hindex : ∀ (j r' : ℕ), pendingFiles[j]? = some r' → j ≠ done → r ≠ r' := by
      intro j r' hj hjd e
      rw [← e, ← hr] at hj
      exact hjd (List.getElem?_inj hlt hP hj.symm).symm
    cases hp : pendingFiles[done + 1]? with
    | none =>
      have hlen : pendingFiles.length ≤ done + 1 := by
        by_contra hcon
        rw [List.getElem?_eq_getElem (by omega)] at hp
        exact Option.noConfusion hp
      rw [loopHead_done _ _ hp]
      refine ⟨?_, fun hlt' => by omega, fun _ => rfl⟩
      intro j r' hj hr'
      by_cases hjd : j = done
      · rw [hjd, hr] at hr'
        rw [← Option.some.inj hr']
        exact hsettled _ (getElem?_set_same app.heap r item _ hitem)
      · have hne := hindex j r' hr' hjd
        have hh : (app.heap.set r (settled item decoded))[r']? = app.heap[r']? :=
          List.getElem?_set_ne hne
        rcases h1 j r' (by omega) hr' with hs | hs
        · exact Or.inl (hkeep _ _ r' hh hs)
        · exact Or.inr (hkeep _ _ r' hh hs)
    | some r' =>
      have hlen : done + 1 < pendingFiles.length := lt_of_getElem?_eq_some _ _ _ hp
      have hne : r ≠ r' := hindex (done + 1) r' hp (by omega)
      obtain ⟨item', hitem', -⟩ :=
        hasStatus_eq_true app .pending r' (hrest (done + 1) r' (Nat.lt_succ_self _) hp)
      have hnext : (app.heap.set r (settled item decoded))[r']? = some item' := by
        rw [List.getElem?_set_ne hne]
        exact hitem'
      rw [loopHead_next _ _ r' item' hp hnext]
      refine ⟨?_, fun _ => ⟨rfl, ?_, ?_⟩, fun hle => by omega⟩
      · intro j r'' hj hr''
        have hne' : r' ≠ r'' := by
          intro e
          rw [← e, ← hp] at hr''
          have := List.getElem?_inj (by omega : j < pendingFiles.length) hP hr''
          omega
        by_cases hjd : j = done
        · rw [hjd, hr] at hr''
          have hrr : r = r'' := Option.some.inj hr''
          rw [← hrr] at hne' ⊢
          exact hsettled _ (by
            show ((app.heap.set r (settled item decoded)).set r' _)[r]? = _
            rw [List.getElem?_set_ne hne']
            exact getElem?_set_same app.heap r item _ hitem)
        · have hne2 := hindex j r'' hr'' hjd
          have hh : ((app.heap.set r (settled item decoded)).set r'
              { item' with status := .converting, progress := 0 })[r'']? = app.heap[r'']? := by
            rw [List.getElem?_set_ne hne', List.getElem?_set_ne hne2]
          rcases h1 j r'' (by omega) hr'' with hs | hs
          · exact Or.inl (hkeep _ _ r'' hh hs)
          · exact Or.inr (hkeep _ _ r'' hh hs)
      · intro r'' hr''
        rw [hp] at hr''
        rw [← Option.some.inj hr'']
        exact hasStatus_of _ _ _ _ (getElem?_set_same _ r' item' _ hnext) rfl
      · intro j r'' hj hr''
        have hne' : r' ≠ r'' := by
          intro e
          rw [← e, ← hp] at hr''
          have := List.getElem?_inj hlen hP hr''.symm
          omega
        have hne2 := hindex j r'' hr'' (by omega)
        have hh : ((app.heap.set r (settled item decoded)).set r'
            { item' with status := .converting, progress := 0 })[r'']? = app.heap[r'']? := by
          rw [List.getElem?_set_ne hne', List.getElem?_set_ne hne2]
        exact hkeep _ _ r'' hh (hrest j r'' (by omega) hr'')
  · have hle : pendingFiles.length ≤ done := not_lt.mp hlt
    have hruns := h3 hle
    rw [resume_none app 0 decoded (by rw [hruns]; rfl)]
    refine ⟨?_, fun hlt' => by omega, fun _ => hruns⟩
    intro j r hj hr
    have hjlt := lt_of_getElem?_eq_some _ _ _ hr
    exact h1 j r (by omega) hr

theorem runProgress_runs (pendingFiles : List ℕ) (done : ℕ) (app : App)
    (h : RunProgress pendingFiles done app) : app.runs.length ≤ 1 := by
  obtain ⟨-, h2, h3⟩ := h
  by_cases hlt : done < pendingFiles.length
  · rw [(h2 hlt).1]; simp
  · rw [h3 (not_lt.mp hlt)]; simp

theorem runProgress_step (toLowerCase : String → String) (pendingFiles : List ℕ) (done : ℕ)
    (app : App) (e : Event) (hP : pendingFiles.Nodup) (h : RunProgress pendingFiles done app)
    (he : e.Passive) :
    RunProgress pendingFiles (done + (if e.settlesFirst = true then 1 else 0))
      (step toLowerCase app e) := by
  cases e with
  | upload fileList now random =>
    obtain ⟨hheap, -, -, hruns, -⟩ := handleUpload_eq toLowerCase app fileList now random
    refine runProgress_of_status _ _ app (handleUpload toLowerCase app fileList now random)
      hruns ?_ h
    intro status r hs
    obtain ⟨item, hitem, -⟩ := hasStatus_eq_true app status r hs
    rw [hasStatus_of_heap app _ status r
      (by rw [hheap, List.getElem?_append_left (lt_of_getElem?_eq_some _ _ _ hitem)])]
    exact hs
  | remove id =>
    obtain ⟨hheap, hruns, -⟩ := removeFile_heap_runs app id
    refine runProgress_of_status _ _ app (removeFile app id) hruns ?_ h
    intro status r hs
    rw [hasStatus_of_heap app _ status r (by rw [hheap])]
    exact hs
  | start => exact absurd he (by simp [Event.Passive])
  | click => exact absurd he (by simp [Event.Passive])
  | settle k decoded =>
    cases k with
    | zero => exact runProgress_resume pendingFiles done app decoded hP h he
    | succ k =>
      have hlen := runProgress_runs pendingFiles done app h
      have hnone : app.runs[k + 1]? = none := List.getElem?_eq_none (by omega)
      simp only [step, Event.settlesFirst, Bool.false_eq_true, if_false, Nat.add_zero]
      rw [resume_none app (k + 1) decoded hnone]
      exact h
  | reset => exact runProgress_of_status _ _ app _ rfl (fun _ _ hs => hs) h
  | clear => exact runProgress_of_status _ _ app _ rfl (fun _ _ hs => hs) h

theorem runProgress_trace (toLowerCase : String → String) (pendingFiles : List ℕ)
    (hP : pendingFiles.Nodup) (events : List Event) (done : ℕ) (app : App)
    (h : RunProgress pendingFiles done app) (hev : ∀ e ∈ events, e.Passive) :
    RunProgress pendingFiles (done + events.countP Event.settlesFirst)
      (trace toLowerCase app events) := by
  induction events generalizing done app with
  | nil => exact h
  | cons e events ih =>
    unfold trace
    rw [List.foldl_cons, List.countP_cons]
    have hstep := runProgress_step toLowerCase pendingFiles done app e hP h
      (hev e (List.mem_cons_self _ _))
    have := ih _ _ hstep (fun e' he' => hev e' (List.mem_cons_of_mem _ he'))
    unfold trace at this
    have hc : done + (List.countP Event.settlesFirst events
        + if Event.settlesFirst e = true then 1 else 0)
        = done + (if e.settlesFirst = true then 1 else 0)
          + List.countP Event.settlesFirst events := by omega
    rw [hc]
    exact this

/-- C20, amended: a run of `startConversion` that is invoked while no other run
is suspended, and during which `startConversion` is not invoked again, processes
exactly the items that were pending at its start, in their queue order.  Any
uploads, removals, `reset` and `clear` may happen meanwhile, and the conversions
settle with any outcome whose rejection value is an object.  After `done`
conversions have settled, the first `done` of these items are `completed` or
`error`; as long as the run is not through, it is suspended on the item at
position `done`, which is `converting`, and the items after it are still
`pending`; once all conversions have settled the run has finished and every one
of these items is `completed` or `error`. -/
theorem c20_run_in_queue_order (toLowerCase : String → String) (app : App)
    (events : List Event) (pendingFiles : List ℕ) (done : ℕ)
    (h0 : app.runs = []) (hnodup : app.files.Nodup)
    (hP : pendingFiles = app.files.filter (app.hasStatus .pending))
    (hdone : done = events.countP Event.settlesFirst)
    (hev : ∀ e ∈ events, e.Passive) :
    (∀ (j r : ℕ), j < done → pendingFiles[j]? = some r →
        (trace toLowerCase (startConversion app) events).hasStatus .completed r = true
          ∨ (trace toLowerCase (startConversion app) events).hasStatus .error r = true)
      ∧ (done < pendingFiles.length →
          (trace toLowerCase (startConversion app) events).runs
              = [{ pendingFiles := pendingFiles, i := done }]
            ∧ (∀ r : ℕ, pendingFiles[done]? = some r →
                (trace toLowerCase (startConversion app) events).hasStatus .converting r = true)
            ∧ ∀ (j r : ℕ), done < j → pendingFiles[j]? = some r →
                (trace toLowerCase (startConversion app) events).hasStatus .pending r = true)
      ∧ (pendingFiles.length ≤ done →
          (trace toLowerCase (startConversion app) events).runs = []
            ∧ ∀ r ∈ pendingFiles,
                (trace toLowerCase (startConversion app) events).hasStatus .completed r = true
                  ∨ (trace toLowerCase (startConversion app) events).hasStatus .error r
                    = true) := by
  have hPn : pendingFiles.Nodup := by rw [hP]; exact hnodup.filter _
  have hstart : RunProgress pendingFiles 0 (startConversion app) := by
    rw [hP]; exact runProgress_start app h0 hnodup
  have h := runProgress_trace toLowerCase pendingFiles hPn events 0 _ hstart hev
  rw [Nat.zero_add, ← hdone] at h
  obtain ⟨h1, h2, h3⟩ := h
  refine ⟨h1, h2, fun hle => ⟨h3 hle, ?_⟩⟩
  intro r hr
  obtain ⟨j, hj⟩ := List.getElem?_of_mem hr
  exact h1 j r (by have := lt_of_getElem?_eq_some _ _ _ hj; omega) hj

theorem c20_run_in_queue_order_witness :
    twoPending.runs = [] ∧ twoPending.files.Nodup
      ∧ [0, 1] = twoPending.files.filter (twoPending.hasStatus .pending)
      ∧ (trace (fun s => s) (startConversion twoPending)
          [.settle 0 (.ok (monoBuffer (num 1))), .remove 2,
           .settle 0 (.error (.object none))]).statuses = [some .completed]
      ∧ (trace (fun s => s) (startConversion twoPending)
          [.settle 0 (.ok (monoBuffer (num 1))), .remove 2,
           .settle 0 (.error (.object none))]).heap.map (fun item => item.status)
        = [.completed, .error]
      ∧ ([0, 1].length ≤ 2 →
          (trace (fun s => s) (startConversion twoPending)
            [.settle 0 (.ok (monoBuffer (num 1))), .remove 2,
             .settle 0 (.error (.object none))]).runs = []
            ∧ ∀ r ∈ [0, 1],
                (trace (fun s => s) (startConversion twoPending)
                  [.settle 0 (.ok (monoBuffer (num 1))), .remove 2,
                   .settle 0 (.error (.object none))]).hasStatus .completed r = true
                  ∨ (trace (fun s => s) (startConversion twoPending)
                    [.settle 0 (.ok (monoBuffer (num 1))), .remove 2,
                     .settle 0 (.error (.object none))]).hasStatus .error r = true) :=
  ⟨by decide!, by decide!, by decide!, by decide!, by decide!,
    (c20_run_in_queue_order (fun s => s) twoPending
      [.settle 0 (.ok (monoBuffer (num 1))), .remove 2, .settle 0 (.error (.object none))]
      [0, 1] 2 (by decide!) (by decide!) (by decide!) (by decide!)
      (by
        intro e he
        simp only [List.mem_cons, List.mem_singleton, List.not_mem_nil, or_false] at he
        rcases he with rfl | rfl | rfl <;> simp [Event.Passive])).2.2⟩

end AudioConverter
